import Mathlib

/-!
# Verification of the mazes library core (cell/grid/maze model and carving algorithms)

This file gives a shallow embedding, in Lean 4, of the core of the `mazes`
repository: the `Cell`/`Grid`/`Maze` data model (`cell.py`, `grid.py`, `maze.py`),
the generic prioritized search spanning-tree engine (`recursive_backtracker.py`),
the bounded-fan-out binary variants (`binary_search_tree.py`), Wilson's algorithm
(`wilson.py`), the Aldous-Broder family (`aldous_broder.py`), hunt-and-kill
(`hunt_kill.py`), the Aldous-Broder/Wilson hybrid (`aldous_broder_wilson.py`) and
the surface grids (`cylinder_grid.py`, `torus_grid.py`, `Moebius_grid.py`).

Modelling conventions:

* Cells are arena indices (`CellId := Nat`); object identity in Python becomes
  index identity here.  A maze's mutable state is a `MazeState`: per cell its
  neighbor table, node set, wall dictionary and passage dictionary, exactly the
  four `Cell` attributes `_neighbors`, `_nodes`, `_walls`, `_passages`.
* Python dicts are insertion-ordered association lists with unique keys;
  `dictSet` is `d[k] = v` (updating in place preserves the position of the key,
  otherwise the pair is appended), `dictPop` is `del d[k]`.
* Python's `random.choice`, `random.randrange` and `random.shuffle` are modelled
  by oracles: a stream of numbers used modulo the relevant length, and a stream
  of permutations.  A theorem quantified over all oracles covers every outcome of
  the random choices.
* Loops whose termination depends on the random stream are modelled by a step
  function iterated a given number of times (`loopIter`), with a `done` test; a
  run "terminates" when the `done` state is reached within the iteration budget.
  Loops with an intrinsic termination measure are ordinary recursive functions.
* Python integer `%` and `//` on a positive modulus agree with `Int.emod` and
  `Int.fdiv`.
-/

namespace Mazes

abbrev CellId := Nat

/-- Keys of an association list (a Python dict's key view, in insertion order). -/
def keysOf {α β : Type} (d : List (α × β)) : List α := d.map Prod.fst

/-- Python dict assignment `d[k] = v`: if the key exists its value is replaced in
place, otherwise the pair is appended at the end (insertion order semantics). -/
def dictSet {α β : Type} [DecidableEq α] (d : List (α × β)) (k : α) (v : β) : List (α × β) :=
  if k ∈ keysOf d then d.map (fun p => if p.1 = k then (k, v) else p) else d ++ [(k, v)]

/-- Python dict deletion `del d[k]` (no error if the key is absent; the callers
guard with a membership test). -/
def dictPop {α β : Type} [DecidableEq α] (d : List (α × β)) (k : α) : List (α × β) :=
  d.filter (fun p => p.1 ≠ k)

/-- Python dict lookup `d.get(k)` / `d[k]`. -/
def dictGet {α β : Type} [DecidableEq α] (d : List (α × β)) (k : α) : Option β :=
  (d.find? (fun p => p.1 = k)).map Prod.snd

/-- The mutable state of all cells of a maze: the four per-cell attributes of
`class Cell` in `cell.py`.  `nbrs` is the value list of the direction-keyed
neighbor dictionary `_neighbors` (its direction keys are fixed at construction
and only its value list is read by the carving algorithms, via the property
`Cell.neighbors`); `nodesOf` is `_nodes`; `wallsOf` is `_walls` (direction
labels abstracted away, keeping the list of incident wall keys); `pass` is the
passage dictionary `_passages : cell -> weight`. -/
structure MazeState where
  nbrs : CellId → List CellId
  nodesOf : CellId → Finset (Int × Int)
  wallsOf : CellId → List ((Int × Int) × (Int × Int))
  pass : CellId → List (CellId × Int)

/-- `Cell.linkto(cell, weight)` from `cell.py`: carve a directed link; a falsy
argument (`None`) is silently ignored (`if cell:`). -/
def linkto (s : MazeState) (c : CellId) (cell : Option CellId) (weight : Int) : MazeState :=
  match cell with
  | none => s
  | some d => { s with pass := fun x => if x = c then dictSet (s.pass c) d weight else s.pass x }

/-- `Cell.link(cell, weight)` from `cell.py`: `self.linkto(cell)` followed by
`cell.linkto(self)`.  When `cell` is `None` the first call is a no-op and the
second call raises `AttributeError` (`None` has no method `linkto`); the error
value carries the state at the moment the exception is raised. -/
def link (s : MazeState) (c : CellId) (cell : Option CellId) (weight : Int) :
    Except (String × MazeState) MazeState :=
  let s1 := linkto s c cell weight
  match cell with
  | none => .error ("AttributeError: NoneType object has no attribute linkto", s1)
  | some d => .ok (linkto s1 d (some c) weight)

/-- The effect of `a.link(b)` for two actual cells, with the default weight 1:
both directed passages are carved. -/
def linkCells (s : MazeState) (a b : CellId) : MazeState :=
  linkto (linkto s a (some b) 1) b (some a) 1

/-- `Cell.passages` property: the key list of the passage dictionary. -/
def passages (s : MazeState) (c : CellId) : List CellId := keysOf (s.pass c)

/-- `Cell.isLinkedTo(cell)`: directed passage membership test. -/
def isLinkedTo (s : MazeState) (a b : CellId) : Prop := b ∈ passages s a

instance (s : MazeState) (a b : CellId) : Decidable (isLinkedTo s a b) := by
  unfold isLinkedTo; infer_instance

theorem link_some_eq (s : MazeState) (a b : CellId) :
    link s a (some b) 1 = .ok (linkCells s a b) := rfl

/-! ## Grid construction (grid.py `RectangularGrid` and the surface grids)

A grid is built from row/column extents and a coordinate transform
`transform(x, y) -> (x', y')` (`RectangularGrid.transform` and its overrides in
`cylinder_grid.py`, `torus_grid.py`, `Moebius_grid.py`).  Node identity is the
transformed coordinate pair (the `_nodes` dictionary is keyed by it, and a
repeated key only replaces the stored marker object); wall identity is the
unordered pair (`frozenset`) of its two node keys; cells are keyed by the raw
`(row, col)` index. -/

abbrev Transform := Int → Int → Int × Int

/-- `RectangularGrid.transform`: the identity. -/
def rectTransform : Transform := fun x y => (x, y)

/-- `CylinderGrid.transform`: wrap the column, `(x % self.cols, y)`. -/
def cylinderTransform (cols : Nat) : Transform := fun x y => (x % (cols : Int), y)

/-- `TorusGrid.transform`: wrap both, `(x % self.cols, y % self.rows)`. -/
def torusTransform (rows cols : Nat) : Transform :=
  fun x y => (x % (cols : Int), y % (rows : Int))

/-- `MoebiusGrid.transform`: wrap the column and mirror the row on odd wraps,
`q = x // cols; x' = x % cols; y' = y if q even else rows - y - 1`.
(Python `//` on a positive divisor is `Int.ediv`, written `/` here.) -/
def moebiusTransform (rows cols : Nat) : Transform := fun x y =>
  let q := x / (cols : Int)
  (x % (cols : Int), if q % 2 = 0 then y else (rows : Int) - y - 1)

/-- Append an element if absent: the effect of a Python dict assignment on the
key list (`_nodes[point] = ...`, `_walls[index] = ...`). -/
def insertNew {α : Type} [DecidableEq α] (l : List α) (a : α) : List α :=
  if a ∈ l then l else l ++ [a]

/-- The node insertion order of `RectangularGrid.initialize`: `i` over
`range(rows+1)` outside, `j` over `range(cols+1)` inside, key `transform(j, i)`. -/
def nodesList (rows cols : Nat) (tf : Transform) : List (Int × Int) :=
  ((List.range (rows+1)).flatMap fun i => (List.range (cols+1)).map fun j => (i, j)).foldl
    (fun acc p => insertNew acc (tf p.2 p.1)) []

/-- Cell key insertion order of `RectangularGrid.initialize`: row-major `(i, j)`. -/
def cellsIdx (rows cols : Nat) : List (Nat × Nat) :=
  (List.range rows).flatMap fun i => (List.range cols).map fun j => (i, j)

/-- Lexicographic order on coordinate pairs, used only to pick a canonical
ordering of an unordered node pair. -/
def coordLe (a b : Int × Int) : Bool := a.1 < b.1 || (a.1 = b.1 && a.2 ≤ b.2)

/-- The wall key `frozenset([node1, node2])` of `_build_wall`, represented as
the canonically ordered pair, so that the two cells bordering a shared wall
produce the identical key (a boundary-identified "loop" wall, a frozenset with
a single member, is the pair `(a, a)`). -/
def wallKey (a b : Int × Int) : (Int × Int) × (Int × Int) :=
  if coordLe a b then (a, b) else (b, a)

/-- The four wall keys of cell `(i, j)` in the order built by
`configure_walls`: south `{sw,se}`, east `{se,ne}`, north `{ne,nw}`,
west `{nw,sw}`, with corner nodes `sw = transform(j,i)`, `se = transform(j+1,i)`,
`ne = transform(j+1,i+1)`, `nw = transform(j,i+1)`. -/
def wallKeys (tf : Transform) (i j : Nat) : List ((Int × Int) × (Int × Int)) :=
  let sw := tf j i
  let se := tf (j+1) i
  let ne := tf (j+1) (i+1)
  let nw := tf j (i+1)
  [wallKey sw se, wallKey se ne, wallKey ne nw, wallKey nw sw]

/-- The corner node set of cell `(i, j)` (`cell._nodes`). -/
def cornerSet (tf : Transform) (i j : Nat) : Finset (Int × Int) :=
  {tf j i, tf (j+1) i, tf (j+1) (i+1), tf j (i+1)}

/-- The wall dictionary key list, in insertion order (`_build_wall` inserts a
`frozenset([node1, node2])` key only if absent). -/
def wallsList (rows cols : Nat) (tf : Transform) : List ((Int × Int) × (Int × Int)) :=
  (cellsIdx rows cols).foldl (fun acc p => (wallKeys tf p.1 p.2).foldl insertNew acc) []

/-- `Grid.v`: number of nodes. -/
def gridV (rows cols : Nat) (tf : Transform) : Nat := (nodesList rows cols tf).length

/-- `Grid.e`: number of walls. -/
def gridE (rows cols : Nat) (tf : Transform) : Nat := (wallsList rows cols tf).length

/-- `Grid.f`: number of cells. -/
def gridF (rows cols : Nat) : Nat := (cellsIdx rows cols).length

/-- `tuple(reversed(transform(...)))` used by `configure_neighborhood`. -/
def swapPair (p : Int × Int) : Int × Int := (p.2, p.1)

/-- `Grid.__getitem__`: look up a cell by `(row, col)` index; absent keys give
`None`.  Cells are modelled as arena indices `i*cols + j` in insertion order. -/
def cellAt (rows cols : Nat) (p : Int × Int) : Option CellId :=
  if 0 ≤ p.1 ∧ p.1 < (rows : Int) ∧ 0 ≤ p.2 ∧ p.2 < (cols : Int) then
    some (p.1.toNat * cols + p.2.toNat)
  else none

/-- The neighbor value list of cell `(i, j)` after `configure_neighborhood`:
directions are inserted in the order south, east, north, west, and a `None`
lookup result is skipped by `Cell.__setitem__`. -/
def nbrsAt (rows cols : Nat) (tf : Transform) (i j : Nat) : List CellId :=
  let s := cellAt rows cols (swapPair (tf j ((i : Int) - 1)))
  let e := cellAt rows cols (swapPair (tf ((j : Int) + 1) i))
  let n := cellAt rows cols (swapPair (tf j ((i : Int) + 1)))
  let w := cellAt rows cols (swapPair (tf ((j : Int) - 1) i))
  [s, e, n, w].reduceOption

/-- The list of cell ids of a grid, in insertion (row-major) order. -/
def cellList (rows cols : Nat) : List CellId := List.range (rows * cols)

/-- The `MazeState` of a freshly constructed grid (not a wall builder: the
passage dictionaries are empty). -/
def gridMazeInit (rows cols : Nat) (tf : Transform) : MazeState where
  nbrs := fun c => if c < rows * cols then nbrsAt rows cols tf (c / cols) (c % cols) else []
  nodesOf := fun c => if c < rows * cols then cornerSet tf (c / cols) (c % cols) else ∅
  wallsOf := fun c => if c < rows * cols then wallKeys tf (c / cols) (c % cols) else []
  pass := fun _ => []

/-! ## Maze properties (maze.py)

`Maze.v` is the number of cells; `Maze.components` is a merge pass over the
cells and their passages; `Maze.k` its length; `Maze.e` is the (buggy) edge
count and `Maze.Euler_chi` is `v - e - k`. -/

/-- State of the component merge in `Maze.components`: `bag` maps a principal
cell to its component and `cmap` maps each cell to its principal cell. -/
structure CUF where
  bag : List (CellId × List CellId)
  cmap : List (CellId × CellId)

/-- Processing one cell popped from the stack in `Maze.components`: for each
passage neighbor whose principal differs from this cell's label, move the
neighbor's component into the label's component and relabel its members. -/
def mazeComponentsStep (s : MazeState) (st : CUF) (cell : CellId) : CUF :=
  let label := (dictGet st.cmap cell).getD cell
  (passages s cell).foldl
    (fun st2 nbr =>
      let owner := (dictGet st2.cmap nbr).getD nbr
      if owner = label then st2
      else
        { bag := dictSet (dictPop st2.bag owner) label
            (((dictGet st2.bag label).getD []) ++ ((dictGet st2.bag owner).getD [])),
          cmap := ((dictGet st2.bag owner).getD []).foldl
            (fun m it => dictSet m it label) st2.cmap })
    st

/-- `Maze.components`: every cell starts as its own component; the stack
`list(grid.cells)` is popped from the end, so cells are processed in reverse
insertion order; the final bag values are returned. -/
def mazeComponents (s : MazeState) (cells : List CellId) : List (List CellId) :=
  let init : CUF := ⟨cells.map fun c => (c, [c]), cells.map fun c => (c, c)⟩
  (cells.reverse.foldl (mazeComponentsStep s) init).bag.map Prod.snd

/-- `Maze.v`: `len(self.grid._cells)`. -/
def mazeV (cells : List CellId) : Nat := cells.length

/-- `Maze.k`: `len(self.components)`. -/
def mazeK (s : MazeState) (cells : List CellId) : Nat := (mazeComponents s cells).length

/-- The summation the body of `Maze.e` performs over the cells of a grid: for
each cell add the size of `set(cell.passages)`, plus 1 more if the cell is its
own passage (a loop); finally halve - exactly (possibly giving a Python float)
when the total is even, flooring (`n // 2`) when it is odd. -/
def mazeEcount (s : MazeState) (cells : List CellId) : ℚ :=
  let n : Nat := cells.foldl
    (fun acc c =>
      let ps := (passages s c).dedup
      acc + ps.length + (if c ∈ ps then 1 else 0)) 0
  if n % 2 = 1 then ((n / 2 : Nat) : ℚ) else (n : ℚ) / 2

/-- The name `grid` as resolved from the body of `Maze.e` (maze.py line 135):
it is not a local, and the module globals of maze.py bind only `choice`
(line 37) and the class `Maze`, so the lookup fails. -/
def mazeGlobalGrid : Option (MazeState × List CellId) := none

/-- `Maze.e` (maze.py lines 131-159) as executed: the loop iterates over
`grid.each_cell()` where `grid` is an unbound name, so evaluation raises
`NameError` before reading any cell; had the name resolved to a grid, the
result would be `mazeEcount` of that grid. -/
def mazeE (s : MazeState) (cells : List CellId) : Except String ℚ :=
  match mazeGlobalGrid with
  | none => .error "NameError: name grid is not defined"
  | some g => .ok (mazeEcount g.1 g.2)

/-- `Maze.Euler_chi`: `self.v - self.e - self.k`; the read of `self.e`
propagates its `NameError`. -/
def mazeEulerChi (s : MazeState) (cells : List CellId) : Except String ℚ :=
  (mazeE s cells).bind fun e => .ok ((mazeV cells : ℚ) - e - (mazeK s cells : ℚ))

/-! ## Loop and randomness support

Randomness is an oracle.  `random.choice(l)` and `random.randrange(n)` become a
stream of natural numbers used modulo the relevant length, so every outcome of
the random choices corresponds to some oracle; `random.shuffle` becomes a
stream of reorderings (a theorem assumes each is a permutation of its input).
Loops whose termination depends on the oracle are a step function iterated a
given number of times; reaching the `halted` test within the budget is what
"the run terminates" means. -/

/-- `random.choice(l)`: pick the entry at an oracle-chosen index. -/
def listChoice {γ : Type} [Inhabited γ] (k : Nat) (l : List γ) : γ :=
  l.getD (k % l.length) default

/-- `list(unvisited)`: a canonical (ascending) enumeration of a finite set of
cell ids; Python lists a `set` in an unspecified order, and composing any
fixed enumeration with the arbitrary choice oracle covers every outcome. -/
def finAsc (u : Finset CellId) : List CellId :=
  Quot.lift (fun l => l.insertionSort (· ≤ ·))
    (fun l₁ l₂ h => by
      apply List.eq_of_perm_of_sorted (r := (· ≤ ·))
      · exact (List.perm_insertionSort _ l₁).trans
          (h.trans (List.perm_insertionSort _ l₂).symm)
      · exact List.sorted_insertionSort _ l₁
      · exact List.sorted_insertionSort _ l₂)
    u.val

/-- Remove and return the entry at index `i` (Unqueue serve with `i` random;
`i = 0` is FIFO `Queue.serve`, `i = length - 1` is LIFO `Stack.serve`, and a
heap serve is the index holding the minimum priority). -/
def serveAt {γ : Type} [Inhabited γ] (q : List γ) (i : Nat) : γ × List γ :=
  (q.getD i default, q.eraseIdx i)

/-- Iterate `step` at most `fuel` times, stopping at a `halted` state. -/
def loopIter {σ : Type} (step : σ → σ) (halted : σ → Bool) : Nat → σ → σ
  | 0, st => st
  | fuel + 1, st => if halted st then st else loopIter step halted fuel (step st)

/-! ## The generic prioritized search engine (recursive_backtracker.py)

`SpanningSearchTree.on` seeds a queue with `(None, root)` and repeatedly serves
an entry `(parent, cell)`: an already-visited cell is discarded (lazy
deletion), otherwise `parent.link(cell)` is carved (skipped for the root), the
cell is marked visited and all its neighbors are enqueued (after an optional
shuffle).  The four queue disciplines `Stack`/`Queue`/`Unqueue`/`Heap` of
maze_support.py differ only in which entry `serve()` removes, so they are all
instances of the serve-index oracle `pick` (the heap's priorities only
determine which index the heap serves; an entry's payload is the same
`(parent, cell)` pair for all four).  `DFSSpanningTree`, `BFSSpanningTree`,
`RFSSpanningTree`, `Prim` and `FalsePrim` are filters that instantiate the
queue discipline and priority function. -/

/-- A queue entry `(parent, cell)`; the seed entry has no parent. -/
structure Entry where
  parent : Option CellId
  cell : CellId
deriving DecidableEq

instance : Inhabited Entry := ⟨⟨none, 0⟩⟩

/-- State of the engine loop: maze state, frontier queue in insertion order,
adopted set, and the oracle counter. -/
structure EngSt where
  s : MazeState
  queue : List Entry
  visited : Finset CellId
  t : Nat

/-- One iteration of the `while not queue.isEmpty` loop of
`SpanningSearchTree.on`. -/
def engStep (pick : Nat → List Entry → Nat) (shuf : Nat → List CellId → List CellId)
    (st : EngSt) : EngSt :=
  if st.queue.isEmpty then st else
  let served := serveAt st.queue (pick st.t st.queue % st.queue.length)
  let e := served.1
  let rest := served.2
  if e.cell ∈ st.visited then { st with queue := rest, t := st.t + 1 }
  else
    let s1 := match e.parent with
      | none => st.s
      | some p => linkCells st.s p e.cell
    let hood := shuf (st.t + 1) (s1.nbrs e.cell)
    { s := s1,
      queue := rest ++ hood.map fun nb => ⟨some e.cell, nb⟩,
      visited := insert e.cell st.visited,
      t := st.t + 2 }

/-- The engine's loop exit: the frontier queue is drained. -/
def engDone (st : EngSt) : Bool := st.queue.isEmpty

/-- `SpanningSearchTree.on(maze, root, queue, priority, shuffle_hood)`. -/
def spanningSearchOn (pick : Nat → List Entry → Nat)
    (shuf : Nat → List CellId → List CellId) (s0 : MazeState) (root : CellId)
    (fuel : Nat) : EngSt :=
  loopIter (engStep pick shuf) engDone fuel ⟨s0, [⟨none, root⟩], ∅, 0⟩

/-! ## The bounded-fan-out (binary tree) variants (binary_search_tree.py)

`DFSBinaryTree.on`, `BFSBinaryTree.on` and `BinarySearchTree.on` are the same
loop as the engine above except that a candidate adoption is rejected (the
entry is dropped, the cell stays unadopted) when the parent already has more
than 2 passages, or when the parent is the designated root and already has
more than 1 passage.  They differ from one another only in the queue
discipline, covered by `pick`. -/

/-- One iteration of the `while` loop of `BinarySearchTree.on` (also of
`DFSBinaryTree.on` with `pick` the LIFO index and `BFSBinaryTree.on` with
`pick` the FIFO index). -/
def binStep (root : CellId) (pick : Nat → List Entry → Nat)
    (shuf : Nat → List CellId → List CellId) (st : EngSt) : EngSt :=
  if st.queue.isEmpty then st else
  let served := serveAt st.queue (pick st.t st.queue % st.queue.length)
  let e := served.1
  let rest := served.2
  if e.cell ∈ st.visited then { st with queue := rest, t := st.t + 1 }
  else
    match e.parent with
    | none =>
      let hood := shuf (st.t + 1) (st.s.nbrs e.cell)
      { s := st.s,
        queue := rest ++ hood.map fun nb => ⟨some e.cell, nb⟩,
        visited := insert e.cell st.visited,
        t := st.t + 2 }
    | some p =>
      let n := (passages st.s p).length
      if 2 < n then { st with queue := rest, t := st.t + 1 }
      else if p = root ∧ 1 < n then { st with queue := rest, t := st.t + 1 }
      else
        let s1 := linkCells st.s p e.cell
        let hood := shuf (st.t + 1) (s1.nbrs e.cell)
        { s := s1,
          queue := rest ++ hood.map fun nb => ⟨some e.cell, nb⟩,
          visited := insert e.cell st.visited,
          t := st.t + 2 }

/-- `BinarySearchTree.on(maze, root, queue, priority)` (and via the queue
discipline also `DFSBinaryTree.on` / `BFSBinaryTree.on`). -/
def binarySearchOn (root : CellId) (pick : Nat → List Entry → Nat)
    (shuf : Nat → List CellId → List CellId) (s0 : MazeState) (fuel : Nat) : EngSt :=
  loopIter (binStep root pick shuf) engDone fuel ⟨s0, [⟨none, root⟩], ∅, 0⟩

/-- The LIFO serve index (`Stack.serve` pops the end of the list). -/
def stackPick : Nat → List Entry → Nat := fun _ q => q.length - 1

/-- The FIFO serve index (`Queue.serve` pops the front). -/
def queuePick : Nat → List Entry → Nat := fun _ _ => 0

/-! ## Wilson's algorithm (wilson.py)

`Wilson.circuit_erased_walk(unvisited)` teleports to a random unvisited oasis,
walks to random neighbors recording in `trail` the predecessor of every cell on
its first visit only, stops on leaving `unvisited`, and follows `trail` back
from the stopping cell to the oasis.  `Wilson.on` repeats this, linking each
consecutive pair along the returned path and discarding every path cell except
the first from `unvisited`, until `unvisited` is empty. -/

/-- State of the random walk inside `circuit_erased_walk`: the trail
dictionary (insertion-ordered, written only at a key's first visit), the
current cell, the step counter `n` (progress log only) and the oracle
counter. -/
structure WalkSt where
  trail : List (CellId × Option CellId)
  curr : CellId
  n : Nat
  t : Nat

/-- One iteration of the `while curr in unvisited` walk loop: step to a random
neighbor, record the predecessor if the neighbor is new to the trail, move.
(If the current cell had no neighbors Python's `choice` would raise
`IndexError`; the state is then repeated forever, so the walk never reaches its
halted state, and no run outcome arises - the callers' hypotheses exclude
neighborless cells.) -/
def walkStep (s : MazeState) (choiceO : Nat → Nat) (unvisited : Finset CellId)
    (w : WalkSt) : WalkSt :=
  if w.curr ∉ unvisited then w else
  if (s.nbrs w.curr).isEmpty then w else
  let step := listChoice (choiceO w.t) (s.nbrs w.curr)
  { trail := if step ∈ keysOf w.trail then w.trail else w.trail ++ [(step, some w.curr)],
    curr := step, n := w.n + 1, t := w.t + 1 }

/-- The walk's exit test: the current cell is outside the unvisited set. -/
def walkDone (unvisited : Finset CellId) (w : WalkSt) : Bool := w.curr ∉ unvisited

/-- The path reconstruction loop `while curr: path.append(curr);
curr = trail[curr]`: `none` models a missing key (`KeyError`) or an exhausted
budget; the callers use budget `trail.length + 1`, which always suffices
because a walk trail points strictly backwards in insertion order. -/
def followTrail (trail : List (CellId × Option CellId)) : Nat → CellId → Option (List CellId)
  | 0, _ => none
  | fuel + 1, c =>
    match dictGet trail c with
    | none => none
    | some none => some [c]
    | some (some p) => (followTrail trail fuel p).map fun rest => c :: rest

/-- `Wilson.circuit_erased_walk(unvisited)`: the oasis is a random member of
`unvisited` (`choiceO 0`); the walk runs with budget `wfuel`; on exit the path
is reconstructed from the stopping cell.  `none` means the walk did not leave
the unvisited region within its budget. -/
def circuitErasedWalk (s : MazeState) (choiceO : Nat → Nat) (unvisited : Finset CellId)
    (wfuel : Nat) : Option (List CellId) :=
  let oasis := listChoice (choiceO 0) (finAsc unvisited)
  let w0 : WalkSt := ⟨[(oasis, none)], oasis, 0, 1⟩
  let wend := loopIter (walkStep s choiceO unvisited) (walkDone unvisited) wfuel w0
  if walkDone unvisited wend then followTrail wend.trail (wend.trail.length + 1) wend.curr
  else none

/-- Link consecutive pairs along a path: the loop
`for i in range(len(path) - 1): path[i].link(path[i+1])`. -/
def linkPath : MazeState → List CellId → MazeState
  | s, a :: b :: rest => linkPath (linkCells s a b) (b :: rest)
  | s, _ => s

/-- State of the outer loop of `Wilson.on`: maze state, unvisited set, number
of completed passes. -/
structure WilsonSt where
  s : MazeState
  unvisited : Finset CellId
  passes : Nat

/-- One pass of `Wilson.on`: run a circuit-erased walk, then link each
consecutive pair along the path and discard every path cell except the first
from the unvisited set.  An unfinished walk (budget exhausted) repeats the
state: the real loop is still inside the walk, so the run never halts. -/
def wilsonStep (choiceO : Nat → Nat → Nat) (wfuel : Nat → Nat) (st : WilsonSt) : WilsonSt :=
  if st.unvisited = ∅ then st else
  match circuitErasedWalk st.s (choiceO st.passes) st.unvisited (wfuel st.passes) with
  | none => st
  | some path =>
    ⟨linkPath st.s path, path.tail.foldl (fun u c => u.erase c) st.unvisited, st.passes + 1⟩

/-- The outer loop's exit test: the unvisited set is empty. -/
def wilsonDone (st : WilsonSt) : Bool := st.unvisited = ∅

/-- `Wilson.on(maze)`: civilization starts at a random cell (`start`); passes
repeat until no cell is unvisited. -/
def wilsonOn (choiceO : Nat → Nat → Nat) (wfuel : Nat → Nat) (s0 : MazeState)
    (cells : List CellId) (start : CellId) (fuel : Nat) : WilsonSt :=
  loopIter (wilsonStep choiceO wfuel) wilsonDone fuel ⟨s0, cells.toFinset.erase start, 0⟩

/-! ## The Aldous-Broder family (aldous_broder.py)

`AldousBroder.plain` records each cell's first-entrance predecessor during one
long random walk and links the recorded pairs afterwards;
`AldousBroder.vanilla` records each cell's last exit and links afterwards;
`AldousBroder.blueberry` links first entrances immediately and supports
breakpoints.  `AldousBroder.on(maze, method)` just invokes the method. -/

/-- State of `AldousBroder.simple_random_walk`: the first-entrance dictionary,
the current cell, the unvisited set and the oracle counter. -/
structure ABWalkSt where
  fe : List (CellId × Option CellId)
  cell : CellId
  unvisited : Finset CellId
  t : Nat

/-- One iteration of the `while unvisited` loop of `simple_random_walk`: step
to a random neighbor, discard it from `unvisited`, record the first
entrance. -/
def abWalkStep (s : MazeState) (choiceO : Nat → Nat) (w : ABWalkSt) : ABWalkSt :=
  if w.unvisited = ∅ then w else
  if (s.nbrs w.cell).isEmpty then w else
  let nbr := listChoice (choiceO w.t) (s.nbrs w.cell)
  { fe := if nbr ∈ keysOf w.fe then w.fe else w.fe ++ [(nbr, some w.cell)],
    cell := nbr, unvisited := w.unvisited.erase nbr, t := w.t + 1 }

/-- The walk's exit test. -/
def abWalkDone (w : ABWalkSt) : Bool := w.unvisited = ∅

/-- `AldousBroder.simple_random_walk(grid, start)` run with a budget. -/
def simpleRandomWalk (s : MazeState) (choiceO : Nat → Nat) (cells : List CellId)
    (start : CellId) (fuel : Nat) : ABWalkSt :=
  loopIter (abWalkStep s choiceO) abWalkDone fuel
    ⟨[(start, none)], start, cells.toFinset.erase start, 0⟩

/-- The linking loop shared by `plain` and `vanilla`: for each table entry with
a truthy value, `cell.link(nbr)`. -/
def linkTable (s : MazeState) (tbl : List (CellId × Option CellId)) : MazeState :=
  tbl.foldl (fun acc p => match p.2 with | none => acc | some nb => linkCells acc p.1 nb) s

/-- `AldousBroder.plain(maze, start)`: run the first-entrance walk, then link
every recorded (cell, predecessor) pair; `none` when the walk did not visit
every cell within its budget (the Python loop is then still running). -/
def abPlain (s : MazeState) (choiceO : Nat → Nat) (cells : List CellId) (start : CellId)
    (fuel : Nat) : Option (MazeState × List (CellId × Option CellId)) :=
  let w := simpleRandomWalk s choiceO cells start fuel
  if abWalkDone w then some (linkTable s w.fe, w.fe) else none

/-- State of `AldousBroder.simple_random_walk2`: the last-exit dictionary, the
current cell, the unvisited set and the oracle counter. -/
structure AB2St where
  le : List (CellId × Option CellId)
  cell : CellId
  unvisited : Finset CellId
  t : Nat

/-- One iteration of the `while unvisited` loop of `simple_random_walk2`: step
to a random neighbor, discard it, overwrite this cell's last exit. -/
def ab2Step (s : MazeState) (choiceO : Nat → Nat) (w : AB2St) : AB2St :=
  if w.unvisited = ∅ then w else
  if (s.nbrs w.cell).isEmpty then w else
  let nbr := listChoice (choiceO w.t) (s.nbrs w.cell)
  { le := dictSet w.le w.cell (some nbr),
    cell := nbr, unvisited := w.unvisited.erase nbr, t := w.t + 1 }

/-- The walk's exit test. -/
def ab2Done (w : AB2St) : Bool := w.unvisited = ∅

/-- `AldousBroder.simple_random_walk2(grid, start)` run with a budget,
including the final `last_exit[cell] = None`. -/
def simpleRandomWalk2 (s : MazeState) (choiceO : Nat → Nat) (cells : List CellId)
    (start : CellId) (fuel : Nat) : Option AB2St :=
  let w := loopIter (ab2Step s choiceO) ab2Done fuel ⟨[], start, cells.toFinset.erase start, 0⟩
  if ab2Done w then some { w with le := dictSet w.le w.cell none } else none

/-- `AldousBroder.vanilla(maze, start)`: run the last-exit walk, then link
every recorded (cell, last exit) pair. -/
def abVanilla (s : MazeState) (choiceO : Nat → Nat) (cells : List CellId) (start : CellId)
    (fuel : Nat) : Option (MazeState × List (CellId × Option CellId)) :=
  (simpleRandomWalk2 s choiceO cells start fuel).map fun w => (linkTable s w.le, w.le)

/-- State of `AldousBroder.blueberry` between iterations: the maze state, the
walk position `maze.curr`, `maze.unvisited`, the iteration count `n` and a flag
recording that a breakpoint fired (the `return maze` inside the loop). -/
structure BlueSt where
  s : MazeState
  curr : CellId
  unvisited : Finset CellId
  n : Nat
  t : Nat
  brk : Bool

/-- One iteration of the `while maze.unvisited` loop of
`AldousBroder.blueberry`: step to a random neighbor, linking and discarding it
if unvisited, then test the two breakpoints (`n >= max_its`, modelled by an
optional bound, and `len(maze.unvisited) < min_cells`). -/
def blueStep (choiceO : Nat → Nat) (maxIts : Option Nat) (minCells : ℚ)
    (w : BlueSt) : BlueSt :=
  if w.unvisited = ∅ ∨ w.brk then w else
  if (w.s.nbrs w.curr).isEmpty then w else
  let nbr := listChoice (choiceO w.t) (w.s.nbrs w.curr)
  let s2 := if nbr ∈ w.unvisited then linkCells w.s w.curr nbr else w.s
  let unv2 := if nbr ∈ w.unvisited then w.unvisited.erase nbr else w.unvisited
  { s := s2, curr := nbr, unvisited := unv2, n := w.n + 1, t := w.t + 1,
    brk := (match maxIts with | some m => m ≤ w.n + 1 | none => false)
      || decide ((unv2.card : ℚ) < minCells) }

/-- The loop's exit: the unvisited set is empty (successful completion,
`maze.blueberry = 'complete'`) or a breakpoint fired (`return maze` with
`maze.blueberry` still `'incomplete'`). -/
def blueDone (w : BlueSt) : Bool := w.unvisited = ∅ || w.brk

/-- `AldousBroder.blueberry(maze, init=True, start, max_its, min_cells)` run
with a budget.  The defaults are `max_its = none` (infinity) and
`min_cells = -1` (the code lowers `min_cells` to at most `0.8 *
len(unvisited)`, so the default never fires). -/
def abBlueberry (s : MazeState) (choiceO : Nat → Nat) (cells : List CellId) (start : CellId)
    (maxIts : Option Nat) (minCells : ℚ) (fuel : Nat) : BlueSt :=
  loopIter (blueStep choiceO maxIts minCells) blueDone fuel
    ⟨s, start, cells.toFinset.erase start, 0, 0, false⟩

/-! ## Hunt-and-kill (hunt_kill.py)

`HuntAndKill.on` alternates a kill phase (a random walk restricted to
unvisited cells, linking as it goes, until painted into a corner) and a hunt
phase (find an unvisited cell adjacent to a visited one, link the pair, resume
killing there).  The three hunt strategies drain the frontier queue built
during the kill, scan the unvisited cells in random-pick order, or scan them in
storage order.  The outer loop runs `while state.unvisited and curr`, `curr`
being the last hunt's result. -/

/-- The `HuntAndKill.State` record: maze state, unvisited set, frontier
Unqueue of `(prev, nbr)` pairs, the current cell (`none` once a hunt has failed,
which is the outer loop's exit signal), and the oracle counter. -/
structure HKSt where
  s : MazeState
  unvisited : Finset CellId
  frontier : List (CellId × CellId)
  curr : Option CellId
  t : Nat

instance : Inhabited (CellId × CellId) := ⟨(0, 0)⟩

/-- `HuntAndKill.kill_with_frontier`: repeatedly pick a random unvisited
neighbor of the current cell (`set(state.curr.neighbors)` restricted to
unvisited, modelled by a deduplicated filtered list), link it, mark it visited
and move there, entering the remaining unvisited neighbors into the frontier;
stop when no unvisited neighbor remains. -/
def killF (choiceO : Nat → Nat) (st : HKSt) : HKSt :=
  if st.unvisited = ∅ then st else
  match st.curr with
  | none => st
  | some cur =>
    let ns := ((st.s.nbrs cur).filter (· ∈ st.unvisited)).dedup
    if hns : ns.length = 0 then st else
    have hlt : choiceO st.t % ns.length < ns.length := Nat.mod_lt _ (Nat.pos_of_ne_zero hns)
    have hmem : ns.getD (choiceO st.t % ns.length) 0 ∈ st.unvisited := by
      have h1 : ns.getD (choiceO st.t % ns.length) 0 ∈ ns := by
        rw [List.getD_eq_getElem?_getD, List.getElem?_eq_getElem hlt]
        exact List.getElem_mem _
      exact List.mem_filter.mp (List.mem_dedup.mp h1) |>.2 |> of_decide_eq_true
    killF choiceO
      { s := linkCells st.s cur (ns.getD (choiceO st.t % ns.length) 0),
        unvisited := st.unvisited.erase (ns.getD (choiceO st.t % ns.length) 0),
        frontier := st.frontier ++
          (ns.eraseIdx (choiceO st.t % ns.length)).map (fun x => (cur, x)),
        curr := some (ns.getD (choiceO st.t % ns.length) 0),
        t := st.t + 1 }
termination_by st.unvisited.card
decreasing_by exact Finset.card_erase_lt_of_mem hmem

/-- `HuntAndKill.kill_no_frontier`: as `kill_with_frontier` but without the
frontier bookkeeping. -/
def killNF (choiceO : Nat → Nat) (st : HKSt) : HKSt :=
  if st.unvisited = ∅ then st else
  match st.curr with
  | none => st
  | some cur =>
    let ns := ((st.s.nbrs cur).filter (· ∈ st.unvisited)).dedup
    if hns : ns.length = 0 then st else
    have hlt : choiceO st.t % ns.length < ns.length := Nat.mod_lt _ (Nat.pos_of_ne_zero hns)
    have hmem : ns.getD (choiceO st.t % ns.length) 0 ∈ st.unvisited := by
      have h1 : ns.getD (choiceO st.t % ns.length) 0 ∈ ns := by
        rw [List.getD_eq_getElem?_getD, List.getElem?_eq_getElem hlt]
        exact List.getElem_mem _
      exact List.mem_filter.mp (List.mem_dedup.mp h1) |>.2 |> of_decide_eq_true
    killNF choiceO
      { s := linkCells st.s cur (ns.getD (choiceO st.t % ns.length) 0),
        unvisited := st.unvisited.erase (ns.getD (choiceO st.t % ns.length) 0),
        frontier := st.frontier,
        curr := some (ns.getD (choiceO st.t % ns.length) 0),
        t := st.t + 1 }
termination_by st.unvisited.card
decreasing_by exact Finset.card_erase_lt_of_mem hmem

/-- `HuntAndKill.hunt_with_frontier`: serve random frontier entries until one
names a still-unvisited cell; link it to its recorded visited neighbor and
resume there; an emptied frontier returns `None` (modelled by `curr := none`,
the outer loop's exit signal). -/
def huntF (choiceO : Nat → Nat) (st : HKSt) : HKSt :=
  if hq : st.frontier.length = 0 then { st with curr := none } else
  have hlt : choiceO st.t % st.frontier.length < st.frontier.length :=
    Nat.mod_lt _ (Nat.pos_of_ne_zero hq)
  let pc := st.frontier.getD (choiceO st.t % st.frontier.length) (0, 0)
  let rest := st.frontier.eraseIdx (choiceO st.t % st.frontier.length)
  if pc.2 ∈ st.unvisited then
    { s := linkCells st.s pc.1 pc.2, unvisited := st.unvisited.erase pc.2,
      frontier := rest, curr := some pc.2, t := st.t + 1 }
  else huntF choiceO { st with frontier := rest, t := st.t + 1 }
termination_by st.frontier.length
decreasing_by have := List.length_eraseIdx_add_one hlt; omega

/-- The candidate scan shared by `hunt_no_frontier` (random picks from the
candidate list) and, with the trivial oracle, by `hunt_no_shuffle` (storage
order): pop a candidate, link it to its first visited neighbor if any. -/
def huntScan (choiceO : Nat → Nat) (st : HKSt) (candidates : List CellId) (t : Nat) : HKSt :=
  if hc : candidates.length = 0 then { st with curr := none, t := t } else
  have hlt : choiceO t % candidates.length < candidates.length :=
    Nat.mod_lt _ (Nat.pos_of_ne_zero hc)
  let cell := candidates.getD (choiceO t % candidates.length) 0
  match (st.s.nbrs cell).find? (fun nbr => nbr ∉ st.unvisited) with
  | some nbr =>
    { s := linkCells st.s cell nbr, unvisited := st.unvisited.erase cell,
      frontier := st.frontier, curr := some cell, t := t + 1 }
  | none => huntScan choiceO st (candidates.eraseIdx (choiceO t % candidates.length)) (t + 1)
termination_by candidates.length
decreasing_by have := List.length_eraseIdx_add_one hlt; omega

/-- `HuntAndKill.hunt_no_frontier`: scan `list(state.unvisited)` with random
picks. -/
def huntNF (choiceO : Nat → Nat) (st : HKSt) : HKSt :=
  huntScan choiceO st (finAsc st.unvisited) st.t

/-- `HuntAndKill.hunt_no_shuffle`: scan `list(state.unvisited)` in storage
order (the trivial pick always takes the front). -/
def huntNS (st : HKSt) : HKSt :=
  huntScan (fun _ => 0) st (finAsc st.unvisited) st.t

/-- The three hunt strategies of `HuntAndKill.on` (`no_shuffle`,
`use_frontier`, or neither). -/
inductive HKVariant | frontier | noFrontier | noShuffle
deriving DecidableEq

/-- One iteration of the outer `while state.unvisited and curr` loop:
a kill phase followed by a hunt phase. -/
def hkOuterStep (choiceO : Nat → Nat) (v : HKVariant) (st : HKSt) : HKSt :=
  if st.unvisited = ∅ ∨ st.curr = none then st else
  match v with
  | .frontier => huntF choiceO (killF choiceO st)
  | .noFrontier => huntNF choiceO (killNF choiceO st)
  | .noShuffle => huntNS (killNF choiceO st)

/-- The outer loop's exit: no unvisited cells, or the last hunt found
nothing. -/
def hkDone (st : HKSt) : Bool := st.unvisited = ∅ ∨ st.curr = none

/-- `HuntAndKill.on(maze, start, use_frontier, no_shuffle)`:
`HuntAndKill.State` marks the start cell visited, then the outer loop
alternates kill and hunt. -/
def huntKillOn (choiceO : Nat → Nat) (v : HKVariant) (s0 : MazeState)
    (cells : List CellId) (start : CellId) (fuel : Nat) : HKSt :=
  loopIter (hkOuterStep choiceO v) hkDone fuel
    ⟨s0, cells.toFinset.erase start, [], some start, 0⟩

/-! ## The Aldous-Broder/Wilson hybrid (aldous_broder_wilson.py)

`HybridABW.on` runs a first-entrance random walk until the unvisited count
drops below `density * len(grid.cells)` (the break is tested at the top of the
loop), then repeats Wilson circuit-erased walks - the same walk, path-linking
and discard loop as `Wilson.on` - until no cell is unvisited. -/

/-- State of the hybrid's Aldous-Broder phase. -/
structure HyABSt where
  s : MazeState
  curr : CellId
  unvisited : Finset CellId
  t : Nat

/-- The body of one iteration of the hybrid's random-walk loop. -/
def hyABStep (choiceO : Nat → Nat) (w : HyABSt) : HyABSt :=
  if (w.s.nbrs w.curr).isEmpty then w else
  let nbr := listChoice (choiceO w.t) (w.s.nbrs w.curr)
  { s := if nbr ∈ w.unvisited then linkCells w.s w.curr nbr else w.s,
    curr := nbr,
    unvisited := if nbr ∈ w.unvisited then w.unvisited.erase nbr else w.unvisited,
    t := w.t + 1 }

/-- The random-walk phase stops when no cell is unvisited or the unvisited
count has dropped below the cutoff (tested at the top of the loop). -/
def hyABDone (minCells : ℚ) (w : HyABSt) : Bool :=
  w.unvisited = ∅ || decide ((w.unvisited.card : ℚ) < minCells)

/-- `HybridABW.on(maze, start, density)`: the cutoff is
`density * len(grid.cells)`; phase 1 is the random walk, phase 2 repeats
Wilson passes on whatever is left.  `none` means phase 1 itself did not reach
its breakpoint within its budget. -/
def hybridABWOn (choiceAB : Nat → Nat) (choiceW : Nat → Nat → Nat) (wfuel : Nat → Nat)
    (s0 : MazeState) (cells : List CellId) (start : CellId) (density : ℚ)
    (fuel1 fuel2 : Nat) : Option WilsonSt :=
  let minCells := density * (cells.length : ℚ)
  let w1 := loopIter (hyABStep choiceAB) (hyABDone minCells) fuel1
    ⟨s0, start, cells.toFinset.erase start, 0⟩
  if hyABDone minCells w1 then
    some (loopIter (wilsonStep choiceW wfuel) wilsonDone fuel2 ⟨w1.s, w1.unvisited, 0⟩)
  else none

/-! ## The passage graph

The undirected passage count, the passage relation and its reflexive
transitive closure, and grid-side connectivity notions used to state the
spanning-tree properties. -/

/-- The sum over the given cells of their directed passage counts; for the
symmetric, loop-free states produced by the carving algorithms this is twice
the undirected passage count. -/
def edgeSum (s : MazeState) (cells : List CellId) : Nat :=
  (cells.map fun c => (passages s c).length).sum

/-- The number of undirected passages, each mutual pair counted once. -/
def undirCount (s : MazeState) (cells : List CellId) : Nat := edgeSum s cells / 2

/-- The directed passage relation. -/
def plinked (s : MazeState) (a b : CellId) : Prop := b ∈ passages s a

/-- Connectivity in the passage graph. -/
def PassConn (s : MazeState) : CellId → CellId → Prop := Relation.ReflTransGen (plinked s)

/-- Grid adjacency: `b` appears in `a`'s neighbor table. -/
def adjacent (s : MazeState) (a b : CellId) : Prop := b ∈ s.nbrs a

/-- The grid is connected: every cell reaches every cell by neighbor steps. -/
def GridConnected (s : MazeState) (cells : List CellId) : Prop :=
  ∀ a ∈ cells, ∀ b ∈ cells, Relation.ReflTransGen (adjacent s) a b

/-- Neighbor tables stay inside the cell list. -/
def GridClosed (s : MazeState) (cells : List CellId) : Prop :=
  ∀ c ∈ cells, ∀ d ∈ s.nbrs c, d ∈ cells

/-- The maze has exactly one passage component: the cell list is nonempty and
all cells are mutually connected through passages. -/
def OneComponent (s : MazeState) (cells : List CellId) : Prop :=
  cells ≠ [] ∧ ∀ a ∈ cells, ∀ b ∈ cells, PassConn s a b

/-! ## `Grid.components` (grid.py)

The merge pass over the wall list that `Grid.k` counts: every node starts as
its own component; each 2-element wall merges its endpoints' components
(1-element "loop" walls are skipped). -/

/-- State of the merge in `Grid.components`. -/
structure GUF where
  bag : List ((Int × Int) × List (Int × Int))
  cmap : List ((Int × Int) × (Int × Int))

/-- Processing one wall: skip loops (`len(edge) != 2`) and same-component
endpoints; otherwise move the second endpoint's component into the first's and
relabel its members. -/
def gufEdgeStep (st : GUF) (edge : (Int × Int) × (Int × Int)) : GUF :=
  if edge.1 = edge.2 then st else
  let label1 := (dictGet st.cmap edge.1).getD edge.1
  let label2 := (dictGet st.cmap edge.2).getD edge.2
  if label1 = label2 then st
  else
    { bag := dictPop (dictSet st.bag label1
        (((dictGet st.bag label1).getD []) ++ ((dictGet st.bag label2).getD []))) label2,
      cmap := ((dictGet st.bag label2).getD []).foldl (fun m it => dictSet m it label1) st.cmap }

/-- `Grid.components`: fold the merge over the wall dictionary keys. -/
def gridComponents (rows cols : Nat) (tf : Transform) : GUF :=
  let nodes := nodesList rows cols tf
  (wallsList rows cols tf).foldl gufEdgeStep
    ⟨nodes.map fun nd => (nd, [nd]), nodes.map fun nd => (nd, nd)⟩

/-- `Grid.k`: `len(self.components)`. -/
def gridK (rows cols : Nat) (tf : Transform) : Nat := (gridComponents rows cols tf).bag.length

/-- `Grid.Euler_chi`: `v - e + f - k`. -/
def gridEulerChi (rows cols : Nat) (tf : Transform) : Int :=
  (gridV rows cols tf : Int) - gridE rows cols tf + gridF rows cols - gridK rows cols tf

/-! ## A connected grid with no binary spanning tree

The plus-shaped grid of Figure 1 in the docstring of binary_search_tree.py: a
center cell with four leaf neighbors.  It is connected, but the bounded-fan-out
carvers cannot span it. -/

/-- Neighbor tables of the plus grid: cell 0 is the center. -/
def plusNbrs : CellId → List CellId
  | 0 => [1, 2, 3, 4]
  | 1 => [0]
  | 2 => [0]
  | 3 => [0]
  | 4 => [0]
  | _ => []

/-- The plus grid's cell list. -/
def plusCells : List CellId := [0, 1, 2, 3, 4]

/-- The plus grid as a fresh maze state. -/
def plusMaze : MazeState := ⟨plusNbrs, fun _ => ∅, fun _ => [], fun _ => []⟩

/-- The identity shuffle oracle (one admissible outcome of `random.shuffle`). -/
def idShuffle : Nat → List CellId → List CellId := fun _ l => l

/-! ## Concrete scenarios -/

/-- The spec's concrete scenario: a 2x3 rectangular grid (cell ids `i*3 + j`
for `(row i, col j)`), with the five undirected links
(0,0)-(0,1), (0,1)-(1,1), (1,0)-(1,1), (0,2)-(1,2), (1,2)-(1,1) carved. -/
def c1Maze : MazeState :=
  linkCells (linkCells (linkCells (linkCells (linkCells
    (gridMazeInit 2 3 rectTransform) 0 1) 1 4) 3 4) 2 5) 5 4

/-- A 3-cell path grid 0 - 1 - 2 (cell 1 in the middle). -/
def lineNbrs : CellId → List CellId
  | 0 => [1]
  | 1 => [0, 2]
  | 2 => [1]
  | _ => []

/-- The path grid as a fresh maze state. -/
def lineMaze : MazeState := ⟨lineNbrs, fun _ => ∅, fun _ => [], fun _ => []⟩

/-- Two isolated cells 0 and 1 (a disconnected grid): no adjacencies at
all. -/
def twoIslandMaze : MazeState := ⟨fun _ => [], fun _ => ∅, fun _ => [], fun _ => []⟩

/-! ## Invariant vocabulary used by the theorems -/

/-- A maze state whose passage dictionaries are all empty: "a grid initialized
as a passage carver" before any carving. -/
def Fresh (s : MazeState) : Prop := ∀ c, s.pass c = []

/-- A shuffle oracle is admissible when each outcome is a permutation of its
input, which is what `random.shuffle` guarantees. -/
def Shuffler (shuf : Nat → List CellId → List CellId) : Prop :=
  ∀ t l, List.Perm (shuf t l) l

/-- The carving algorithms never touch the neighbor tables, node sets or wall
dictionaries. -/
def FramePreserved (s0 s : MazeState) : Prop :=
  s.nbrs = s0.nbrs ∧ s.nodesOf = s0.nodesOf ∧ s.wallsOf = s0.wallsOf

/-- Passage dictionaries only gain entries between two states. -/
def PassMono (s s' : MazeState) : Prop := ∀ c d, d ∈ passages s c → d ∈ passages s' c

/-- The basic hunt-and-kill state invariant: unvisited cells lie in the grid
minus the start, have no passages yet, the current cell (when present) and the
first components of frontier entries are visited. -/
structure HKInv (cells : List CellId) (start : CellId) (st : HKSt) : Prop where
  unvSub : ∀ c ∈ st.unvisited, c ∈ cells.toFinset.erase start
  unvEmpty : ∀ c ∈ st.unvisited, st.s.pass c = []
  currOk : ∀ c, st.curr = some c → c ∉ st.unvisited
  frontOk : ∀ pr ∈ st.frontier, pr.1 ∉ st.unvisited

/-- The invariant of a partially grown spanning tree on the visited set `vis`:
passages stay inside `vis`, are symmetric, loop-free, connect all of `vis`,
and number exactly `vis.card - 1` undirected edges (each counted twice in
`edgeSum`). -/
structure TreeInv (cells : List CellId) (s : MazeState) (vis : Finset CellId) : Prop where
  visSub : ∀ c ∈ vis, c ∈ cells
  visNE : vis.Nonempty
  unvisEmpty : ∀ c, c ∉ vis → s.pass c = []
  symm : ∀ a b, a ∈ passages s b → b ∈ passages s a
  endpoints : ∀ a b, b ∈ passages s a → a ∈ vis ∧ b ∈ vis ∧ a ≠ b
  conn : ∀ a ∈ vis, ∀ b ∈ vis, PassConn s a b
  count : edgeSum s cells + 2 = 2 * vis.card

/-- The shape of a table that records, for each cell, only the predecessor at
its *first* visit: it starts as `[(root, none)]` and grows only by appending a
fresh key pointing at an existing key.  This is exactly how Wilson's `trail`
and the first-entrance dictionaries are built. -/
inductive RankedExt (root : CellId) : List (CellId × Option CellId) → Prop
  | base : RankedExt root [(root, none)]
  | grow (tbl : List (CellId × Option CellId)) (k p : CellId) :
      RankedExt root tbl → k ∉ keysOf tbl → p ∈ keysOf tbl →
      RankedExt root (tbl ++ [(k, some p)])

/-- A parent table describing a spanning tree of `cells` rooted at `root`:
its keys are exactly the cells, `root` is the unique key without a parent, and
parents point strictly down some rank - the common shape of the first-entrance
and last-exit tables. -/
def SpanTable (cells : List CellId) (tbl : List (CellId × Option CellId))
    (root : CellId) : Prop :=
  (keysOf tbl).Nodup ∧ (∀ c, c ∈ keysOf tbl ↔ c ∈ cells) ∧ root ∈ cells ∧
  (∀ p ∈ tbl, p.2 = none ↔ p.1 = root) ∧
  ∃ r : CellId → Nat, ∀ p ∈ tbl, ∀ q, p.2 = some q → q ∈ keysOf tbl ∧ r q < r p.1

/-! # Lemmas

## Dictionary and `linkCells` basics -/

theorem keysOf_dictSet_of_mem {α β : Type} [DecidableEq α] (d : List (α × β)) (k : α) (v : β)
    (h : k ∈ keysOf d) : keysOf (dictSet d k v) = keysOf d := by
  rw [dictSet, if_pos h]
  simp only [keysOf, List.map_map]
  refine List.map_congr_left fun p _ => ?_
  by_cases hpk : p.1 = k
  · simp [Function.comp, hpk]
  · simp [Function.comp, hpk]

theorem keysOf_dictSet_of_not_mem {α β : Type} [DecidableEq α] (d : List (α × β)) (k : α) (v : β)
    (h : k ∉ keysOf d) : keysOf (dictSet d k v) = keysOf d ++ [k] := by
  rw [dictSet, if_neg h]
  simp [keysOf]

theorem mem_keysOf_dictSet {α β : Type} [DecidableEq α] (d : List (α × β)) (k a : α) (v : β) :
    a ∈ keysOf (dictSet d k v) ↔ a = k ∨ a ∈ keysOf d := by
  by_cases h : k ∈ keysOf d
  · rw [keysOf_dictSet_of_mem d k v h]
    constructor
    · exact Or.inr
    · rintro (rfl | ha)
      · exact h
      · exact ha
  · rw [keysOf_dictSet_of_not_mem d k v h]
    simp [or_comm]

theorem length_dictSet_of_mem {α β : Type} [DecidableEq α] (d : List (α × β)) (k : α) (v : β)
    (h : k ∈ keysOf d) : (dictSet d k v).length = d.length := by
  simp [dictSet, keysOf] at h ⊢
  simp [h]

theorem length_dictSet_of_not_mem {α β : Type} [DecidableEq α] (d : List (α × β)) (k : α) (v : β)
    (h : k ∉ keysOf d) : (dictSet d k v).length = d.length + 1 := by
  simp [dictSet, keysOf] at h ⊢
  simp [h]

theorem pass_linkCells_left (s : MazeState) (a b : CellId) (hab : a ≠ b) :
    (linkCells s a b).pass a = dictSet (s.pass a) b 1 := by
  simp [linkCells, linkto, hab, Ne.symm hab]

theorem pass_linkCells_right (s : MazeState) (a b : CellId) (hab : a ≠ b) :
    (linkCells s a b).pass b = dictSet (s.pass b) a 1 := by
  simp [linkCells, linkto, hab, Ne.symm hab]

theorem pass_linkCells_other (s : MazeState) (a b c : CellId) (hca : c ≠ a) (hcb : c ≠ b) :
    (linkCells s a b).pass c = s.pass c := by
  simp [linkCells, linkto, hca, hcb]

theorem framePreserved_refl (s : MazeState) : FramePreserved s s := ⟨rfl, rfl, rfl⟩

theorem framePreserved_linkto (s : MazeState) (c : CellId) (cell : Option CellId) (w : Int) :
    FramePreserved s (linkto s c cell w) := by
  cases cell <;> exact ⟨rfl, rfl, rfl⟩

theorem framePreserved_linkCells (s : MazeState) (a b : CellId) :
    FramePreserved s (linkCells s a b) := ⟨rfl, rfl, rfl⟩

theorem framePreserved_trans {s0 s1 s2 : MazeState} (h1 : FramePreserved s0 s1)
    (h2 : FramePreserved s1 s2) : FramePreserved s0 s2 :=
  ⟨h2.1.trans h1.1, h2.2.1.trans h1.2.1, h2.2.2.trans h1.2.2⟩

theorem mem_passages_linkCells (s : MazeState) (a b c d : CellId) :
    d ∈ passages (linkCells s a b) c ↔
      d ∈ passages s c ∨ (c = a ∧ d = b) ∨ (c = b ∧ d = a) := by
  by_cases hab : a = b
  · subst hab
    by_cases hca : c = a
    · subst hca
      have hps : (linkCells s c c).pass c = dictSet (dictSet (s.pass c) c 1) c 1 := by
        simp [linkCells, linkto]
      rw [passages, hps]
      constructor
      · intro h
        rcases (mem_keysOf_dictSet _ _ _ _).mp h with h | h
        · exact Or.inr (Or.inl ⟨rfl, h⟩)
        · rcases (mem_keysOf_dictSet _ _ _ _).mp h with h | h
          · exact Or.inr (Or.inl ⟨rfl, h⟩)
          · exact Or.inl h
      · intro h
        rcases h with h | ⟨_, rfl⟩ | ⟨_, rfl⟩
        · exact (mem_keysOf_dictSet _ _ _ _).mpr (Or.inr ((mem_keysOf_dictSet _ _ _ _).mpr (Or.inr h)))
        · exact (mem_keysOf_dictSet _ _ _ _).mpr (Or.inl rfl)
        · exact (mem_keysOf_dictSet _ _ _ _).mpr (Or.inl rfl)
    · rw [passages, pass_linkCells_other s a a c hca hca]
      simp [passages, hca]
  · by_cases hca : c = a
    · subst hca
      rw [passages, pass_linkCells_left s c b hab]
      rw [mem_keysOf_dictSet]
      simp [passages, hab, Ne.symm hab]
      tauto
    · by_cases hcb : c = b
      · subst hcb
        rw [passages, pass_linkCells_right s a c hab]
        rw [mem_keysOf_dictSet]
        simp [passages, hca]
        tauto
      · rw [passages, pass_linkCells_other s a b c hca hcb]
        simp [passages, hca, hcb]

theorem passMono_refl (s : MazeState) : PassMono s s := fun _ _ h => h

theorem passMono_trans {s0 s1 s2 : MazeState} (h1 : PassMono s0 s1) (h2 : PassMono s1 s2) :
    PassMono s0 s2 := fun c d h => h2 c d (h1 c d h)

theorem passMono_linkto (s : MazeState) (c : CellId) (cell : Option CellId) (w : Int) :
    PassMono s (linkto s c cell w) := by
  cases cell with
  | none => exact passMono_refl s
  | some d =>
    intro x y h
    simp only [linkto, passages] at h ⊢
    by_cases hx : x = c
    · subst hx
      simp only [if_pos rfl]
      exact (mem_keysOf_dictSet _ _ _ _).mpr (Or.inr h)
    · simpa [hx] using h

theorem passMono_linkCells (s : MazeState) (a b : CellId) :
    PassMono s (linkCells s a b) :=
  passMono_trans (passMono_linkto s a (some b) 1) (passMono_linkto _ b (some a) 1)

theorem passConn_mono {s s' : MazeState} (h : PassMono s s') {a b : CellId}
    (hc : PassConn s a b) : PassConn s' a b :=
  Relation.ReflTransGen.mono (fun x y hxy => h x y hxy) hc

theorem length_passages_linkCells_left (s : MazeState) (a b : CellId) (hab : a ≠ b)
    (hb : b ∉ passages s a) :
    (passages (linkCells s a b) a).length = (passages s a).length + 1 := by
  rw [passages, pass_linkCells_left s a b hab]
  rw [show (keysOf (dictSet (s.pass a) b 1)).length = (dictSet (s.pass a) b 1).length by
    simp [keysOf]]
  rw [length_dictSet_of_not_mem _ _ _ hb]
  simp [passages, keysOf]

theorem length_passages_linkCells_right (s : MazeState) (a b : CellId) (hab : a ≠ b)
    (ha : a ∉ passages s b) :
    (passages (linkCells s a b) b).length = (passages s b).length + 1 := by
  rw [passages, pass_linkCells_right s a b hab]
  rw [show (keysOf (dictSet (s.pass b) a 1)).length = (dictSet (s.pass b) a 1).length by
    simp [keysOf]]
  rw [length_dictSet_of_not_mem _ _ _ ha]
  simp [passages, keysOf]

theorem sum_map_update1 {f g : CellId → Nat} (a : CellId)
    (hfa : g a = f a + 1) (hother : ∀ c, c ≠ a → g c = f c) :
    ∀ (l : List CellId), l.Nodup → a ∈ l →
      (l.map g).sum = (l.map f).sum + 1 := by
  intro l
  induction l with
  | nil => intro _ ha; cases ha
  | cons c rest ih =>
    intro hnd hca
    rcases List.mem_cons.mp hca with rfl | ha
    · have : ∀ y ∈ rest, g y = f y := fun y hy =>
        hother y (fun hya => (List.nodup_cons.mp hnd).1 (hya ▸ hy))
      simp only [List.map_cons, List.sum_cons, hfa, List.map_congr_left this]
      omega
    · have hcna : c ≠ a := fun hce => (List.nodup_cons.mp hnd).1 (hce ▸ ha)
      simp only [List.map_cons, List.sum_cons, hother c hcna]
      have := ih (List.nodup_cons.mp hnd).2 ha
      omega

theorem sum_map_update2 {f g : CellId → Nat} (a b : CellId) (hab : a ≠ b)
    (hfa : g a = f a + 1) (hfb : g b = f b + 1)
    (hother : ∀ c, c ≠ a → c ≠ b → g c = f c) :
    ∀ (l : List CellId), l.Nodup → a ∈ l → b ∈ l →
      (l.map g).sum = (l.map f).sum + 2 := by
  intro l hnd ha hb
  set f1 : CellId → Nat := fun c => if c = a then g a else f c with hf1
  have step1 : (l.map f1).sum = (l.map f).sum + 1 :=
    sum_map_update1 a (by simp [hf1, hfa]) (fun c hc => by simp [hf1, hc]) l hnd ha
  have step2 : (l.map g).sum = (l.map f1).sum + 1 :=
    sum_map_update1 b (by simp [hf1, Ne.symm hab, hfb])
      (fun c hc => by
        by_cases hca : c = a
        · subst hca; simp [hf1]
        · simp [hf1, hca, hother c hca hc]) l hnd hb
  omega

theorem edgeSum_linkCells (s : MazeState) (cells : List CellId) (a b : CellId)
    (hnd : cells.Nodup) (ha : a ∈ cells) (hb : b ∈ cells) (hab : a ≠ b)
    (hba : b ∉ passages s a) (hab2 : a ∉ passages s b) :
    edgeSum (linkCells s a b) cells = edgeSum s cells + 2 := by
  unfold edgeSum
  exact sum_map_update2 a b hab
    (length_passages_linkCells_left s a b hab hba)
    (length_passages_linkCells_right s a b hab hab2)
    (fun c hca hcb => by rw [passages, pass_linkCells_other s a b c hca hcb]; rfl)
    cells hnd ha hb

/-! ## Growing a spanning tree one adoption at a time

Every carving algorithm except the table-based Aldous-Broder flavors links a
visited cell to an unvisited cell and marks it visited; `TreeInv.grow` is that
step. -/

theorem TreeInv.grow {cells : List CellId} {s : MazeState} {vis : Finset CellId}
    (hI : TreeInv cells s vis) (hnd : cells.Nodup) {a b : CellId}
    (ha : a ∈ vis) (hb : b ∈ cells) (hbv : b ∉ vis) :
    TreeInv cells (linkCells s a b) (insert b vis) := by
  have hab : a ≠ b := fun h => hbv (h ▸ ha)
  have hpb : passages s b = [] := by rw [passages, hI.unvisEmpty b hbv]; rfl
  have hba : b ∉ passages s a := fun h => hbv (hI.endpoints a b h).2.1
  have hab2 : a ∉ passages s b := by rw [hpb]; exact List.not_mem_nil a
  have hstep : plinked (linkCells s a b) a b :=
    (mem_passages_linkCells s a b a b).mpr (Or.inr (Or.inl ⟨rfl, rfl⟩))
  have hstep2 : plinked (linkCells s a b) b a :=
    (mem_passages_linkCells s a b b a).mpr (Or.inr (Or.inr ⟨rfl, rfl⟩))
  refine ⟨?_, ⟨b, Finset.mem_insert_self b vis⟩, ?_, ?_, ?_, ?_, ?_⟩
  · intro c hc
    rcases Finset.mem_insert.mp hc with rfl | hc
    · exact hb
    · exact hI.visSub c hc
  · intro c hc
    have hcb : c ≠ b := fun h => hc (h ▸ Finset.mem_insert_self b vis)
    have hcv : c ∉ vis := fun h => hc (Finset.mem_insert_of_mem h)
    have hca : c ≠ a := fun h => hcv (h ▸ ha)
    rw [pass_linkCells_other s a b c hca hcb]
    exact hI.unvisEmpty c hcv
  · intro x y h
    rcases (mem_passages_linkCells s a b y x).mp h with h | ⟨rfl, rfl⟩ | ⟨rfl, rfl⟩
    · exact (mem_passages_linkCells s a b x y).mpr (Or.inl (hI.symm x y h))
    · exact hstep2
    · exact hstep
  · intro x y h
    rcases (mem_passages_linkCells s a b x y).mp h with h | ⟨hxa, hyb⟩ | ⟨hxb, hya⟩
    · obtain ⟨hx, hy, hxy⟩ := hI.endpoints x y h
      exact ⟨Finset.mem_insert_of_mem hx, Finset.mem_insert_of_mem hy, hxy⟩
    · refine ⟨?_, ?_, ?_⟩
      · rw [hxa]; exact Finset.mem_insert_of_mem ha
      · rw [hyb]; exact Finset.mem_insert_self b vis
      · rw [hxa, hyb]; exact hab
    · refine ⟨?_, ?_, ?_⟩
      · rw [hxb]; exact Finset.mem_insert_self b vis
      · rw [hya]; exact Finset.mem_insert_of_mem ha
      · rw [hxb, hya]; exact Ne.symm hab
  · have hmono : PassMono s (linkCells s a b) := passMono_linkCells s a b
    intro x hx y hy
    rcases Finset.mem_insert.mp hx with hxb | hx
    · rcases Finset.mem_insert.mp hy with hyb | hy
      · rw [hxb, hyb]
        exact Relation.ReflTransGen.refl
      · rw [hxb]
        exact Relation.ReflTransGen.head hstep2 (passConn_mono hmono (hI.conn a ha y hy))
    · rcases Finset.mem_insert.mp hy with hyb | hy
      · rw [hyb]
        exact Relation.ReflTransGen.tail (passConn_mono hmono (hI.conn x hx a ha)) hstep
      · exact passConn_mono hmono (hI.conn x hx y hy)
  · rw [edgeSum_linkCells s cells a b hnd (hI.visSub a ha) hb hab hba hab2]
    rw [Finset.card_insert_of_not_mem hbv]
    have := hI.count
    omega

theorem linkPath_grow {cells : List CellId} (hnd : cells.Nodup) :
    ∀ (t : List CellId) (h : CellId) (s : MazeState) (vis : Finset CellId),
      TreeInv cells s vis → h ∈ vis → t.Nodup → (∀ c ∈ t, c ∈ cells) →
      (∀ c ∈ t, c ∉ vis) →
      TreeInv cells (linkPath s (h :: t)) (vis ∪ t.toFinset) := by
  intro t
  induction t with
  | nil => intro h s vis hI _ _ _ _; simpa [linkPath] using hI
  | cons b rest ih =>
    intro h s vis hI hh hndt hcell hdisj
    have hb : b ∈ cells := hcell b (List.mem_cons_self _ _)
    have hbv : b ∉ vis := hdisj b (List.mem_cons_self _ _)
    have hI2 := hI.grow hnd hh hb hbv
    have hrest := ih b (linkCells s h b) (insert b vis) hI2
      (Finset.mem_insert_self b vis) (List.nodup_cons.mp hndt).2
      (fun c hc => hcell c (List.mem_cons_of_mem _ hc))
      (fun c hc => by
        intro hcv
        rcases Finset.mem_insert.mp hcv with rfl | hcv
        · exact (List.nodup_cons.mp hndt).1 hc
        · exact hdisj c (List.mem_cons_of_mem _ hc) hcv)
    have : linkPath s (h :: b :: rest) = linkPath (linkCells s h b) (b :: rest) := rfl
    rw [this]
    have hset : insert b vis ∪ rest.toFinset = vis ∪ (b :: rest).toFinset := by
      ext x
      simp [Finset.mem_union, Finset.mem_insert, List.mem_toFinset]
    rwa [hset] at hrest

/-! ## List serving helpers -/

theorem getD_mem {γ : Type} [Inhabited γ] (q : List γ) (i : Nat) (h : i < q.length) :
    q.getD i default ∈ q := by
  rw [List.getD_eq_getElem?_getD, List.getElem?_eq_getElem h]
  exact List.getElem_mem _

theorem mem_eraseIdx_or {γ : Type} [Inhabited γ] (q : List γ) (i : Nat) (h : i < q.length) :
    ∀ x ∈ q, x ∈ q.eraseIdx i ∨ x = q.getD i default := by
  intro x hx
  have hq : q = q.take i ++ q.drop i := (List.take_append_drop i q).symm
  have hdrop : q.drop i = q.getD i default :: q.drop (i + 1) := by
    rw [List.getD_eq_getElem?_getD, List.getElem?_eq_getElem h]
    exact List.drop_eq_getElem_cons h
  have herase : q.eraseIdx i = q.take i ++ q.drop (i + 1) :=
    List.eraseIdx_eq_take_drop_succ q i
  rw [hq, List.mem_append] at hx
  rcases hx with hx | hx
  · exact Or.inl (by rw [herase, List.mem_append]; exact Or.inl hx)
  · rw [hdrop, List.mem_cons] at hx
    rcases hx with hx | hx
    · exact Or.inr hx
    · exact Or.inl (by rw [herase, List.mem_append]; exact Or.inr hx)

theorem mem_of_mem_eraseIdx {γ : Type} (q : List γ) (i : Nat) :
    ∀ x ∈ q.eraseIdx i, x ∈ q := fun x hx => (List.eraseIdx_sublist q i).mem hx

/-! ## Loop iteration lemmas -/

theorem loopIter_inv {σ : Type} (step : σ → σ) (halted : σ → Bool) (Inv : σ → Prop)
    (hstep : ∀ st, Inv st → halted st = false → Inv (step st)) :
    ∀ (n : Nat) (st : σ), Inv st → Inv (loopIter step halted n st) := by
  intro n
  induction n with
  | zero => intro st h; exact h
  | succ k ih =>
    intro st h
    rw [loopIter]
    by_cases hh : halted st = true
    · simp only [hh, if_true]; exact h
    · simp only [hh, if_false]
      exact ih (step st) (hstep st h (Bool.not_eq_true _ ▸ hh))

theorem loopIter_succ_eq {σ : Type} (step : σ → σ) (halted : σ → Bool) :
    ∀ (n : Nat) (st : σ), loopIter step halted (n + 1) st =
      (fun x => if halted x then x else step x) (loopIter step halted n st) := by
  intro n
  induction n with
  | zero => intro st; rfl
  | succ k ih =>
    intro st
    by_cases hh : halted st = true
    · have h1 : loopIter step halted (k + 1 + 1) st = st := by rw [loopIter]; simp [hh]
      have h2 : loopIter step halted (k + 1) st = st := by rw [loopIter]; simp [hh]
      rw [h1, h2]
      simp [hh]
    · have h1 : loopIter step halted (k + 1 + 1) st = loopIter step halted (k + 1) (step st) := by
        rw [loopIter]; simp [hh]
      have h2 : loopIter step halted (k + 1) st = loopIter step halted k (step st) := by
        rw [loopIter]; simp [hh]
      rw [h1, h2, ih]

theorem loopIter_halts {σ : Type} (step : σ → σ) (halted : σ → Bool) (m : σ → Nat)
    (hm : ∀ st, halted st = false →
      halted (step st) = true ∨ m (step st) < m st) :
    ∀ (n : Nat) (st : σ), m st < n → halted (loopIter step halted n st) = true := by
  intro n
  induction n with
  | zero => intro st h; omega
  | succ k ih =>
    intro st hlt
    rw [loopIter]
    by_cases hh : halted st = true
    · simp [hh]
    · simp only [hh, if_false]
      have hh' : halted st = false := Bool.not_eq_true _ ▸ hh
      rcases hm st hh' with hdone | hdec
      · cases k with
        | zero => simpa [loopIter] using hdone
        | succ k2 => rw [loopIter]; simp [hdone]
      · exact ih (step st) (by omega)

theorem mem_foldl_erase (l : List CellId) :
    ∀ (u : Finset CellId) (c : CellId),
      c ∈ l.foldl (fun u c => u.erase c) u ↔ c ∈ u ∧ c ∉ l := by
  induction l with
  | nil => intro u c; simp
  | cons b rest ih =>
    intro u c
    simp only [List.foldl_cons, ih, Finset.mem_erase, List.mem_cons]
    constructor
    · rintro ⟨⟨hcb, hcu⟩, hcr⟩
      exact ⟨hcu, by rintro (rfl | h) <;> [exact hcb rfl; exact hcr h]⟩
    · rintro ⟨hcu, h⟩
      exact ⟨⟨fun hcb => h (Or.inl hcb), hcu⟩, fun hcr => h (Or.inr hcr)⟩

/-! ## The generic engine grows a spanning tree -/

/-- Invariant of the engine loop once the root is adopted: the carved state is
a partial spanning tree on the visited set, every queued entry has a visited
parent and a grid cell, and every neighbor of a visited cell is visited or
still queued from it. -/
structure EngInv (cells : List CellId) (s0 : MazeState) (st : EngSt) : Prop where
  tree : TreeInv cells st.s st.visited
  frame : FramePreserved s0 st.s
  qpar : ∀ e ∈ st.queue, ∃ p, e.parent = some p ∧ p ∈ st.visited
  qcell : ∀ e ∈ st.queue, e.cell ∈ cells
  cover : ∀ v ∈ st.visited, ∀ nb ∈ st.s.nbrs v, nb ∈ st.visited ∨
    (⟨some v, nb⟩ : Entry) ∈ st.queue

theorem engStep_inv {cells : List CellId} {s0 : MazeState}
    (pick : Nat → List Entry → Nat) (shuf : Nat → List CellId → List CellId)
    (hsh : Shuffler shuf) (hnd : cells.Nodup) (hclosed : GridClosed s0 cells)
    {st : EngSt} (hI : EngInv cells s0 st) (hne : engDone st = false) :
    EngInv cells s0 (engStep pick shuf st) := by
  have hqne : st.queue.isEmpty = false := by rwa [engDone] at hne
  have hlen : 0 < st.queue.length := by
    cases hq : st.queue with
    | nil => rw [hq] at hqne; simp at hqne
    | cons a l => simp [hq]
  have hilt : pick st.t st.queue % st.queue.length < st.queue.length := Nat.mod_lt _ hlen
  have hserve : serveAt st.queue (pick st.t st.queue % st.queue.length) =
      (st.queue.getD (pick st.t st.queue % st.queue.length) default,
       st.queue.eraseIdx (pick st.t st.queue % st.queue.length)) := rfl
  set e : Entry := st.queue.getD (pick st.t st.queue % st.queue.length) default with hedef
  set rest : List Entry := st.queue.eraseIdx (pick st.t st.queue % st.queue.length) with hrdef
  have heq : e ∈ st.queue := getD_mem _ _ hilt
  have hrest_sub : ∀ x ∈ rest, x ∈ st.queue := mem_of_mem_eraseIdx _ _
  have hsplit : ∀ x ∈ st.queue, x ∈ rest ∨ x = e := mem_eraseIdx_or _ _ hilt
  have hstep : engStep pick shuf st =
      (if e.cell ∈ st.visited then { st with queue := rest, t := st.t + 1 } else
        let s1 := match e.parent with
          | none => st.s
          | some p => linkCells st.s p e.cell
        { s := s1,
          queue := rest ++ (shuf (st.t + 1) (s1.nbrs e.cell)).map fun nb => ⟨some e.cell, nb⟩,
          visited := insert e.cell st.visited,
          t := st.t + 2 }) := by
    rw [engStep, hqne]
    rfl
  rw [hstep]
  by_cases hv : e.cell ∈ st.visited
  · rw [if_pos hv]
    refine ⟨hI.tree, hI.frame, ?_, ?_, ?_⟩
    · exact fun x hx => hI.qpar x (hrest_sub x hx)
    · exact fun x hx => hI.qcell x (hrest_sub x hx)
    · intro v hvv nb hnb
      rcases hI.cover v hvv nb hnb with h | h
      · exact Or.inl h
      · rcases hsplit _ h with h2 | h2
        · exact Or.inr h2
        · have : nb = e.cell := congrArg Entry.cell h2
          exact Or.inl (this ▸ hv)
  · rw [if_neg hv]
    obtain ⟨p, hp, hpv⟩ := hI.qpar e heq
    have hcellc : e.cell ∈ cells := hI.qcell e heq
    rw [hp]
    simp only []
    have htree2 : TreeInv cells (linkCells st.s p e.cell) (insert e.cell st.visited) :=
      hI.tree.grow hnd hpv hcellc hv
    have hframe2 : FramePreserved s0 (linkCells st.s p e.cell) :=
      framePreserved_trans hI.frame (framePreserved_linkCells _ _ _)
    have hnbrs_eq : (linkCells st.s p e.cell).nbrs = st.s.nbrs := rfl
    refine ⟨htree2, hframe2, ?_, ?_, ?_⟩
    · intro x hx
      rcases List.mem_append.mp hx with hx | hx
      · obtain ⟨p2, hp2, hp2v⟩ := hI.qpar x (hrest_sub x hx)
        exact ⟨p2, hp2, Finset.mem_insert_of_mem hp2v⟩
      · obtain ⟨nb, _, rfl⟩ := List.mem_map.mp hx
        exact ⟨e.cell, rfl, Finset.mem_insert_self _ _⟩
    · intro x hx
      rcases List.mem_append.mp hx with hx | hx
      · exact hI.qcell x (hrest_sub x hx)
      · obtain ⟨nb, hnb, rfl⟩ := List.mem_map.mp hx
        have : nb ∈ st.s.nbrs e.cell := (hsh (st.t + 1) _).mem_iff.mp hnb
        have : nb ∈ s0.nbrs e.cell := hI.frame.1 ▸ this
        exact hclosed e.cell hcellc nb this
    · intro v hvv nb hnb
      rw [hnbrs_eq] at hnb
      rcases Finset.mem_insert.mp hvv with hveq | hvv
      · refine Or.inr (List.mem_append.mpr (Or.inr ?_))
        refine List.mem_map.mpr ⟨nb, ?_, by rw [hveq]⟩
        rw [hnbrs_eq]
        exact (hsh (st.t + 1) _).mem_iff.mpr (hveq ▸ hnb)
      · rcases hI.cover v hvv nb hnb with h | h
        · exact Or.inl (Finset.mem_insert_of_mem h)
        · rcases hsplit _ h with h2 | h2
          · exact Or.inr (List.mem_append.mpr (Or.inl h2))
          · have : nb = e.cell := congrArg Entry.cell h2
            exact Or.inl (this ▸ Finset.mem_insert_self _ _)

theorem edgeSum_fresh (s : MazeState) (hf : Fresh s) (cells : List CellId) :
    edgeSum s cells = 0 := by
  unfold edgeSum
  have : ∀ c ∈ cells, (passages s c).length = 0 := by
    intro c _; rw [passages, hf c]; rfl
  rw [List.map_congr_left this]
  simp

theorem engInit_inv {cells : List CellId} {s0 : MazeState}
    (pick : Nat → List Entry → Nat) (shuf : Nat → List CellId → List CellId)
    (hsh : Shuffler shuf) (hf : Fresh s0) (hclosed : GridClosed s0 cells)
    {root : CellId} (hroot : root ∈ cells) :
    EngInv cells s0 (engStep pick shuf ⟨s0, [⟨none, root⟩], ∅, 0⟩) := by
  have hstep : engStep pick shuf ⟨s0, [⟨none, root⟩], ∅, 0⟩ =
      { s := s0,
        queue := (shuf 1 (s0.nbrs root)).map fun nb => ⟨some root, nb⟩,
        visited := insert root ∅,
        t := 2 } := by
    rw [engStep]
    simp only [serveAt, List.length_singleton, Nat.mod_one]
    rfl
  rw [hstep]
  have htree : TreeInv cells s0 (insert root ∅) := by
    refine ⟨?_, ⟨root, Finset.mem_insert_self _ _⟩, ?_, ?_, ?_, ?_, ?_⟩
    · intro c hc
      rcases Finset.mem_insert.mp hc with rfl | hc
      · exact hroot
      · exact absurd hc (Finset.not_mem_empty c)
    · intro c _; exact hf c
    · intro a b h
      rw [passages, hf b] at h
      exact absurd h (List.not_mem_nil a)
    · intro a b h
      rw [passages, hf a] at h
      exact absurd h (List.not_mem_nil b)
    · intro a ha b hb
      rcases Finset.mem_insert.mp ha with rfl | ha
      · rcases Finset.mem_insert.mp hb with hb2 | hb2
        · rw [hb2]
          exact Relation.ReflTransGen.refl
        · exact absurd hb2 (Finset.not_mem_empty b)
      · exact absurd ha (Finset.not_mem_empty a)
    · rw [edgeSum_fresh s0 hf cells]
      simp
  refine ⟨htree, framePreserved_refl s0, ?_, ?_, ?_⟩
  · intro x hx
    obtain ⟨nb, _, rfl⟩ := List.mem_map.mp hx
    exact ⟨root, rfl, Finset.mem_insert_self _ _⟩
  · intro x hx
    obtain ⟨nb, hnb, rfl⟩ := List.mem_map.mp hx
    exact hclosed root hroot nb ((hsh 1 _).mem_iff.mp hnb)
  · intro v hv nb hnb
    rcases Finset.mem_insert.mp hv with hveq | hv
    · refine Or.inr (List.mem_map.mpr ⟨nb, ?_, by rw [hveq]⟩)
      exact (hsh 1 _).mem_iff.mpr (hveq ▸ hnb)
    · exact absurd hv (Finset.not_mem_empty v)

theorem engRun_inv {cells : List CellId} {s0 : MazeState}
    (pick : Nat → List Entry → Nat) (shuf : Nat → List CellId → List CellId)
    (hsh : Shuffler shuf) (hf : Fresh s0) (hnd : cells.Nodup)
    (hclosed : GridClosed s0 cells) {root : CellId} (hroot : root ∈ cells)
    (fuel : Nat) :
    spanningSearchOn pick shuf s0 root fuel = (⟨s0, [⟨none, root⟩], ∅, 0⟩ : EngSt) ∨
      EngInv cells s0 (spanningSearchOn pick shuf s0 root fuel) := by
  rw [spanningSearchOn]
  cases fuel with
  | zero => exact Or.inl rfl
  | succ k =>
    rw [loopIter]
    have : engDone ⟨s0, [⟨none, root⟩], ∅, 0⟩ = false := by rw [engDone]; rfl
    rw [this]
    simp only [Bool.false_eq_true, if_false]
    refine Or.inr (loopIter_inv _ engDone (EngInv cells s0) ?_ k _
      (engInit_inv pick shuf hsh hf hclosed hroot))
    intro st hI hne
    exact engStep_inv pick shuf hsh hnd hclosed hI hne

theorem engCoverage {cells : List CellId} {s0 : MazeState} {st : EngSt}
    (hI : EngInv cells s0 st) (hq : st.queue = [])
    (hconn : GridConnected s0 cells) :
    ∀ c ∈ cells, c ∈ st.visited := by
  obtain ⟨a, ha⟩ := hI.tree.visNE
  have hac : a ∈ cells := hI.tree.visSub a ha
  intro c hc
  have hreach : Relation.ReflTransGen (adjacent s0) a c := hconn a hac c hc
  clear hc
  induction hreach with
  | refl => exact ha
  | tail hprev hadj ih =>
    rcases hI.cover _ ih _ (by rw [hI.frame.1]; exact hadj) with h | h
    · exact h
    · rw [hq] at h
      exact absurd h (List.not_mem_nil _)

theorem engine_spans {cells : List CellId} {s0 : MazeState}
    (pick : Nat → List Entry → Nat) (shuf : Nat → List CellId → List CellId)
    (hsh : Shuffler shuf) (hf : Fresh s0) (hnd : cells.Nodup)
    (hclosed : GridClosed s0 cells) (hconn : GridConnected s0 cells)
    {root : CellId} (hroot : root ∈ cells) (fuel : Nat)
    (hdone : engDone (spanningSearchOn pick shuf s0 root fuel) = true) :
    OneComponent (spanningSearchOn pick shuf s0 root fuel).s cells ∧
      edgeSum (spanningSearchOn pick shuf s0 root fuel).s cells = 2 * (cells.length - 1) ∧
      undirCount (spanningSearchOn pick shuf s0 root fuel).s cells = cells.length - 1 := by
  set st := spanningSearchOn pick shuf s0 root fuel with hst
  have hq : st.queue = [] := by
    rw [engDone, List.isEmpty_iff] at hdone
    exact hdone
  rcases engRun_inv pick shuf hsh hf hnd hclosed hroot fuel with hcase | hI
  · rw [← hst] at hcase
    rw [hcase] at hq
    exact absurd hq (by simp)
  · rw [← hst] at hI
    have hcov := engCoverage hI hq hconn
    have hvisEq : st.visited = cells.toFinset := by
      apply Finset.Subset.antisymm
      · intro c hc
        exact List.mem_toFinset.mpr (hI.tree.visSub c hc)
      · intro c hc
        exact hcov c (List.mem_toFinset.mp hc)
    have hcard : st.visited.card = cells.length := by
      rw [hvisEq, List.toFinset_card_of_nodup hnd]
    have hcount := hI.tree.count
    have hne : cells ≠ [] := fun h => by
      rw [h] at hroot; exact absurd hroot (List.not_mem_nil root)
    have hlen1 : 1 ≤ cells.length := by
      cases cells with
      | nil => exact absurd rfl hne
      | cons a l => simp
    refine ⟨⟨hne, ?_⟩, ?_, ?_⟩
    · intro a ha b hb
      exact hI.tree.conn a (hcov a ha) b (hcov b hb)
    · omega
    · rw [undirCount]
      omega

/-! ## The binary variants respect the fan-out bound -/

theorem length_passages_linkCells_left_le (s : MazeState) (a b : CellId) (hab : a ≠ b) :
    (passages (linkCells s a b) a).length ≤ (passages s a).length + 1 := by
  by_cases hb : b ∈ passages s a
  · rw [passages, pass_linkCells_left s a b hab]
    have : keysOf (dictSet (s.pass a) b 1) = keysOf (s.pass a) :=
      keysOf_dictSet_of_mem _ _ _ hb
    rw [this]
    exact Nat.le_succ _
  · rw [length_passages_linkCells_left s a b hab hb]

theorem length_passages_linkCells_right_le (s : MazeState) (a b : CellId) (hab : a ≠ b) :
    (passages (linkCells s a b) b).length ≤ (passages s b).length + 1 := by
  by_cases ha : a ∈ passages s b
  · rw [passages, pass_linkCells_right s a b hab]
    have : keysOf (dictSet (s.pass b) a 1) = keysOf (s.pass b) :=
      keysOf_dictSet_of_mem _ _ _ ha
    rw [this]
    exact Nat.le_succ _
  · rw [length_passages_linkCells_right s a b hab ha]

/-- Invariant of the bounded-fan-out loop: unadopted cells have no passages,
every cell has at most 3 passages, the root at most 2, and queued entries name
adopted parents. -/
structure BinInv (root : CellId) (st : EngSt) : Prop where
  unvis0 : ∀ c, c ∉ st.visited → st.s.pass c = []
  deg3 : ∀ c, (passages st.s c).length ≤ 3
  degRoot : (passages st.s root).length ≤ 2
  rootV : root ∈ st.visited
  qpar : ∀ e ∈ st.queue, ∃ p, e.parent = some p ∧ p ∈ st.visited

theorem binStep_inv {root : CellId} (pick : Nat → List Entry → Nat)
    (shuf : Nat → List CellId → List CellId) {st : EngSt} (hI : BinInv root st)
    (hne : engDone st = false) : BinInv root (binStep root pick shuf st) := by
  have hqne : st.queue.isEmpty = false := by rwa [engDone] at hne
  have hlen : 0 < st.queue.length := by
    cases hq : st.queue with
    | nil => rw [hq] at hqne; simp at hqne
    | cons a l => simp [hq]
  have hilt : pick st.t st.queue % st.queue.length < st.queue.length := Nat.mod_lt _ hlen
  set e : Entry := st.queue.getD (pick st.t st.queue % st.queue.length) default with hedef
  set rest : List Entry := st.queue.eraseIdx (pick st.t st.queue % st.queue.length) with hrdef
  have heq : e ∈ st.queue := getD_mem _ _ hilt
  have hrest_sub : ∀ x ∈ rest, x ∈ st.queue := mem_of_mem_eraseIdx _ _
  have hstep : binStep root pick shuf st =
      (if e.cell ∈ st.visited then { st with queue := rest, t := st.t + 1 } else
        match e.parent with
        | none =>
          { s := st.s,
            queue := rest ++ (shuf (st.t + 1) (st.s.nbrs e.cell)).map
              fun nb => ⟨some e.cell, nb⟩,
            visited := insert e.cell st.visited,
            t := st.t + 2 }
        | some p =>
          if 2 < (passages st.s p).length then { st with queue := rest, t := st.t + 1 }
          else if p = root ∧ 1 < (passages st.s p).length then
            { st with queue := rest, t := st.t + 1 }
          else
            { s := linkCells st.s p e.cell,
              queue := rest ++ ((linkCells st.s p e.cell).nbrs e.cell |> shuf (st.t + 1)).map
                fun nb => ⟨some e.cell, nb⟩,
              visited := insert e.cell st.visited,
              t := st.t + 2 }) := by
    rw [binStep, hqne]
    rfl
  rw [hstep]
  by_cases hv : e.cell ∈ st.visited
  · rw [if_pos hv]
    exact ⟨hI.unvis0, hI.deg3, hI.degRoot, hI.rootV,
      fun x hx => hI.qpar x (hrest_sub x hx)⟩
  · rw [if_neg hv]
    obtain ⟨p, hp, hpv⟩ := hI.qpar e heq
    simp only [hp]
    have hpc : p ≠ e.cell := fun h => hv (h ▸ hpv)
    have hrc : root ≠ e.cell := fun h => hv (h ▸ hI.rootV)
    by_cases hn3 : 2 < (passages st.s p).length
    · rw [if_pos hn3]
      exact ⟨hI.unvis0, hI.deg3, hI.degRoot, hI.rootV,
        fun x hx => hI.qpar x (hrest_sub x hx)⟩
    · rw [if_neg hn3]
      by_cases hroot2 : p = root ∧ 1 < (passages st.s p).length
      · rw [if_pos hroot2]
        exact ⟨hI.unvis0, hI.deg3, hI.degRoot, hI.rootV,
          fun x hx => hI.qpar x (hrest_sub x hx)⟩
      · rw [if_neg hroot2]
        refine ⟨?_, ?_, ?_, Finset.mem_insert_of_mem hI.rootV, ?_⟩
        · dsimp only
          intro c hc
          have hcb : c ≠ e.cell := fun h => hc (h ▸ Finset.mem_insert_self _ _)
          have hcv : c ∉ st.visited := fun h => hc (Finset.mem_insert_of_mem h)
          have hca : c ≠ p := fun h => hcv (h ▸ hpv)
          rw [pass_linkCells_other st.s p e.cell c hca hcb]
          exact hI.unvis0 c hcv
        · dsimp only
          intro c
          by_cases hcp : c = p
          · rw [hcp]
            have h1 := length_passages_linkCells_left_le st.s p e.cell hpc
            have h2 : (passages st.s p).length ≤ 2 := by omega
            omega
          · by_cases hce : c = e.cell
            · rw [hce]
              have h0 : passages st.s e.cell = [] := by
                rw [passages, hI.unvis0 e.cell hv]
                rfl
              have h1 := length_passages_linkCells_right_le st.s p e.cell hpc
              rw [h0, List.length_nil] at h1
              omega
            · rw [passages, pass_linkCells_other st.s p e.cell c hcp hce]
              exact hI.deg3 c
        · dsimp only
          by_cases hcp : p = root
          · rw [← hcp]
            have h1 := length_passages_linkCells_left_le st.s p e.cell hpc
            have h2 : (passages st.s p).length ≤ 1 := by
              rcases Nat.lt_or_ge 1 (passages st.s p).length with h | h
              · exact absurd ⟨hcp, h⟩ hroot2
              · exact h
            omega
          · rw [passages, pass_linkCells_other st.s p e.cell root
              (fun h => hcp h.symm) hrc]
            exact hI.degRoot
        · intro x hx
          rcases List.mem_append.mp hx with hx | hx
          · obtain ⟨p2, hp2, hp2v⟩ := hI.qpar x (hrest_sub x hx)
            exact ⟨p2, hp2, Finset.mem_insert_of_mem hp2v⟩
          · obtain ⟨nb, _, rfl⟩ := List.mem_map.mp hx
            exact ⟨e.cell, rfl, Finset.mem_insert_self _ _⟩

theorem binInit_inv {root : CellId} (pick : Nat → List Entry → Nat)
    (shuf : Nat → List CellId → List CellId) {s0 : MazeState} (hf : Fresh s0) :
    BinInv root (binStep root pick shuf ⟨s0, [⟨none, root⟩], ∅, 0⟩) := by
  have hstep : binStep root pick shuf ⟨s0, [⟨none, root⟩], ∅, 0⟩ =
      { s := s0,
        queue := (shuf 1 (s0.nbrs root)).map fun nb => ⟨some root, nb⟩,
        visited := insert root ∅,
        t := 2 } := by
    rw [binStep]
    simp only [serveAt, List.length_singleton, Nat.mod_one]
    rfl
  rw [hstep]
  have hdeg : ∀ c, (passages s0 c).length = 0 := by
    intro c; rw [passages, hf c]; rfl
  refine ⟨fun c _ => hf c, fun c => by rw [hdeg c]; omega, by rw [hdeg root]; omega,
    Finset.mem_insert_self _ _, ?_⟩
  intro x hx
  obtain ⟨nb, _, rfl⟩ := List.mem_map.mp hx
  exact ⟨root, rfl, Finset.mem_insert_self _ _⟩

theorem binRun_inv {root : CellId} (pick : Nat → List Entry → Nat)
    (shuf : Nat → List CellId → List CellId) {s0 : MazeState} (hf : Fresh s0)
    (fuel : Nat) :
    binarySearchOn root pick shuf s0 fuel = (⟨s0, [⟨none, root⟩], ∅, 0⟩ : EngSt) ∨
      BinInv root (binarySearchOn root pick shuf s0 fuel) := by
  rw [binarySearchOn]
  cases fuel with
  | zero => exact Or.inl rfl
  | succ k =>
    rw [loopIter]
    have : engDone ⟨s0, [⟨none, root⟩], ∅, 0⟩ = false := by rw [engDone]; rfl
    rw [this]
    simp only [Bool.false_eq_true, if_false]
    refine Or.inr (loopIter_inv _ engDone (BinInv root) ?_ k _
      (binInit_inv pick shuf hf))
    intro st hI hne
    exact binStep_inv pick shuf hI hne

/-! ## Ranked (first-visit) tables and trail reconstruction -/

theorem dictGet_append_left {α β : Type} [DecidableEq α] (t : List (α × β)) (e : α × β)
    (c : α) (h : c ∈ keysOf t) : dictGet (t ++ [e]) c = dictGet t c := by
  unfold dictGet
  rw [List.find?_append]
  obtain ⟨pr, hpr, hkey⟩ : ∃ pr ∈ t, pr.1 = c := by
    obtain ⟨pr, hpr, hk⟩ := List.mem_map.mp h
    exact ⟨pr, hpr, hk⟩
  have hsome : (t.find? (fun p => p.1 = c)).isSome := by
    rw [List.find?_isSome]
    exact ⟨pr, hpr, by simp [hkey]⟩
  obtain ⟨a, ha⟩ := Option.isSome_iff_exists.mp hsome
  rw [ha]
  rfl

theorem dictGet_append_right {α β : Type} [DecidableEq α] (t : List (α × β)) (k : α) (v : β)
    (h : k ∉ keysOf t) : dictGet (t ++ [(k, v)]) k = some v := by
  unfold dictGet
  rw [List.find?_append]
  have hnone : t.find? (fun p => p.1 = k) = none := by
    rw [List.find?_eq_none]
    intro p hp
    simp only [decide_eq_true_eq]
    exact fun hpk => h (List.mem_map.mpr ⟨p, hp, hpk⟩)
  rw [hnone, Option.none_or]
  have hone : List.find? (fun p => p.1 = k) [(k, v)] = some (k, v) :=
    List.find?_cons_of_pos _ (by simp)
  rw [hone]
  rfl

theorem dictGet_mem {α β : Type} [DecidableEq α] (t : List (α × β)) (c : α) (v : β)
    (h : dictGet t c = some v) : (c, v) ∈ t := by
  unfold dictGet at h
  cases hf : t.find? (fun p => p.1 = c) with
  | none => rw [hf] at h; exact absurd h (by simp)
  | some pr =>
    rw [hf] at h
    have hmem := List.mem_of_find?_eq_some hf
    have hkey := List.find?_some hf
    simp only [decide_eq_true_eq] at hkey
    have h2 : pr.2 = v := Option.some.inj h
    have : pr = (c, v) := Prod.ext hkey h2
    rwa [this] at hmem

theorem RankedExt.keys_nodup {root : CellId} {tbl : List (CellId × Option CellId)}
    (h : RankedExt root tbl) : (keysOf tbl).Nodup := by
  induction h with
  | base => simp [keysOf]
  | grow tbl k p htbl hk hp ih =>
    rw [keysOf, List.map_append]
    refine List.Nodup.append ih (by simp) ?_
    intro x hx hx2
    simp only [keysOf, List.map_cons, List.map_nil, List.mem_singleton] at hx2
    exact hk (hx2 ▸ hx)

theorem RankedExt.root_mem {root : CellId} {tbl : List (CellId × Option CellId)}
    (h : RankedExt root tbl) : root ∈ keysOf tbl := by
  induction h with
  | base => simp [keysOf]
  | grow tbl k p htbl hk hp ih =>
    rw [keysOf, List.map_append]
    exact List.mem_append_left _ ih

theorem RankedExt.target_mem {root : CellId} {tbl : List (CellId × Option CellId)}
    (h : RankedExt root tbl) : ∀ e ∈ tbl, ∀ q, e.2 = some q → q ∈ keysOf tbl := by
  induction h with
  | base =>
    intro e he q hq
    simp only [List.mem_singleton] at he
    rw [he] at hq
    exact absurd hq (by simp)
  | grow tbl k p htbl hk hp ih =>
    intro e he q hq
    rw [keysOf, List.map_append]
    rcases List.mem_append.mp he with he | he
    · exact List.mem_append_left _ (ih e he q hq)
    · simp only [List.mem_singleton] at he
      rw [he] at hq
      simp only [Option.some_inj] at hq
      exact List.mem_append_left _ (hq ▸ hp)

theorem RankedExt.none_iff {root : CellId} {tbl : List (CellId × Option CellId)}
    (h : RankedExt root tbl) : ∀ e ∈ tbl, (e.2 = none ↔ e.1 = root) := by
  induction h with
  | base =>
    intro e he
    simp only [List.mem_singleton] at he
    rw [he]
    simp
  | grow tbl k p htbl hk hp ih =>
    intro e he
    rcases List.mem_append.mp he with he | he
    · exact ih e he
    · simp only [List.mem_singleton] at he
      rw [he]
      simp only
      constructor
      · intro hq; exact absurd hq (by simp)
      · intro hq
        exact absurd (hq ▸ htbl.root_mem) hk

theorem followTrail_append {root : CellId} {tbl : List (CellId × Option CellId)}
    (hr : RankedExt root tbl) (k p : CellId) (hk : k ∉ keysOf tbl) :
    ∀ (n : Nat) (c : CellId), c ∈ keysOf tbl →
      followTrail (tbl ++ [(k, some p)]) n c = followTrail tbl n c := by
  intro n
  induction n with
  | zero => intro c _; rfl
  | succ m ih =>
    intro c hc
    rw [followTrail, followTrail, dictGet_append_left tbl (k, some p) c hc]
    cases hv : dictGet tbl c with
    | none => rfl
    | some v =>
      cases v with
      | none => rfl
      | some q =>
        have hq : q ∈ keysOf tbl :=
          hr.target_mem _ (dictGet_mem tbl c (some q) hv) q rfl
        dsimp only
        rw [ih q hq]

theorem followTrail_ranked {root : CellId} {tbl : List (CellId × Option CellId)}
    (hr : RankedExt root tbl) :
    ∀ (c : CellId), c ∈ keysOf tbl → ∀ (n : Nat), tbl.length ≤ n →
      ∃ path, followTrail tbl n c = some path ∧ path.head? = some c ∧
        path.getLast? = some root ∧ path.Nodup ∧ (∀ x ∈ path, x ∈ keysOf tbl) := by
  induction hr with
  | base =>
    intro c hc n hn
    have hc' : c = root := by simpa [keysOf] using hc
    cases n with
    | zero => simp at hn
    | succ m =>
      refine ⟨[root], ?_, by simp [hc'], rfl, by simp, by simp [keysOf]⟩
      rw [hc', followTrail]
      have hdg : dictGet ([(root, none)] : List (CellId × Option CellId)) root =
          some none := by
        simp [dictGet, List.find?]
      rw [hdg]
  | grow tbl k p htbl hk hp ih =>
    intro c hc n hn
    have hlenext : (tbl ++ [(k, some p)]).length = tbl.length + 1 := by simp
    rw [keysOf, List.map_append, List.mem_append] at hc
    rcases hc with hc | hc
    · have hlen : tbl.length ≤ n := by omega
      obtain ⟨path, heq, hh, hl, hnd, hmem⟩ := ih c hc n hlen
      rw [followTrail_append htbl k p hk n c hc]
      refine ⟨path, heq, hh, hl, hnd, fun x hx => ?_⟩
      rw [keysOf, List.map_append]
      exact List.mem_append_left _ (hmem x hx)
    · have hck : c = k := by simpa [keysOf] using hc
      subst hck
      cases n with
      | zero => omega
      | succ m =>
        have hlen : tbl.length ≤ m := by omega
        obtain ⟨path, heq, hh, hl, hnd, hmem⟩ := ih p hp m hlen
        rw [followTrail, dictGet_append_right tbl c (some p) hk]
        dsimp only
        rw [followTrail_append htbl c p hk m p hp, heq]
        cases path with
        | nil => exact absurd hh (by simp)
        | cons p0 rest =>
          have hp0 : p0 = p := by simpa using hh
          refine ⟨c :: p0 :: rest, rfl, rfl, ?_, ?_, ?_⟩
          · rw [List.getLast?_cons_cons]
            exact hl
          · refine List.nodup_cons.mpr ⟨?_, hnd⟩
            intro hcmem
            exact hk (hmem c hcmem)
          · intro x hx
            rw [keysOf, List.map_append]
            rcases List.mem_cons.mp hx with rfl | hx
            · exact List.mem_append_right _ (by simp [keysOf])
            · exact List.mem_append_left _ (hmem x hx)

/-! ## The circuit-erased walk -/

theorem listChoice_mem {γ : Type} [Inhabited γ] (k : Nat) (l : List γ) (h : l ≠ []) :
    listChoice k l ∈ l := by
  have hlen : 0 < l.length := List.length_pos.mpr h
  exact getD_mem l (k % l.length) (Nat.mod_lt _ hlen)

theorem mem_finAsc (u : Finset CellId) (x : CellId) : x ∈ finAsc u ↔ x ∈ u := by
  rcases u with ⟨m, hm⟩
  induction m using Quot.ind with
  | mk l =>
    show x ∈ l.insertionSort (· ≤ ·) ↔ _
    rw [(List.perm_insertionSort (· ≤ ·) l).mem_iff]
    rfl

/-- Invariant of the walk loop of `circuit_erased_walk`: the trail is a
first-visit table rooted at the oasis, the current cell is recorded, and every
recorded cell other than the current one is unvisited. -/
structure WInv (unvisited : Finset CellId) (oasis : CellId) (w : WalkSt) : Prop where
  rk : RankedExt oasis w.trail
  currIn : w.curr ∈ keysOf w.trail
  keysOk : ∀ c ∈ keysOf w.trail, c = w.curr ∨ c ∈ unvisited

theorem walkStep_inv {s : MazeState} {unvisited : Finset CellId} {oasis : CellId}
    (choiceO : Nat → Nat) {w : WalkSt} (hI : WInv unvisited oasis w)
    (hne : walkDone unvisited w = false) :
    WInv unvisited oasis (walkStep s choiceO unvisited w) := by
  have hcur : w.curr ∈ unvisited := by
    rw [walkDone] at hne
    simpa using hne
  by_cases hemp : (s.nbrs w.curr).isEmpty
  · rw [walkStep, if_neg (by simp [hcur]), if_pos hemp]; exact hI
  · have hstep : walkStep s choiceO unvisited w =
        { trail := if listChoice (choiceO w.t) (s.nbrs w.curr) ∈ keysOf w.trail then w.trail
                   else w.trail ++ [(listChoice (choiceO w.t) (s.nbrs w.curr), some w.curr)],
          curr := listChoice (choiceO w.t) (s.nbrs w.curr), n := w.n + 1, t := w.t + 1 } := by
      rw [walkStep, if_neg (by simp [hcur]), if_neg hemp]
    rw [hstep]
    set step := listChoice (choiceO w.t) (s.nbrs w.curr) with hstepdef
    by_cases hmem : step ∈ keysOf w.trail
    · refine ⟨?_, ?_, ?_⟩
      · dsimp only
        rw [if_pos hmem]
        exact hI.rk
      · dsimp only
        rw [if_pos hmem]
        exact hmem
      · intro c hc
        dsimp only at hc ⊢
        rw [if_pos hmem] at hc
        rcases hI.keysOk c hc with hcc | hcc
        · exact Or.inr (hcc ▸ hcur)
        · exact Or.inr hcc
    · refine ⟨?_, ?_, ?_⟩
      · dsimp only
        rw [if_neg hmem]
        exact RankedExt.grow _ step w.curr hI.rk hmem hI.currIn
      · dsimp only
        rw [if_neg hmem, keysOf, List.map_append]
        exact List.mem_append_right _ (by simp)
      · intro c hc
        dsimp only at hc ⊢
        rw [if_neg hmem, keysOf, List.map_append] at hc
        rcases List.mem_append.mp hc with hc | hc
        · rcases hI.keysOk c hc with hcc | hcc
          · exact Or.inr (hcc ▸ hcur)
          · exact Or.inr hcc
        · simp only [List.map_cons, List.map_nil, List.mem_singleton] at hc
          exact Or.inl hc

theorem head_ne_last_two_le {path : List CellId} {a b : CellId}
    (hh : path.head? = some a) (hl : path.getLast? = some b) (hab : a ≠ b) :
    2 ≤ path.length := by
  cases path with
  | nil => exact absurd hh (by simp)
  | cons x rest =>
    cases rest with
    | nil =>
      simp only [List.head?_cons, Option.some_inj] at hh
      simp only [List.getLast?_singleton, Option.some_inj] at hl
      exact absurd (hh.symm.trans hl) hab
    | cons y rest2 => simp

/-- Everything `circuit_erased_walk` promises when it returns a path. -/
theorem circuitErasedWalk_spec {s : MazeState} {choiceO : Nat → Nat}
    {unvisited : Finset CellId} {wfuel : Nat} {path : List CellId}
    (hne : unvisited.Nonempty)
    (h : circuitErasedWalk s choiceO unvisited wfuel = some path) :
    ∃ stop,
      listChoice (choiceO 0) (finAsc unvisited) ∈ unvisited ∧
      path.head? = some stop ∧ stop ∉ unvisited ∧
      path.getLast? = some (listChoice (choiceO 0) (finAsc unvisited)) ∧
      path.Nodup ∧ 2 ≤ path.length ∧
      (∀ x ∈ path.tail, x ∈ unvisited) ∧ (∀ x ∈ path, x = stop ∨ x ∈ unvisited) := by
  set oasis := listChoice (choiceO 0) (finAsc unvisited) with hoasisdef
  have hsortne : finAsc unvisited ≠ [] := by
    obtain ⟨x, hx⟩ := hne
    intro hnil
    have := (mem_finAsc unvisited x).mpr hx
    rw [hnil] at this
    exact absurd this (List.not_mem_nil x)
  have hoasis : oasis ∈ unvisited := by
    rw [hoasisdef]
    exact (mem_finAsc unvisited _).mp (listChoice_mem (choiceO 0) _ hsortne)
  set w0 : WalkSt := ⟨[(oasis, none)], oasis, 0, 1⟩ with hw0def
  set wend := loopIter (walkStep s choiceO unvisited) (walkDone unvisited) wfuel w0
    with hwenddef
  have hI0 : WInv unvisited oasis w0 := by
    refine ⟨RankedExt.base, by simp [hw0def, keysOf], ?_⟩
    intro c hc
    simp only [hw0def, keysOf, List.map_cons, List.map_nil, List.mem_singleton] at hc
    exact Or.inl hc
  have hIend : WInv unvisited oasis wend :=
    loopIter_inv _ _ (WInv unvisited oasis)
      (fun st hst hne2 => walkStep_inv choiceO hst hne2) wfuel w0 hI0
  have hmain : (if walkDone unvisited wend = true then
      followTrail wend.trail (wend.trail.length + 1) wend.curr else none) = some path := by
    rw [circuitErasedWalk] at h
    exact h
  by_cases hd : walkDone unvisited wend = true
  · rw [if_pos hd] at hmain
    have hstop : wend.curr ∉ unvisited := by
      rw [walkDone] at hd
      simpa using hd
    obtain ⟨path2, heq, hh, hl, hnd, hmem⟩ :=
      followTrail_ranked hIend.rk wend.curr hIend.currIn (wend.trail.length + 1)
        (Nat.le_succ _)
    rw [heq] at hmain
    have hpath : path = path2 := (Option.some.inj hmain).symm
    subst hpath
    refine ⟨wend.curr, hoasis, hh, hstop, hl, hnd, ?_, ?_, ?_⟩
    · have hne2 : wend.curr ≠ oasis := fun hce => hstop (hce ▸ hoasis)
      exact head_ne_last_two_le hh hl hne2
    · intro x hx
      have hxp : x ∈ path := by
        cases path with
        | nil => exact absurd hx (by simp)
        | cons p0 rest => exact List.mem_cons_of_mem _ hx
      rcases hIend.keysOk x (hmem x hxp) with hxc | hxc
      · exfalso
        cases path with
        | nil => exact absurd hh (by simp)
        | cons p0 rest =>
          have hp0 : p0 = wend.curr := by simpa using hh
          have : x ≠ p0 := by
            intro hxe
            have := List.nodup_cons.mp hnd
            exact this.1 (hxe ▸ hx)
          exact this (hxc.trans hp0.symm)
      · exact hxc
    · intro x hx
      rcases hIend.keysOk x (hmem x hx) with hxc | hxc
      · exact Or.inl hxc
      · exact Or.inr hxc
  · rw [if_neg hd] at hmain
    exact absurd hmain (by simp)

theorem binRun_degrees {root : CellId} (pick : Nat → List Entry → Nat)
    (shuf : Nat → List CellId → List CellId) {s0 : MazeState} (hf : Fresh s0)
    (fuel : Nat) :
    (∀ c, (passages (binarySearchOn root pick shuf s0 fuel).s c).length ≤ 3) ∧
      (passages (binarySearchOn root pick shuf s0 fuel).s root).length ≤ 2 := by
  rcases binRun_inv pick shuf hf fuel with hcase | hI
  · rw [hcase]
    have hdeg : ∀ c, (passages s0 c).length = 0 := by
      intro c; rw [passages, hf c]; rfl
    constructor
    · intro c; rw [hdeg c]; omega
    · rw [hdeg root]; omega
  · exact ⟨hI.deg3, hI.degRoot⟩

/-! ## Wilson: trail monotonicity and pass progress -/

theorem walkStep_trail_keeps {s : MazeState} {choiceO : Nat → Nat}
    {unvisited : Finset CellId} (w : WalkSt) (c : CellId) (v : Option CellId)
    (h : dictGet w.trail c = some v) :
    dictGet (walkStep s choiceO unvisited w).trail c = some v := by
  have hkey : c ∈ keysOf w.trail :=
    List.mem_map.mpr ⟨(c, v), dictGet_mem _ _ _ h, rfl⟩
  rw [walkStep]
  by_cases h1 : w.curr ∉ unvisited
  · rw [if_pos h1]; exact h
  · rw [if_neg h1]
    by_cases h2 : (s.nbrs w.curr).isEmpty
    · rw [if_pos h2]; exact h
    · rw [if_neg h2]
      show dictGet (if listChoice (choiceO w.t) (s.nbrs w.curr) ∈ keysOf w.trail then w.trail
          else w.trail ++ [(listChoice (choiceO w.t) (s.nbrs w.curr), some w.curr)]) c = some v
      by_cases h3 : listChoice (choiceO w.t) (s.nbrs w.curr) ∈ keysOf w.trail
      · rw [if_pos h3]; exact h
      · rw [if_neg h3, dictGet_append_left _ _ _ hkey]; exact h

theorem getLast?_mem : ∀ (l : List CellId) (a : CellId), l.getLast? = some a → a ∈ l := by
  intro l
  induction l with
  | nil => intro a h; exact absurd h (by simp)
  | cons x rest ih =>
    intro a h
    cases rest with
    | nil =>
      simp only [List.getLast?_singleton, Option.some_inj] at h
      simp [h]
    | cons y rest2 =>
      rw [List.getLast?_cons_cons] at h
      exact List.mem_cons_of_mem _ (ih a h)

theorem getLast?_mem_tail {l : List CellId} {a : CellId}
    (hlen : 2 ≤ l.length) (hl : l.getLast? = some a) : a ∈ l.tail := by
  cases l with
  | nil => simp at hlen
  | cons x rest =>
    cases rest with
    | nil => simp at hlen
    | cons y rest2 =>
      rw [List.getLast?_cons_cons] at hl
      exact getLast?_mem _ _ hl

/-- A successful Wilson pass removes the oasis (and perhaps more) from the
unvisited set, and increments the pass counter. -/
theorem wilsonStep_removes {choiceO : Nat → Nat → Nat} {wfuel : Nat → Nat}
    {st : WilsonSt} {path : List CellId} (hne : st.unvisited ≠ ∅)
    (hterm : circuitErasedWalk st.s (choiceO st.passes) st.unvisited
      (wfuel st.passes) = some path) :
    listChoice (choiceO st.passes 0) (finAsc st.unvisited) ∈ st.unvisited ∧
    listChoice (choiceO st.passes 0) (finAsc st.unvisited) ∉
      (wilsonStep choiceO wfuel st).unvisited ∧
    (wilsonStep choiceO wfuel st).unvisited ⊂ st.unvisited ∧
    (wilsonStep choiceO wfuel st).passes = st.passes + 1 := by
  have hne' : st.unvisited.Nonempty := Finset.nonempty_iff_ne_empty.mpr hne
  obtain ⟨stop, hoasis, hh, hstop, hl, hnd, hlen, htail, hall⟩ :=
    circuitErasedWalk_spec hne' hterm
  have hstep : wilsonStep choiceO wfuel st =
      ⟨linkPath st.s path, path.tail.foldl (fun u c => u.erase c) st.unvisited,
        st.passes + 1⟩ := by
    rw [wilsonStep, if_neg hne, hterm]
  have hointail : listChoice (choiceO st.passes 0) (finAsc st.unvisited) ∈ path.tail :=
    getLast?_mem_tail hlen hl
  have hsub : (wilsonStep choiceO wfuel st).unvisited ⊆ st.unvisited := by
    rw [hstep]
    intro x hx
    exact ((mem_foldl_erase _ _ _).mp hx).1
  refine ⟨hoasis, ?_, ?_, by rw [hstep]⟩
  · rw [hstep]
    intro hmem
    exact ((mem_foldl_erase _ _ _).mp hmem).2 hointail
  · rw [Finset.ssubset_iff_of_subset hsub]
    refine ⟨listChoice (choiceO st.passes 0) (finAsc st.unvisited), hoasis, ?_⟩
    rw [hstep]
    intro hmem
    exact ((mem_foldl_erase _ _ _).mp hmem).2 hointail

/-- The measure `passes + #unvisited` never grows across a Wilson pass. -/
theorem wilsonStep_measure (choiceO : Nat → Nat → Nat) (wfuel : Nat → Nat)
    {st : WilsonSt} (hne : wilsonDone st = false) :
    (wilsonStep choiceO wfuel st).passes + (wilsonStep choiceO wfuel st).unvisited.card ≤
      st.passes + st.unvisited.card := by
  have hne' : st.unvisited ≠ ∅ := by
    rw [wilsonDone] at hne
    simpa using hne
  cases hterm : circuitErasedWalk st.s (choiceO st.passes) st.unvisited (wfuel st.passes) with
  | none =>
    have hstep : wilsonStep choiceO wfuel st = st := by
      rw [wilsonStep, if_neg hne', hterm]
    rw [hstep]
  | some path =>
    obtain ⟨_, _, hss, hp⟩ := wilsonStep_removes hne' hterm
    have hcard : (wilsonStep choiceO wfuel st).unvisited.card < st.unvisited.card :=
      Finset.card_lt_card hss
    omega

/-- A Wilson run starting from `start ∈ cells` makes at most `v - 1` passes. -/
theorem wilsonOn_passes_le (choiceO : Nat → Nat → Nat) (wfuel : Nat → Nat)
    (s0 : MazeState) {cells : List CellId} {start : CellId} (fuel : Nat)
    (hstart : start ∈ cells) :
    (wilsonOn choiceO wfuel s0 cells start fuel).passes ≤ cells.length - 1 := by
  set B := (cells.toFinset.erase start).card with hB
  have hinv : ∀ st : WilsonSt, st.passes + st.unvisited.card ≤ B →
      (loopIter (wilsonStep choiceO wfuel) wilsonDone fuel st).passes +
        (loopIter (wilsonStep choiceO wfuel) wilsonDone fuel st).unvisited.card ≤ B := by
    intro st h0
    exact loopIter_inv _ _ (fun x => x.passes + x.unvisited.card ≤ B)
      (fun x hx hne => le_trans (wilsonStep_measure choiceO wfuel hne) hx) fuel st h0
  have h0 : (0 : Nat) + (cells.toFinset.erase start).card ≤ B := by omega
  have hfin := hinv ⟨s0, cells.toFinset.erase start, 0⟩ h0
  have hBle : B ≤ cells.length - 1 := by
    rw [hB, Finset.card_erase_of_mem (List.mem_toFinset.mpr hstart)]
    have := cells.toFinset_card_le
    omega
  rw [wilsonOn]
  omega

/-- C5: on a nonempty unvisited set whose members all have a neighbor, a
terminating `circuit_erased_walk` (i) never overwrites a trail entry once
recorded (later revisits keep the first-visit predecessor) and (ii) returns a
duplicate-free path of length at least 2 that starts outside the unvisited set
and ends at the randomly chosen oasis, which is itself unvisited. -/
theorem wilson_loop_erasure_C5 {s : MazeState} {choiceO : Nat → Nat}
    {unvisited : Finset CellId} {wfuel : Nat} {path : List CellId}
    (hne : unvisited.Nonempty) (hnbrs : ∀ c ∈ unvisited, s.nbrs c ≠ [])
    (hterm : circuitErasedWalk s choiceO unvisited wfuel = some path) :
    (∀ (w : WalkSt) (c : CellId) (v : Option CellId), dictGet w.trail c = some v →
        dictGet (walkStep s choiceO unvisited w).trail c = some v) ∧
    path.Nodup ∧ 2 ≤ path.length ∧
    (∃ stop, path.head? = some stop ∧ stop ∉ unvisited) ∧
    path.getLast? = some (listChoice (choiceO 0) (finAsc unvisited)) ∧
    listChoice (choiceO 0) (finAsc unvisited) ∈ unvisited := by
  obtain ⟨stop, hoasis, hh, hstop, hl, hnd, hlen, htail, hall⟩ :=
    circuitErasedWalk_spec hne hterm
  exact ⟨fun w c v h => walkStep_trail_keeps w c v h, hnd, hlen,
    ⟨stop, hh, hstop⟩, hl, hoasis⟩

theorem wilson_loop_erasure_C5_witness :
    (({1, 2} : Finset CellId)).Nonempty ∧
    (∀ c ∈ ({1, 2} : Finset CellId), lineMaze.nbrs c ≠ []) ∧
    circuitErasedWalk lineMaze (fun _ => 0) {1, 2} 2 = some [0, 1] ∧
    ((∀ (w : WalkSt) (c : CellId) (v : Option CellId), dictGet w.trail c = some v →
        dictGet (walkStep lineMaze (fun _ => 0) {1, 2} w).trail c = some v) ∧
     ([0, 1] : List CellId).Nodup ∧ 2 ≤ ([0, 1] : List CellId).length ∧
     (∃ stop, ([0, 1] : List CellId).head? = some stop ∧
       stop ∉ ({1, 2} : Finset CellId)) ∧
     ([0, 1] : List CellId).getLast? =
       some (listChoice ((fun _ => 0) 0) (finAsc ({1, 2} : Finset CellId))) ∧
     listChoice ((fun _ => 0) 0) (finAsc ({1, 2} : Finset CellId)) ∈
       ({1, 2} : Finset CellId)) :=
  ⟨by decide, by decide, by decide,
    @wilson_loop_erasure_C5 lineMaze (fun _ => 0) {1, 2} 2 [0, 1]
      (by decide) (by decide) (by decide)⟩

/-- C6: every Wilson pass whose circuit-erased walk terminates removes at
least one cell — in particular the pass's oasis — from the unvisited set, so
the unvisited set strictly shrinks each pass, and a run seeded from a cell of
the grid performs at most `v - 1` passes. -/
theorem wilson_progress_C6 (choiceO : Nat → Nat → Nat) (wfuel : Nat → Nat)
    (s0 : MazeState) {cells : List CellId} {start : CellId} (fuel : Nat)
    (hstart : start ∈ cells) :
    (∀ (st : WilsonSt) (path : List CellId), st.unvisited ≠ ∅ →
        circuitErasedWalk st.s (choiceO st.passes) st.unvisited
          (wfuel st.passes) = some path →
        listChoice (choiceO st.passes 0) (finAsc st.unvisited) ∈ st.unvisited ∧
        listChoice (choiceO st.passes 0) (finAsc st.unvisited) ∉
          (wilsonStep choiceO wfuel st).unvisited ∧
        (wilsonStep choiceO wfuel st).unvisited ⊂ st.unvisited) ∧
    (wilsonOn choiceO wfuel s0 cells start fuel).passes ≤ cells.length - 1 := by
  refine ⟨?_, wilsonOn_passes_le choiceO wfuel s0 fuel hstart⟩
  intro st path hne hterm
  obtain ⟨h1, h2, h3, _⟩ := wilsonStep_removes hne hterm
  exact ⟨h1, h2, h3⟩

theorem wilson_progress_C6_witness :
    (0 : CellId) ∈ [0, 1, 2] ∧
    ((∀ (st : WilsonSt) (path : List CellId), st.unvisited ≠ ∅ →
        circuitErasedWalk st.s ((fun _ _ => 0) st.passes) st.unvisited
          ((fun _ => 2) st.passes) = some path →
        listChoice ((fun _ _ => 0) st.passes 0) (finAsc st.unvisited) ∈ st.unvisited ∧
        listChoice ((fun _ _ => 0) st.passes 0) (finAsc st.unvisited) ∉
          (wilsonStep (fun _ _ => 0) (fun _ => 2) st).unvisited ∧
        (wilsonStep (fun _ _ => 0) (fun _ => 2) st).unvisited ⊂ st.unvisited) ∧
     (wilsonOn (fun _ _ => 0) (fun _ => 2) lineMaze [0, 1, 2] 0 5).passes ≤
       ([0, 1, 2] : List CellId).length - 1) :=
  ⟨by decide, wilson_progress_C6 (fun _ _ => 0) (fun _ => 2) lineMaze 5 (by decide)⟩

/-! ## Frame and monotonicity of every carving step -/

theorem linkPath_frame_mono : ∀ (p : List CellId) (s : MazeState),
    FramePreserved s (linkPath s p) ∧ PassMono s (linkPath s p) := by
  intro p
  induction p with
  | nil => intro s; exact ⟨framePreserved_refl s, passMono_refl s⟩
  | cons a rest ih =>
    intro s
    cases rest with
    | nil => exact ⟨framePreserved_refl s, passMono_refl s⟩
    | cons b rest2 =>
      obtain ⟨hf, hm⟩ := ih (linkCells s a b)
      exact ⟨framePreserved_trans (framePreserved_linkCells s a b) hf,
        passMono_trans (passMono_linkCells s a b) hm⟩

theorem linkTable_frame_mono : ∀ (tbl : List (CellId × Option CellId)) (s : MazeState),
    FramePreserved s (linkTable s tbl) ∧ PassMono s (linkTable s tbl) := by
  intro tbl
  induction tbl with
  | nil => intro s; exact ⟨framePreserved_refl s, passMono_refl s⟩
  | cons p rest ih =>
    intro s
    cases hp : p.2 with
    | none =>
      have : linkTable s (p :: rest) = linkTable s rest := by
        rw [linkTable, List.foldl_cons, hp]; rfl
      rw [this]
      exact ih s
    | some nb =>
      have : linkTable s (p :: rest) = linkTable (linkCells s p.1 nb) rest := by
        rw [linkTable, List.foldl_cons, hp]; rfl
      rw [this]
      obtain ⟨hf, hm⟩ := ih (linkCells s p.1 nb)
      exact ⟨framePreserved_trans (framePreserved_linkCells s p.1 nb) hf,
        passMono_trans (passMono_linkCells s p.1 nb) hm⟩

theorem engStep_frame_mono (pick : Nat → List Entry → Nat)
    (shuf : Nat → List CellId → List CellId) (st : EngSt) :
    FramePreserved st.s (engStep pick shuf st).s ∧
      PassMono st.s (engStep pick shuf st).s := by
  rw [engStep]
  by_cases h1 : st.queue.isEmpty
  · rw [if_pos h1]; exact ⟨framePreserved_refl _, passMono_refl _⟩
  · rw [if_neg h1]
    by_cases h2 : (serveAt st.queue (pick st.t st.queue % st.queue.length)).1.cell ∈ st.visited
    · rw [if_pos h2]; exact ⟨framePreserved_refl _, passMono_refl _⟩
    · rw [if_neg h2]
      cases hp : (serveAt st.queue (pick st.t st.queue % st.queue.length)).1.parent with
      | none =>
        simp only [hp]
        exact ⟨framePreserved_refl _, passMono_refl _⟩
      | some p =>
        simp only [hp]
        exact ⟨framePreserved_linkCells _ _ _, passMono_linkCells _ _ _⟩

theorem binStep_frame_mono (root : CellId) (pick : Nat → List Entry → Nat)
    (shuf : Nat → List CellId → List CellId) (st : EngSt) :
    FramePreserved st.s (binStep root pick shuf st).s ∧
      PassMono st.s (binStep root pick shuf st).s := by
  rw [binStep]
  by_cases h1 : st.queue.isEmpty
  · rw [if_pos h1]; exact ⟨framePreserved_refl _, passMono_refl _⟩
  · rw [if_neg h1]
    by_cases h2 : (serveAt st.queue (pick st.t st.queue % st.queue.length)).1.cell ∈ st.visited
    · rw [if_pos h2]; exact ⟨framePreserved_refl _, passMono_refl _⟩
    · rw [if_neg h2]
      cases hp : (serveAt st.queue (pick st.t st.queue % st.queue.length)).1.parent with
      | none =>
        simp only [hp]
        exact ⟨framePreserved_refl _, passMono_refl _⟩
      | some p =>
        simp only [hp]
        by_cases h3 : 2 < (passages st.s p).length
        · rw [if_pos h3]; exact ⟨framePreserved_refl _, passMono_refl _⟩
        · rw [if_neg h3]
          by_cases h4 : p = root ∧ 1 < (passages st.s p).length
          · rw [if_pos h4]; exact ⟨framePreserved_refl _, passMono_refl _⟩
          · rw [if_neg h4]
            exact ⟨framePreserved_linkCells _ _ _, passMono_linkCells _ _ _⟩

theorem wilsonStep_frame_mono (choiceO : Nat → Nat → Nat) (wfuel : Nat → Nat)
    (st : WilsonSt) :
    FramePreserved st.s (wilsonStep choiceO wfuel st).s ∧
      PassMono st.s (wilsonStep choiceO wfuel st).s := by
  rw [wilsonStep]
  by_cases h1 : st.unvisited = ∅
  · rw [if_pos h1]; exact ⟨framePreserved_refl _, passMono_refl _⟩
  · rw [if_neg h1]
    cases hw : circuitErasedWalk st.s (choiceO st.passes) st.unvisited (wfuel st.passes) with
    | none => exact ⟨framePreserved_refl _, passMono_refl _⟩
    | some path =>
      obtain ⟨hf, hm⟩ := linkPath_frame_mono path st.s
      exact ⟨hf, hm⟩

theorem blueStep_frame_mono (choiceO : Nat → Nat) (maxIts : Option Nat) (minCells : ℚ)
    (w : BlueSt) :
    FramePreserved w.s (blueStep choiceO maxIts minCells w).s ∧
      PassMono w.s (blueStep choiceO maxIts minCells w).s := by
  rw [blueStep.eq_def]
  by_cases h1 : w.unvisited = ∅ ∨ w.brk
  · rw [if_pos h1]; exact ⟨framePreserved_refl _, passMono_refl _⟩
  · rw [if_neg h1]
    by_cases h2 : (w.s.nbrs w.curr).isEmpty
    · rw [if_pos h2]; exact ⟨framePreserved_refl _, passMono_refl _⟩
    · rw [if_neg h2]
      dsimp only
      by_cases h3 : listChoice (choiceO w.t) (w.s.nbrs w.curr) ∈ w.unvisited
      · rw [if_pos h3]
        exact ⟨framePreserved_linkCells _ _ _, passMono_linkCells _ _ _⟩
      · rw [if_neg h3]
        exact ⟨framePreserved_refl _, passMono_refl _⟩

theorem hyABStep_frame_mono (choiceO : Nat → Nat) (w : HyABSt) :
    FramePreserved w.s (hyABStep choiceO w).s ∧ PassMono w.s (hyABStep choiceO w).s := by
  rw [hyABStep]
  by_cases h1 : (w.s.nbrs w.curr).isEmpty
  · rw [if_pos h1]; exact ⟨framePreserved_refl _, passMono_refl _⟩
  · rw [if_neg h1]
    by_cases h2 : listChoice (choiceO w.t) (w.s.nbrs w.curr) ∈ w.unvisited
    · show FramePreserved w.s (if _ ∈ w.unvisited then _ else w.s) ∧
        PassMono w.s (if _ ∈ w.unvisited then _ else w.s)
      rw [if_pos h2]
      exact ⟨framePreserved_linkCells _ _ _, passMono_linkCells _ _ _⟩
    · show FramePreserved w.s (if _ ∈ w.unvisited then _ else w.s) ∧
        PassMono w.s (if _ ∈ w.unvisited then _ else w.s)
      rw [if_neg h2]
      exact ⟨framePreserved_refl _, passMono_refl _⟩

theorem killF_frame_mono (choiceO : Nat → Nat) : ∀ (st : HKSt),
    FramePreserved st.s (killF choiceO st).s ∧ PassMono st.s (killF choiceO st).s := by
  intro st
  generalize hN : st.unvisited.card = N
  induction N using Nat.strong_induction_on generalizing st with
  | _ N ih =>
    rw [killF]
    split
    · exact ⟨framePreserved_refl _, passMono_refl _⟩
    · split
      · exact ⟨framePreserved_refl _, passMono_refl _⟩
      · rename_i hu cell cur heq
        lift_lets
        extract_lets ns
        have hnsdef : ns = ((st.s.nbrs cur).filter (· ∈ st.unvisited)).dedup := rfl
        split
        · exact ⟨framePreserved_refl _, passMono_refl _⟩
        · rename_i hns
          have hlt : choiceO st.t % ns.length < ns.length :=
            Nat.mod_lt _ (Nat.pos_of_ne_zero hns)
          set c2 := ns.getD (choiceO st.t % ns.length) 0 with hc2
          have hmem : c2 ∈ st.unvisited := by
            have h1 : c2 ∈ ns := by
              rw [hc2, List.getD_eq_getElem?_getD, List.getElem?_eq_getElem hlt]
              exact List.getElem_mem _
            rw [hnsdef] at h1
            exact List.mem_filter.mp (List.mem_dedup.mp h1) |>.2 |> of_decide_eq_true
          have hcard : (st.unvisited.erase c2).card < N :=
            hN ▸ Finset.card_erase_lt_of_mem hmem
          obtain ⟨hf, hm⟩ := ih _ hcard
            ⟨linkCells st.s cur c2, st.unvisited.erase c2,
              st.frontier ++ (ns.eraseIdx (choiceO st.t % ns.length)).map (fun x => (cur, x)),
              some c2, st.t + 1⟩ rfl
          exact ⟨framePreserved_trans (framePreserved_linkCells _ _ _) hf,
            passMono_trans (passMono_linkCells _ _ _) hm⟩

theorem killNF_frame_mono (choiceO : Nat → Nat) : ∀ (st : HKSt),
    FramePreserved st.s (killNF choiceO st).s ∧ PassMono st.s (killNF choiceO st).s := by
  intro st
  generalize hN : st.unvisited.card = N
  induction N using Nat.strong_induction_on generalizing st with
  | _ N ih =>
    rw [killNF]
    split
    · exact ⟨framePreserved_refl _, passMono_refl _⟩
    · split
      · exact ⟨framePreserved_refl _, passMono_refl _⟩
      · rename_i hu cell cur heq
        lift_lets
        extract_lets ns
        have hnsdef : ns = ((st.s.nbrs cur).filter (· ∈ st.unvisited)).dedup := rfl
        split
        · exact ⟨framePreserved_refl _, passMono_refl _⟩
        · rename_i hns
          have hlt : choiceO st.t % ns.length < ns.length :=
            Nat.mod_lt _ (Nat.pos_of_ne_zero hns)
          set c2 := ns.getD (choiceO st.t % ns.length) 0 with hc2
          have hmem : c2 ∈ st.unvisited := by
            have h1 : c2 ∈ ns := by
              rw [hc2, List.getD_eq_getElem?_getD, List.getElem?_eq_getElem hlt]
              exact List.getElem_mem _
            rw [hnsdef] at h1
            exact List.mem_filter.mp (List.mem_dedup.mp h1) |>.2 |> of_decide_eq_true
          have hcard : (st.unvisited.erase c2).card < N :=
            hN ▸ Finset.card_erase_lt_of_mem hmem
          obtain ⟨hf, hm⟩ := ih _ hcard
            ⟨linkCells st.s cur c2, st.unvisited.erase c2, st.frontier,
              some c2, st.t + 1⟩ rfl
          exact ⟨framePreserved_trans (framePreserved_linkCells _ _ _) hf,
            passMono_trans (passMono_linkCells _ _ _) hm⟩

theorem huntF_frame_mono (choiceO : Nat → Nat) : ∀ (st : HKSt),
    FramePreserved st.s (huntF choiceO st).s ∧ PassMono st.s (huntF choiceO st).s := by
  intro st
  generalize hN : st.frontier.length = N
  induction N using Nat.strong_induction_on generalizing st with
  | _ N ih =>
    rw [huntF]
    split
    · exact ⟨framePreserved_refl _, passMono_refl _⟩
    · rename_i hq
      lift_lets
      extract_lets pc rest
      have hrest : rest = st.frontier.eraseIdx (choiceO st.t % st.frontier.length) := rfl
      split
      · exact ⟨framePreserved_linkCells _ _ _, passMono_linkCells _ _ _⟩
      · rename_i hin
        have hlt : choiceO st.t % st.frontier.length < st.frontier.length :=
          Nat.mod_lt _ (Nat.pos_of_ne_zero hq)
        have hlen : rest.length < N := by
          rw [hrest]
          have := List.length_eraseIdx_add_one hlt
          omega
        exact ih _ hlen ⟨st.s, st.unvisited, rest, st.curr, st.t + 1⟩ rfl

theorem huntScan_frame_mono (choiceO : Nat → Nat) : ∀ (candidates : List CellId)
    (st : HKSt) (t : Nat),
    FramePreserved st.s (huntScan choiceO st candidates t).s ∧
      PassMono st.s (huntScan choiceO st candidates t).s := by
  intro candidates
  generalize hN : candidates.length = N
  induction N using Nat.strong_induction_on generalizing candidates with
  | _ N ih =>
    intro st t
    rw [huntScan]
    split
    · exact ⟨framePreserved_refl _, passMono_refl _⟩
    · rename_i hc
      lift_lets
      extract_lets cell
      split
      · exact ⟨framePreserved_linkCells _ _ _, passMono_linkCells _ _ _⟩
      · have hlt : choiceO t % candidates.length < candidates.length :=
          Nat.mod_lt _ (Nat.pos_of_ne_zero hc)
        have hlen : (candidates.eraseIdx (choiceO t % candidates.length)).length < N := by
          have := List.length_eraseIdx_add_one hlt
          omega
        exact ih _ hlen (candidates.eraseIdx (choiceO t % candidates.length)) rfl st (t + 1)

theorem hkOuterStep_frame_mono (choiceO : Nat → Nat) (v : HKVariant) (st : HKSt) :
    FramePreserved st.s (hkOuterStep choiceO v st).s ∧
      PassMono st.s (hkOuterStep choiceO v st).s := by
  rw [hkOuterStep.eq_def]
  by_cases h1 : st.unvisited = ∅ ∨ st.curr = none
  · rw [if_pos h1]; exact ⟨framePreserved_refl _, passMono_refl _⟩
  · rw [if_neg h1]
    cases v with
    | frontier =>
      obtain ⟨hf1, hm1⟩ := killF_frame_mono choiceO st
      obtain ⟨hf2, hm2⟩ := huntF_frame_mono choiceO (killF choiceO st)
      exact ⟨framePreserved_trans hf1 hf2, passMono_trans hm1 hm2⟩
    | noFrontier =>
      obtain ⟨hf1, hm1⟩ := killNF_frame_mono choiceO st
      obtain ⟨hf2, hm2⟩ := huntScan_frame_mono choiceO
        (finAsc (killNF choiceO st).unvisited) (killNF choiceO st)
        (killNF choiceO st).t
      exact ⟨framePreserved_trans hf1 hf2, passMono_trans hm1 hm2⟩
    | noShuffle =>
      obtain ⟨hf1, hm1⟩ := killNF_frame_mono choiceO st
      obtain ⟨hf2, hm2⟩ := huntScan_frame_mono (fun _ => 0)
        (finAsc (killNF choiceO st).unvisited) (killNF choiceO st)
        (killNF choiceO st).t
      exact ⟨framePreserved_trans hf1 hf2, passMono_trans hm1 hm2⟩

/-- Frame preservation and passage monotonicity carry through an iterated
loop whose step has them. -/
theorem loopIter_frame_mono {σ : Type} (step : σ → σ) (halted : σ → Bool)
    (ms : σ → MazeState)
    (hstep : ∀ st, FramePreserved (ms st) (ms (step st)) ∧
      PassMono (ms st) (ms (step st))) :
    ∀ (n : Nat) (st : σ),
      FramePreserved (ms st) (ms (loopIter step halted n st)) ∧
        PassMono (ms st) (ms (loopIter step halted n st)) := by
  intro n
  induction n with
  | zero => intro st; exact ⟨framePreserved_refl _, passMono_refl _⟩
  | succ k ih =>
    intro st
    rw [loopIter]
    by_cases hh : halted st = true
    · simp only [hh, if_true]; exact ⟨framePreserved_refl _, passMono_refl _⟩
    · simp only [hh, if_false]
      obtain ⟨hf1, hm1⟩ := hstep st
      obtain ⟨hf2, hm2⟩ := ih (step st)
      exact ⟨framePreserved_trans hf1 hf2, passMono_trans hm1 hm2⟩

theorem linkTable_append_mono (s : MazeState) (tbl : List (CellId × Option CellId))
    (p : CellId × Option CellId) :
    PassMono (linkTable s tbl) (linkTable s (tbl ++ [p])) := by
  have hsplit : linkTable s (tbl ++ [p]) =
      match p.2 with
      | none => linkTable s tbl
      | some nb => linkCells (linkTable s tbl) p.1 nb := by
    rw [linkTable, linkTable, List.foldl_append]
    rfl
  rw [hsplit]
  cases p.2 with
  | none => exact passMono_refl _
  | some nb => exact passMono_linkCells _ _ _

/-- C7: every carving step of every core algorithm (the search engine, the
binary variants, Wilson passes, the Aldous-Broder linking loop, blueberry,
hunt-and-kill in all three variants, the hybrid walk) keeps the neighbor
tables, node sets and wall dictionaries of the initial grid and only ever adds
passages, never removing one present before or during the run; consequently
every full run - `SpanningSearchTree.on`, `BinarySearchTree.on`, `Wilson.on`,
`AldousBroder.plain/vanilla/blueberry`, `HuntAndKill.on`, `HybridABW.on` -
relates its final maze state to the grid's initial state the same way. -/
theorem frame_only_passages_C7 :
    (∀ (pick : Nat → List Entry → Nat) (shuf : Nat → List CellId → List CellId)
        (st : EngSt), FramePreserved st.s (engStep pick shuf st).s ∧
          PassMono st.s (engStep pick shuf st).s) ∧
    (∀ (root : CellId) (pick : Nat → List Entry → Nat)
        (shuf : Nat → List CellId → List CellId) (st : EngSt),
        FramePreserved st.s (binStep root pick shuf st).s ∧
          PassMono st.s (binStep root pick shuf st).s) ∧
    (∀ (choiceO : Nat → Nat → Nat) (wfuel : Nat → Nat) (st : WilsonSt),
        FramePreserved st.s (wilsonStep choiceO wfuel st).s ∧
          PassMono st.s (wilsonStep choiceO wfuel st).s) ∧
    (∀ (s : MazeState) (tbl : List (CellId × Option CellId)),
        (FramePreserved s (linkTable s tbl) ∧ PassMono s (linkTable s tbl)) ∧
        ∀ p, PassMono (linkTable s tbl) (linkTable s (tbl ++ [p]))) ∧
    (∀ (choiceO : Nat → Nat) (maxIts : Option Nat) (minCells : ℚ) (w : BlueSt),
        FramePreserved w.s (blueStep choiceO maxIts minCells w).s ∧
          PassMono w.s (blueStep choiceO maxIts minCells w).s) ∧
    (∀ (choiceO : Nat → Nat) (v : HKVariant) (st : HKSt),
        FramePreserved st.s (hkOuterStep choiceO v st).s ∧
          PassMono st.s (hkOuterStep choiceO v st).s) ∧
    (∀ (choiceO : Nat → Nat) (w : HyABSt),
        FramePreserved w.s (hyABStep choiceO w).s ∧
          PassMono w.s (hyABStep choiceO w).s) ∧
    (∀ (pick : Nat → List Entry → Nat) (shuf : Nat → List CellId → List CellId)
        (s0 : MazeState) (root : CellId) (fuel : Nat),
        FramePreserved s0 (spanningSearchOn pick shuf s0 root fuel).s ∧
          PassMono s0 (spanningSearchOn pick shuf s0 root fuel).s) ∧
    (∀ (root : CellId) (pick : Nat → List Entry → Nat)
        (shuf : Nat → List CellId → List CellId) (s0 : MazeState) (fuel : Nat),
        FramePreserved s0 (binarySearchOn root pick shuf s0 fuel).s ∧
          PassMono s0 (binarySearchOn root pick shuf s0 fuel).s) ∧
    (∀ (choiceO : Nat → Nat → Nat) (wfuel : Nat → Nat) (s0 : MazeState)
        (cells : List CellId) (start : CellId) (fuel : Nat),
        FramePreserved s0 (wilsonOn choiceO wfuel s0 cells start fuel).s ∧
          PassMono s0 (wilsonOn choiceO wfuel s0 cells start fuel).s) ∧
    (∀ (s : MazeState) (choiceO : Nat → Nat) (cells : List CellId) (start : CellId)
        (fuel : Nat),
        (abPlain s choiceO cells start fuel).elim True
          (fun r => FramePreserved s r.1 ∧ PassMono s r.1)) ∧
    (∀ (s : MazeState) (choiceO : Nat → Nat) (cells : List CellId) (start : CellId)
        (fuel : Nat),
        (abVanilla s choiceO cells start fuel).elim True
          (fun r => FramePreserved s r.1 ∧ PassMono s r.1)) ∧
    (∀ (s : MazeState) (choiceO : Nat → Nat) (cells : List CellId) (start : CellId)
        (maxIts : Option Nat) (minCells : ℚ) (fuel : Nat),
        FramePreserved s (abBlueberry s choiceO cells start maxIts minCells fuel).s ∧
          PassMono s (abBlueberry s choiceO cells start maxIts minCells fuel).s) ∧
    (∀ (choiceO : Nat → Nat) (v : HKVariant) (s0 : MazeState) (cells : List CellId)
        (start : CellId) (fuel : Nat),
        FramePreserved s0 (huntKillOn choiceO v s0 cells start fuel).s ∧
          PassMono s0 (huntKillOn choiceO v s0 cells start fuel).s) ∧
    (∀ (choiceAB : Nat → Nat) (choiceW : Nat → Nat → Nat) (wfuel : Nat → Nat)
        (s0 : MazeState) (cells : List CellId) (start : CellId) (density : ℚ)
        (fuel1 fuel2 : Nat),
        (hybridABWOn choiceAB choiceW wfuel s0 cells start density fuel1 fuel2).elim True
          (fun wst => FramePreserved s0 wst.s ∧ PassMono s0 wst.s)) := by
  refine ⟨engStep_frame_mono, binStep_frame_mono, wilsonStep_frame_mono,
    fun s tbl => ⟨linkTable_frame_mono tbl s, linkTable_append_mono s tbl⟩,
    blueStep_frame_mono, hkOuterStep_frame_mono, hyABStep_frame_mono,
    ?_, ?_, ?_, ?_, ?_, ?_, ?_, ?_⟩
  · intro pick shuf s0 root fuel
    exact loopIter_frame_mono (engStep pick shuf) engDone EngSt.s
      (engStep_frame_mono pick shuf) fuel ⟨s0, [⟨none, root⟩], ∅, 0⟩
  · intro root pick shuf s0 fuel
    exact loopIter_frame_mono (binStep root pick shuf) engDone EngSt.s
      (binStep_frame_mono root pick shuf) fuel ⟨s0, [⟨none, root⟩], ∅, 0⟩
  · intro choiceO wfuel s0 cells start fuel
    exact loopIter_frame_mono (wilsonStep choiceO wfuel) wilsonDone WilsonSt.s
      (wilsonStep_frame_mono choiceO wfuel) fuel ⟨s0, cells.toFinset.erase start, 0⟩
  · intro s choiceO cells start fuel
    cases hr : abPlain s choiceO cells start fuel with
    | none => exact trivial
    | some r =>
      rw [Option.elim_some]
      rw [abPlain] at hr
      set w := simpleRandomWalk s choiceO cells start fuel with hw
      by_cases hd : abWalkDone w = true
      · rw [if_pos hd] at hr
        have hr2 : r = (linkTable s w.fe, w.fe) := (Option.some.inj hr).symm
        rw [hr2]
        exact linkTable_frame_mono w.fe s
      · rw [if_neg hd] at hr
        exact absurd hr (by simp)
  · intro s choiceO cells start fuel
    cases hr : abVanilla s choiceO cells start fuel with
    | none => exact trivial
    | some r =>
      rw [Option.elim_some]
      rw [abVanilla] at hr
      cases hw2 : simpleRandomWalk2 s choiceO cells start fuel with
      | none => rw [hw2] at hr; exact absurd hr (by simp)
      | some w2 =>
        rw [hw2, Option.map_some'] at hr
        have hr2 : r = (linkTable s w2.le, w2.le) := (Option.some.inj hr).symm
        rw [hr2]
        exact linkTable_frame_mono w2.le s
  · intro s choiceO cells start maxIts minCells fuel
    exact loopIter_frame_mono (blueStep choiceO maxIts minCells) blueDone BlueSt.s
      (blueStep_frame_mono choiceO maxIts minCells) fuel
      ⟨s, start, cells.toFinset.erase start, 0, 0, false⟩
  · intro choiceO v s0 cells start fuel
    exact loopIter_frame_mono (hkOuterStep choiceO v) hkDone HKSt.s
      (hkOuterStep_frame_mono choiceO v) fuel
      ⟨s0, cells.toFinset.erase start, [], some start, 0⟩
  · intro choiceAB choiceW wfuel s0 cells start density fuel1 fuel2
    cases hr : hybridABWOn choiceAB choiceW wfuel s0 cells start density fuel1 fuel2 with
    | none => exact trivial
    | some wst =>
      rw [Option.elim_some]
      rw [hybridABWOn] at hr
      set minC := density * (cells.length : ℚ) with hminC
      set w1 := loopIter (hyABStep choiceAB) (hyABDone minC) fuel1
        ⟨s0, start, cells.toFinset.erase start, 0⟩ with hw1
      by_cases hd : hyABDone minC w1 = true
      · rw [if_pos hd] at hr
        have hr2 : wst = loopIter (wilsonStep choiceW wfuel) wilsonDone fuel2
            ⟨w1.s, w1.unvisited, 0⟩ := (Option.some.inj hr).symm
        obtain ⟨hf1, hm1⟩ := loopIter_frame_mono (hyABStep choiceAB) (hyABDone minC)
          HyABSt.s (hyABStep_frame_mono choiceAB) fuel1
          ⟨s0, start, cells.toFinset.erase start, 0⟩
        obtain ⟨hf2, hm2⟩ := loopIter_frame_mono (wilsonStep choiceW wfuel) wilsonDone
          WilsonSt.s (wilsonStep_frame_mono choiceW wfuel) fuel2
          ⟨w1.s, w1.unvisited, 0⟩
        rw [hr2]
        exact ⟨framePreserved_trans hf1 hf2, passMono_trans hm1 hm2⟩
      · rw [if_neg hd] at hr
        exact absurd hr (by simp)

/-! ## Spanning-tree invariants for Wilson, blueberry and the hybrid -/

theorem TreeInv.single {cells : List CellId} {s0 : MazeState} (hf : Fresh s0)
    {start : CellId} (hstart : start ∈ cells) : TreeInv cells s0 {start} := by
  have hemp : ∀ c, passages s0 c = [] := by
    intro c
    rw [passages, hf c]
    rfl
  refine ⟨?_, ⟨start, Finset.mem_singleton_self _⟩, fun c _ => hf c, ?_, ?_, ?_, ?_⟩
  · intro c hc
    rw [Finset.mem_singleton.mp hc]
    exact hstart
  · intro a b hb
    rw [hemp b] at hb
    exact absurd hb (List.not_mem_nil a)
  · intro a b hb
    rw [hemp a] at hb
    exact absurd hb (List.not_mem_nil b)
  · intro a ha b hb
    rw [Finset.mem_singleton.mp ha, Finset.mem_singleton.mp hb]
    exact Relation.ReflTransGen.refl
  · rw [edgeSum_fresh s0 hf]
    simp

theorem followTrail_head (tbl : List (CellId × Option CellId)) :
    ∀ (fuel : Nat) (c : CellId) (p : List CellId),
      followTrail tbl fuel c = some p → p.head? = some c := by
  intro fuel
  induction fuel with
  | zero => intro c p h; exact absurd h (by rw [followTrail]; simp)
  | succ k ih =>
    intro c p h
    rw [followTrail] at h
    cases hg : dictGet tbl c with
    | none => rw [hg] at h; exact absurd h (by simp)
    | some v =>
      cases v with
      | none =>
        rw [hg] at h
        have h2 : some [c] = some p := h
        have hp : p = [c] := (Option.some.inj h2).symm
        rw [hp]
        rfl
      | some pr =>
        rw [hg] at h
        have h2 : (followTrail tbl k pr).map (fun rest => c :: rest) = some p := h
        rw [Option.map_eq_some'] at h2
        obtain ⟨rest, hrec, hp⟩ := h2
        rw [← hp]
        rfl

/-- The head of a returned circuit-erased path lies in any adjacency-closed
superset of the unvisited set. -/
theorem circuitErasedWalk_head_mem {s : MazeState} {choiceO : Nat → Nat}
    {unvisited : Finset CellId} {wfuel : Nat} {path : List CellId}
    {X : Finset CellId}
    (hX : ∀ x ∈ unvisited, x ∈ X) (hcl : ∀ c ∈ X, ∀ d ∈ s.nbrs c, d ∈ X)
    (hne : unvisited.Nonempty)
    (h : circuitErasedWalk s choiceO unvisited wfuel = some path) :
    ∀ x, path.head? = some x → x ∈ X := by
  have hsortne : finAsc unvisited ≠ [] := by
    obtain ⟨x, hx⟩ := hne
    intro hnil
    have := (mem_finAsc unvisited x).mpr hx
    rw [hnil] at this
    exact absurd this (List.not_mem_nil x)
  set oasis := listChoice (choiceO 0) (finAsc unvisited) with hoasisdef
  have hoasis : oasis ∈ unvisited := by
    rw [hoasisdef]
    exact (mem_finAsc unvisited _).mp (listChoice_mem (choiceO 0) _ hsortne)
  set w0 : WalkSt := ⟨[(oasis, none)], oasis, 0, 1⟩ with hw0def
  set wend := loopIter (walkStep s choiceO unvisited) (walkDone unvisited) wfuel w0
    with hwenddef
  have hcur : wend.curr ∈ X := by
    refine loopIter_inv _ _ (fun w => w.curr ∈ X) ?_ wfuel w0 (hX oasis hoasis)
    intro w hw hne2
    rw [walkStep]
    by_cases hb1 : w.curr ∉ unvisited
    · rw [if_pos hb1]; exact hw
    · rw [if_neg hb1]
      by_cases hb2 : (s.nbrs w.curr).isEmpty
      · rw [if_pos hb2]; exact hw
      · rw [if_neg hb2]
        show listChoice (choiceO w.t) (s.nbrs w.curr) ∈ X
        have hnn : s.nbrs w.curr ≠ [] := by
          intro hnil
          rw [hnil] at hb2
          exact hb2 rfl
        exact hcl w.curr hw _ (listChoice_mem _ _ hnn)
  have hmain : (if walkDone unvisited wend = true then
      followTrail wend.trail (wend.trail.length + 1) wend.curr else none) = some path := by
    rw [circuitErasedWalk] at h
    exact h
  by_cases hd : walkDone unvisited wend = true
  · rw [if_pos hd] at hmain
    intro x hx
    have hh := followTrail_head wend.trail (wend.trail.length + 1) wend.curr path hmain
    rw [hh] at hx
    rw [← Option.some.inj hx]
    exact hcur
  · rw [if_neg hd] at hmain
    exact absurd hmain (by simp)

/-- The spanning-tree invariant of a Wilson loop state. -/
structure WSpan (cells : List CellId) (s0 : MazeState) (st : WilsonSt) : Prop where
  tree : TreeInv cells st.s (cells.toFinset \ st.unvisited)
  unvSub : st.unvisited ⊆ cells.toFinset
  nbrsEq : st.s.nbrs = s0.nbrs

theorem wilsonStep_span (choiceO : Nat → Nat → Nat) (wfuel : Nat → Nat)
    {cells : List CellId} {s0 : MazeState} (hclosed : GridClosed s0 cells)
    (hnd : cells.Nodup) {st : WilsonSt} (hI : WSpan cells s0 st) :
    WSpan cells s0 (wilsonStep choiceO wfuel st) := by
  rw [wilsonStep]
  by_cases h1 : st.unvisited = ∅
  · rw [if_pos h1]; exact hI
  · rw [if_neg h1]
    cases hw : circuitErasedWalk st.s (choiceO st.passes) st.unvisited (wfuel st.passes) with
    | none => exact hI
    | some path =>
      have hne : st.unvisited.Nonempty := Finset.nonempty_iff_ne_empty.mpr h1
      obtain ⟨stop, hoasis, hh, hstop, hl, hnodup, hlen, htail, hall⟩ :=
        circuitErasedWalk_spec hne hw
      have hclX : ∀ c ∈ cells.toFinset, ∀ d ∈ st.s.nbrs c, d ∈ cells.toFinset := by
        intro c hc d hd
        rw [hI.nbrsEq] at hd
        exact List.mem_toFinset.mpr
          (hclosed c (List.mem_toFinset.mp hc) d hd)
      have hheadX : stop ∈ cells.toFinset :=
        circuitErasedWalk_head_mem (fun x hx => hI.unvSub hx) hclX hne hw stop hh
      cases path with
      | nil => exact absurd hh (by simp)
      | cons p0 t =>
        have hp0 : p0 = stop := by simpa using hh
        subst hp0
        have hstopvis : p0 ∈ cells.toFinset \ st.unvisited :=
          Finset.mem_sdiff.mpr ⟨hheadX, hstop⟩
        have htnodup : t.Nodup := (List.nodup_cons.mp hnodup).2
        have htcells : ∀ c ∈ t, c ∈ cells := by
          intro c hc
          exact List.mem_toFinset.mp (hI.unvSub (htail c hc))
        have htunvis : ∀ c ∈ t, c ∉ cells.toFinset \ st.unvisited := by
          intro c hc hmem
          exact (Finset.mem_sdiff.mp hmem).2 (htail c hc)
        have htree2 := linkPath_grow hnd t p0 st.s _ hI.tree hstopvis htnodup
          htcells htunvis
        have hvis : (cells.toFinset \ st.unvisited) ∪ t.toFinset =
            cells.toFinset \ (t.foldl (fun u c => u.erase c) st.unvisited) := by
          ext x
          simp only [Finset.mem_union, Finset.mem_sdiff, List.mem_toFinset,
            mem_foldl_erase]
          constructor
          · rintro (⟨hx1, hx2⟩ | hx)
            · exact ⟨hx1, fun hmm => hx2 hmm.1⟩
            · exact ⟨List.mem_toFinset.mp (hI.unvSub (htail x hx)),
                fun hmm => hmm.2 hx⟩
          · rintro ⟨hx1, hx2⟩
            by_cases hxt : x ∈ t
            · exact Or.inr hxt
            · by_cases hxu : x ∈ st.unvisited
              · exact absurd ⟨hxu, hxt⟩ hx2
              · exact Or.inl ⟨hx1, hxu⟩
        refine ⟨?_, ?_, ?_⟩
        · show TreeInv cells (linkPath st.s (p0 :: t))
            (cells.toFinset \ t.foldl (fun u c => u.erase c) st.unvisited)
          rw [← hvis]
          exact htree2
        · show t.foldl (fun u c => u.erase c) st.unvisited ⊆ cells.toFinset
          intro x hx
          exact hI.unvSub ((mem_foldl_erase _ _ _).mp hx).1
        · show (linkPath st.s (p0 :: t)).nbrs = s0.nbrs
          have := (linkPath_frame_mono (p0 :: t) st.s).1.1
          rw [this, hI.nbrsEq]

theorem wilson_loop_spans {cells : List CellId} {s0 : MazeState}
    (hclosed : GridClosed s0 cells) (hnd : cells.Nodup)
    (choiceO : Nat → Nat → Nat) (wfuel : Nat → Nat) (fuel : Nat) (st0 : WilsonSt)
    (hI0 : WSpan cells s0 st0)
    (hdone : wilsonDone (loopIter (wilsonStep choiceO wfuel) wilsonDone fuel st0) = true) :
    OneComponent (loopIter (wilsonStep choiceO wfuel) wilsonDone fuel st0).s cells ∧
      edgeSum (loopIter (wilsonStep choiceO wfuel) wilsonDone fuel st0).s cells =
        2 * (cells.length - 1) ∧
      undirCount (loopIter (wilsonStep choiceO wfuel) wilsonDone fuel st0).s cells =
        cells.length - 1 := by
  have hIend : WSpan cells s0 (loopIter (wilsonStep choiceO wfuel) wilsonDone fuel st0) :=
    loopIter_inv _ _ (WSpan cells s0)
      (fun st h _ => wilsonStep_span choiceO wfuel hclosed hnd h) fuel st0 hI0
  set final := loopIter (wilsonStep choiceO wfuel) wilsonDone fuel st0 with hfin
  have hemp : final.unvisited = ∅ := by
    rw [wilsonDone] at hdone
    simpa using hdone
  have hvis : cells.toFinset \ final.unvisited = cells.toFinset := by
    rw [hemp, Finset.sdiff_empty]
  have htree := hIend.tree
  rw [hvis] at htree
  have hnonempty : cells ≠ [] := by
    obtain ⟨a, ha⟩ := htree.visNE
    have hac : a ∈ cells := htree.visSub a ha
    intro hnil
    rw [hnil] at hac
    exact absurd hac (List.not_mem_nil a)
  have hcount := htree.count
  rw [List.toFinset_card_of_nodup hnd] at hcount
  have hlen1 : 1 ≤ cells.length := by
    cases cells with
    | nil => exact absurd rfl hnonempty
    | cons _ _ => simp
  refine ⟨⟨hnonempty, ?_⟩, ?_, ?_⟩
  · intro a ha b hb
    exact htree.conn a (List.mem_toFinset.mpr ha) b (List.mem_toFinset.mpr hb)
  · omega
  · rw [undirCount]
    omega

/-- `linkCells` is symmetric for distinct cells. -/
theorem linkCells_comm (s : MazeState) (a b : CellId) (hab : a ≠ b) :
    linkCells s a b = linkCells s b a := by
  show MazeState.mk _ _ _ _ = MazeState.mk _ _ _ _
  simp only [linkCells, linkto]
  refine congrArg _ ?_
  funext x
  by_cases hxa : x = a
  · simp [hxa, hab, Ne.symm hab]
  · by_cases hxb : x = b
    · simp [hxb, hab, Ne.symm hab]
    · simp [hxa, hxb]

/-- The spanning-tree invariant of the blueberry loop. -/
structure BlueSpan (cells : List CellId) (s0 : MazeState) (w : BlueSt) : Prop where
  tree : TreeInv cells w.s (cells.toFinset \ w.unvisited)
  unvSub : w.unvisited ⊆ cells.toFinset
  nbrsEq : w.s.nbrs = s0.nbrs
  currMem : w.curr ∈ cells
  currVis : w.curr ∉ w.unvisited

theorem blueStep_span (choiceO : Nat → Nat) (maxIts : Option Nat) (minCells : ℚ)
    {cells : List CellId} {s0 : MazeState} (hclosed : GridClosed s0 cells)
    (hnd : cells.Nodup) {w : BlueSt} (hI : BlueSpan cells s0 w) :
    BlueSpan cells s0 (blueStep choiceO maxIts minCells w) := by
  rw [blueStep.eq_def]
  by_cases h1 : w.unvisited = ∅ ∨ w.brk
  · rw [if_pos h1]; exact hI
  · rw [if_neg h1]
    by_cases h2 : (w.s.nbrs w.curr).isEmpty
    · rw [if_pos h2]; exact hI
    · rw [if_neg h2]
      dsimp only
      have hnn : w.s.nbrs w.curr ≠ [] := by
        intro hnil
        rw [hnil] at h2
        exact h2 rfl
      set nbr := listChoice (choiceO w.t) (w.s.nbrs w.curr) with hnbr
      have hnbrc : nbr ∈ cells := by
        have : nbr ∈ w.s.nbrs w.curr := listChoice_mem _ _ hnn
        rw [hI.nbrsEq] at this
        exact hclosed w.curr hI.currMem nbr this
      by_cases h3 : nbr ∈ w.unvisited
      · rw [if_pos h3, if_pos h3]
        have hcurvis : w.curr ∈ cells.toFinset \ w.unvisited :=
          Finset.mem_sdiff.mpr ⟨List.mem_toFinset.mpr hI.currMem, hI.currVis⟩
        have hnbrnv : nbr ∉ cells.toFinset \ w.unvisited := by
          intro hmem
          exact (Finset.mem_sdiff.mp hmem).2 h3
        have htree2 := hI.tree.grow hnd hcurvis hnbrc hnbrnv
        have hvis : insert nbr (cells.toFinset \ w.unvisited) =
            cells.toFinset \ w.unvisited.erase nbr := by
          ext x
          simp only [Finset.mem_insert, Finset.mem_sdiff, Finset.mem_erase]
          constructor
          · rintro (rfl | ⟨hx1, hx2⟩)
            · exact ⟨List.mem_toFinset.mpr hnbrc, fun hmm => hmm.1 rfl⟩
            · exact ⟨hx1, fun hmm => hx2 hmm.2⟩
          · rintro ⟨hx1, hx2⟩
            by_cases hxn : x = nbr
            · exact Or.inl hxn
            · by_cases hxu : x ∈ w.unvisited
              · exact absurd ⟨hxn, hxu⟩ hx2
              · exact Or.inr ⟨hx1, hxu⟩
        refine ⟨?_, ?_, ?_, hnbrc, Finset.not_mem_erase _ _⟩
        · rw [← hvis]
          exact htree2
        · exact (Finset.erase_subset _ _).trans hI.unvSub
        · have := (framePreserved_linkCells w.s w.curr nbr).1
          rw [this, hI.nbrsEq]
      · rw [if_neg h3, if_neg h3]
        exact ⟨hI.tree, hI.unvSub, hI.nbrsEq, hnbrc, h3⟩

/-- The spanning-tree invariant of the hybrid's random-walk phase. -/
structure HySpan (cells : List CellId) (s0 : MazeState) (w : HyABSt) : Prop where
  tree : TreeInv cells w.s (cells.toFinset \ w.unvisited)
  unvSub : w.unvisited ⊆ cells.toFinset
  nbrsEq : w.s.nbrs = s0.nbrs
  currMem : w.curr ∈ cells
  currVis : w.curr ∉ w.unvisited

theorem hyABStep_span (choiceO : Nat → Nat) {cells : List CellId} {s0 : MazeState}
    (hclosed : GridClosed s0 cells) (hnd : cells.Nodup) {w : HyABSt}
    (hI : HySpan cells s0 w) : HySpan cells s0 (hyABStep choiceO w) := by
  rw [hyABStep]
  by_cases h2 : (w.s.nbrs w.curr).isEmpty
  · rw [if_pos h2]; exact hI
  · rw [if_neg h2]
    dsimp only
    have hnn : w.s.nbrs w.curr ≠ [] := by
      intro hnil
      rw [hnil] at h2
      exact h2 rfl
    set nbr := listChoice (choiceO w.t) (w.s.nbrs w.curr) with hnbr
    have hnbrc : nbr ∈ cells := by
      have : nbr ∈ w.s.nbrs w.curr := listChoice_mem _ _ hnn
      rw [hI.nbrsEq] at this
      exact hclosed w.curr hI.currMem nbr this
    by_cases h3 : nbr ∈ w.unvisited
    · rw [if_pos h3, if_pos h3]
      have hcurvis : w.curr ∈ cells.toFinset \ w.unvisited :=
        Finset.mem_sdiff.mpr ⟨List.mem_toFinset.mpr hI.currMem, hI.currVis⟩
      have hnbrnv : nbr ∉ cells.toFinset \ w.unvisited := by
        intro hmem
        exact (Finset.mem_sdiff.mp hmem).2 h3
      have htree2 := hI.tree.grow hnd hcurvis hnbrc hnbrnv
      have hvis : insert nbr (cells.toFinset \ w.unvisited) =
          cells.toFinset \ w.unvisited.erase nbr := by
        ext x
        simp only [Finset.mem_insert, Finset.mem_sdiff, Finset.mem_erase]
        constructor
        · rintro (rfl | ⟨hx1, hx2⟩)
          · exact ⟨List.mem_toFinset.mpr hnbrc, fun hmm => hmm.1 rfl⟩
          · exact ⟨hx1, fun hmm => hx2 hmm.2⟩
        · rintro ⟨hx1, hx2⟩
          by_cases hxn : x = nbr
          · exact Or.inl hxn
          · by_cases hxu : x ∈ w.unvisited
            · exact absurd ⟨hxn, hxu⟩ hx2
            · exact Or.inr ⟨hx1, hxu⟩
      refine ⟨?_, ?_, ?_, hnbrc, Finset.not_mem_erase _ _⟩
      · rw [← hvis]
        exact htree2
      · exact (Finset.erase_subset _ _).trans hI.unvSub
      · have := (framePreserved_linkCells w.s w.curr nbr).1
        rw [this, hI.nbrsEq]
    · rw [if_neg h3, if_neg h3]
      exact ⟨hI.tree, hI.unvSub, hI.nbrsEq, hnbrc, h3⟩

theorem treeInv_full {cells : List CellId} {s : MazeState} (hnd : cells.Nodup)
    (ht : TreeInv cells s cells.toFinset) :
    OneComponent s cells ∧ edgeSum s cells = 2 * (cells.length - 1) ∧
      undirCount s cells = cells.length - 1 := by
  have hnonempty : cells ≠ [] := by
    obtain ⟨a, ha⟩ := ht.visNE
    have hac : a ∈ cells := ht.visSub a ha
    intro hnil
    rw [hnil] at hac
    exact absurd hac (List.not_mem_nil a)
  have hcount := ht.count
  rw [List.toFinset_card_of_nodup hnd] at hcount
  have hlen1 : 1 ≤ cells.length := by
    cases cells with
    | nil => exact absurd rfl hnonempty
    | cons _ _ => simp
  refine ⟨⟨hnonempty, ?_⟩, ?_, ?_⟩
  · intro a ha b hb
    exact ht.conn a (List.mem_toFinset.mpr ha) b (List.mem_toFinset.mpr hb)
  · omega
  · rw [undirCount]
    omega

theorem sdiff_erase_single {X : Finset CellId} {a : CellId} (ha : a ∈ X) :
    X \ X.erase a = {a} := by
  ext x
  simp only [Finset.mem_sdiff, Finset.mem_erase, Finset.mem_singleton, not_and]
  constructor
  · rintro ⟨hx1, hx2⟩
    by_contra hxa
    exact hx2 hxa hx1
  · rintro rfl
    exact ⟨ha, fun h _ => absurd rfl h⟩

/-- `Wilson.on` run to completion on a connected grid spans it. -/
theorem wilsonOn_spans {cells : List CellId} {s0 : MazeState}
    (hclosed : GridClosed s0 cells) (hnd : cells.Nodup) (hf : Fresh s0)
    (choiceO : Nat → Nat → Nat) (wfuel : Nat → Nat) {start : CellId} (fuel : Nat)
    (hstart : start ∈ cells)
    (hdone : wilsonDone (wilsonOn choiceO wfuel s0 cells start fuel) = true) :
    OneComponent (wilsonOn choiceO wfuel s0 cells start fuel).s cells ∧
      edgeSum (wilsonOn choiceO wfuel s0 cells start fuel).s cells =
        2 * (cells.length - 1) ∧
      undirCount (wilsonOn choiceO wfuel s0 cells start fuel).s cells =
        cells.length - 1 := by
  have hI0 : WSpan cells s0 ⟨s0, cells.toFinset.erase start, 0⟩ := by
    refine ⟨?_, Finset.erase_subset _ _, rfl⟩
    show TreeInv cells s0 (cells.toFinset \ cells.toFinset.erase start)
    rw [sdiff_erase_single (List.mem_toFinset.mpr hstart)]
    exact TreeInv.single hf hstart
  rw [wilsonOn] at hdone ⊢
  exact wilson_loop_spans hclosed hnd choiceO wfuel fuel _ hI0 hdone

/-- `AldousBroder.blueberry` run to full completion on a connected grid spans
it. -/
theorem blueberry_spans {cells : List CellId} {s0 : MazeState}
    (hclosed : GridClosed s0 cells) (hnd : cells.Nodup) (hf : Fresh s0)
    (choiceO : Nat → Nat) {start : CellId} (maxIts : Option Nat) (minCells : ℚ)
    (fuel : Nat) (hstart : start ∈ cells)
    (hemp : (abBlueberry s0 choiceO cells start maxIts minCells fuel).unvisited = ∅) :
    OneComponent (abBlueberry s0 choiceO cells start maxIts minCells fuel).s cells ∧
      edgeSum (abBlueberry s0 choiceO cells start maxIts minCells fuel).s cells =
        2 * (cells.length - 1) ∧
      undirCount (abBlueberry s0 choiceO cells start maxIts minCells fuel).s cells =
        cells.length - 1 := by
  have hI0 : BlueSpan cells s0 ⟨s0, start, cells.toFinset.erase start, 0, 0, false⟩ := by
    refine ⟨?_, Finset.erase_subset _ _, rfl, hstart, Finset.not_mem_erase _ _⟩
    show TreeInv cells s0 (cells.toFinset \ cells.toFinset.erase start)
    rw [sdiff_erase_single (List.mem_toFinset.mpr hstart)]
    exact TreeInv.single hf hstart
  have hIend : BlueSpan cells s0 (abBlueberry s0 choiceO cells start maxIts minCells fuel) := by
    rw [abBlueberry]
    exact loopIter_inv _ _ (BlueSpan cells s0)
      (fun w h _ => blueStep_span choiceO maxIts minCells hclosed hnd h) fuel _ hI0
  have htree := hIend.tree
  rw [hemp, Finset.sdiff_empty] at htree
  exact treeInv_full hnd htree

/-- `HybridABW.on` whose second phase drains the unvisited set spans a
connected grid. -/
theorem hybrid_spans {cells : List CellId} {s0 : MazeState}
    (hclosed : GridClosed s0 cells) (hnd : cells.Nodup) (hf : Fresh s0)
    (choiceAB : Nat → Nat) (choiceW : Nat → Nat → Nat) (wfuel : Nat → Nat)
    {start : CellId} (density : ℚ) (fuel1 fuel2 : Nat) (hstart : start ∈ cells)
    {wst : WilsonSt}
    (hrun : hybridABWOn choiceAB choiceW wfuel s0 cells start density fuel1 fuel2 =
      some wst)
    (hdone : wilsonDone wst = true) :
    OneComponent wst.s cells ∧ edgeSum wst.s cells = 2 * (cells.length - 1) ∧
      undirCount wst.s cells = cells.length - 1 := by
  rw [hybridABWOn] at hrun
  set minC := density * (cells.length : ℚ) with hminC
  set w1 := loopIter (hyABStep choiceAB) (hyABDone minC) fuel1
    ⟨s0, start, cells.toFinset.erase start, 0⟩ with hw1
  have hI1 : HySpan cells s0 w1 := by
    rw [hw1]
    refine loopIter_inv _ _ (HySpan cells s0)
      (fun w h _ => hyABStep_span choiceAB hclosed hnd h) fuel1 _ ?_
    refine ⟨?_, Finset.erase_subset _ _, rfl, hstart, Finset.not_mem_erase _ _⟩
    show TreeInv cells s0 (cells.toFinset \ cells.toFinset.erase start)
    rw [sdiff_erase_single (List.mem_toFinset.mpr hstart)]
    exact TreeInv.single hf hstart
  by_cases hd : hyABDone minC w1 = true
  · rw [if_pos hd] at hrun
    have hwst : wst = loopIter (wilsonStep choiceW wfuel) wilsonDone fuel2
        ⟨w1.s, w1.unvisited, 0⟩ := (Option.some.inj hrun).symm
    have hI0 : WSpan cells s0 ⟨w1.s, w1.unvisited, 0⟩ :=
      ⟨hI1.tree, hI1.unvSub, hI1.nbrsEq⟩
    rw [hwst] at hdone ⊢
    exact wilson_loop_spans hclosed hnd choiceW wfuel fuel2 _ hI0 hdone
  · rw [if_neg hd] at hrun
    exact absurd hrun (by simp)

/-! ## Spanning trees from first-entrance / last-exit tables

`AldousBroder.plain` and `AldousBroder.vanilla` do all their carving in one
final `linkTable` pass over a parent table.  The table is a functional parent
map whose parent edges strictly descend a rank, so the linked passages form a
spanning tree; the lemmas below prove this independently of the entry order. -/

/-- The partner list of a cell in a link table: the cells it will share a
passage with once the table is linked, in entry order. -/
def partners (tbl : List (CellId × Option CellId)) (x : CellId) : List CellId :=
  tbl.filterMap fun p =>
    if p.1 = x then p.2 else if p.2 = some x then some p.1 else none

theorem partners_append (t e : List (CellId × Option CellId)) (x : CellId) :
    partners (t ++ e) x = partners t x ++ partners e x := by
  rw [partners, partners, partners, List.filterMap_append]

theorem partners_none (c x : CellId) : partners [(c, none)] x = [] := by
  by_cases h : c = x <;> simp [partners, List.filterMap, h]

theorem partners_some (c d x : CellId) (hcd : c ≠ d) :
    partners [(c, some d)] x = if x = c then [d] else if x = d then [c] else [] := by
  by_cases hxc : x = c
  · subst hxc
    simp [partners, List.filterMap]
  · by_cases hxd : x = d
    · subst hxd
      simp [partners, List.filterMap, hcd, Ne.symm hcd]
    · simp [partners, List.filterMap, Ne.symm hxc, Ne.symm hxd, hxc, hxd]

theorem mem_partners : ∀ (tbl : List (CellId × Option CellId)),
    (∀ a b, (a, some b) ∈ tbl → a ≠ b) →
    ∀ x c, x ∈ partners tbl c ↔ (c, some x) ∈ tbl ∨ (x, some c) ∈ tbl := by
  intro tbl
  induction tbl with
  | nil => intro _ x c; simp [partners]
  | cons p t ih =>
    intro hself x c
    have ih2 := ih (fun a b hm => hself a b (List.mem_cons_of_mem _ hm)) x c
    have hsplit : partners (p :: t) c = partners [p] c ++ partners t c := by
      rw [show p :: t = [p] ++ t from rfl, partners_append]
    rw [hsplit]
    obtain ⟨pk, pv⟩ := p
    cases pv with
    | none =>
      rw [partners_none, List.nil_append, ih2]
      constructor
      · rintro (h | h)
        · exact Or.inl (List.mem_cons_of_mem _ h)
        · exact Or.inr (List.mem_cons_of_mem _ h)
      · rintro (h | h)
        · rcases List.mem_cons.mp h with he | hmem
          · exact absurd he (by simp)
          · exact Or.inl hmem
        · rcases List.mem_cons.mp h with he | hmem
          · exact absurd he (by simp)
          · exact Or.inr hmem
    | some d =>
      have hkd : pk ≠ d := hself pk d (List.mem_cons_self _ _)
      rw [partners_some pk d c hkd]
      constructor
      · intro h
        rcases List.mem_append.mp h with h1 | h1
        · by_cases h2 : c = pk
          · rw [if_pos h2] at h1
            have hx : x = d := List.mem_singleton.mp h1
            refine Or.inl (List.mem_cons.mpr (Or.inl ?_))
            rw [h2, hx]
          · rw [if_neg h2] at h1
            by_cases h3 : c = d
            · rw [if_pos h3] at h1
              have hx : x = pk := List.mem_singleton.mp h1
              refine Or.inr (List.mem_cons.mpr (Or.inl ?_))
              rw [h3, hx]
            · rw [if_neg h3] at h1
              exact absurd h1 (List.not_mem_nil x)
        · rcases ih2.mp h1 with h | h
          · exact Or.inl (List.mem_cons_of_mem _ h)
          · exact Or.inr (List.mem_cons_of_mem _ h)
      · intro h
        rcases h with h | h
        · rcases List.mem_cons.mp h with he | hmem
          · have hc : c = pk := congrArg Prod.fst he
            have hx : x = d := by
              have := congrArg Prod.snd he
              simpa using this
            refine List.mem_append.mpr (Or.inl ?_)
            rw [if_pos hc, hx]
            simp
          · exact List.mem_append.mpr (Or.inr (ih2.mpr (Or.inl hmem)))
        · rcases List.mem_cons.mp h with he | hmem
          · have hx : x = pk := congrArg Prod.fst he
            have hc : c = d := by
              have := congrArg Prod.snd he
              simpa using this
            refine List.mem_append.mpr (Or.inl ?_)
            by_cases h2 : c = pk
            · exact absurd (h2.symm.trans hc) hkd
            · rw [if_neg h2, if_pos hc, hx]
              simp
          · exact List.mem_append.mpr (Or.inr (ih2.mpr (Or.inr hmem)))

/-- After linking a well-formed parent table onto a fresh state, each cell's
passage dictionary is exactly its partner list (with weight 1), and the
partner list has no duplicates. -/
theorem linkTable_pass {s0 : MazeState} (hf : Fresh s0) :
    ∀ (tbl : List (CellId × Option CellId)),
      (∀ c d, (c, some d) ∈ tbl → c ≠ d) →
      (∀ c d, (c, some d) ∈ tbl → (d, some c) ∉ tbl) →
      (keysOf tbl).Nodup →
      ∀ x, (linkTable s0 tbl).pass x = (partners tbl x).map (fun d => (d, (1 : Int))) ∧
        (partners tbl x).Nodup := by
  intro tbl
  induction tbl using List.reverseRecOn with
  | nil =>
    intro _ _ _ x
    constructor
    · rw [linkTable, List.foldl_nil, hf x]
      rfl
    · exact List.nodup_nil
  | append_singleton t e ih =>
    intro hself hmut hknd x
    have hselft : ∀ c d, (c, some d) ∈ t → c ≠ d := by
      intro c d hm
      exact hself c d (List.mem_append_left _ hm)
    have hmutt : ∀ c d, (c, some d) ∈ t → (d, some c) ∉ t := by
      intro c d hm hm2
      exact hmut c d (List.mem_append_left _ hm) (List.mem_append_left _ hm2)
    have hkndt : (keysOf t).Nodup := by
      rw [keysOf, List.map_append] at hknd
      exact (List.nodup_append.mp hknd).1
    have hkfresh : e.1 ∉ keysOf t := by
      rw [keysOf, List.map_append] at hknd
      intro hmem
      exact (List.nodup_append.mp hknd).2.2 hmem (by simp [keysOf])
    obtain ⟨c, v⟩ := e
    cases v with
    | none =>
      have hlt : linkTable s0 (t ++ [(c, none)]) = linkTable s0 t := by
        rw [linkTable, linkTable, List.foldl_append]
        rfl
      rw [hlt, partners_append, partners_none, List.append_nil]
      exact ih hselft hmutt hkndt x
    | some d =>
      have hlt : linkTable s0 (t ++ [(c, some d)]) = linkCells (linkTable s0 t) c d := by
        rw [linkTable, linkTable, List.foldl_append]
        rfl
      have hemem : (c, some d) ∈ t ++ [(c, some d)] :=
        List.mem_append_right _ (by simp)
      have hcd : c ≠ d := hself c d hemem
      rw [hlt, partners_append, partners_some c d x hcd]
      obtain ⟨hpx, hnx⟩ := ih hselft hmutt hkndt x
      obtain ⟨hpc, hnc⟩ := ih hselft hmutt hkndt c
      obtain ⟨hpd, hnd2⟩ := ih hselft hmutt hkndt d
      have hdfresh : d ∉ partners t c := by
        intro hmem
        rcases (mem_partners t hselft d c).mp hmem with hm | hm
        · exact hkfresh (List.mem_map.mpr ⟨(c, some d), hm, rfl⟩)
        · exact hmut c d hemem (List.mem_append_left _ hm)
      have hcfresh : c ∉ partners t d := by
        intro hmem
        rcases (mem_partners t hselft c d).mp hmem with hm | hm
        · exact hmut c d hemem (List.mem_append_left _ hm)
        · exact hkfresh (List.mem_map.mpr ⟨(c, some d), hm, rfl⟩)
      by_cases hxc : x = c
      · rw [if_pos hxc]
        constructor
        · rw [hxc, pass_linkCells_left _ c d hcd, hpc, dictSet]
          rw [if_neg (by
            intro hmem
            rw [keysOf, List.map_map] at hmem
            obtain ⟨z, hz, hze⟩ := List.mem_map.mp hmem
            exact hdfresh (by rw [← show z = d from hze]; exact hz)), List.map_append]
          rfl
        · rw [hxc]
          exact List.Nodup.append hnc (by simp) (by
            intro z hz hz2
            rw [List.mem_singleton.mp hz2] at hz
            exact hdfresh hz)
      · by_cases hxd : x = d
        · rw [if_neg hxc, if_pos hxd]
          constructor
          · rw [hxd, pass_linkCells_right _ c d hcd, hpd, dictSet]
            rw [if_neg (by
              intro hmem
              rw [keysOf, List.map_map] at hmem
              obtain ⟨z, hz, hze⟩ := List.mem_map.mp hmem
              exact hcfresh (by rw [← show z = c from hze]; exact hz)), List.map_append]
            rfl
          · rw [hxd]
            exact List.Nodup.append hnd2 (by simp) (by
              intro z hz hz2
              rw [List.mem_singleton.mp hz2] at hz
              exact hcfresh hz)
        · rw [if_neg hxc, if_neg hxd]
          constructor
          · rw [pass_linkCells_other _ c d x hxc hxd, hpx, List.append_nil]
          · rw [List.append_nil]
            exact hnx

theorem sum_map_ite_count (a : CellId) : ∀ (l : List CellId),
    (l.map fun x => if x = a then 1 else 0).sum = l.count a := by
  intro l
  induction l with
  | nil => rfl
  | cons b t ih =>
    rw [List.map_cons, List.sum_cons, ih]
    by_cases hb : b = a
    · subst hb
      rw [if_pos rfl, List.count_cons_self]
      omega
    · rw [if_neg hb, List.count_cons_of_ne (fun h => hb h.symm)]
      omega

theorem count_nodup_one {l : List CellId} {a : CellId} (hnd : l.Nodup) (ha : a ∈ l) :
    l.count a = 1 := by
  have h1 : l.count a ≤ 1 := List.nodup_iff_count_le_one.mp hnd a
  have h2 : 0 < l.count a := List.count_pos_iff.mpr ha
  omega

theorem sum_map_add_split (f g : CellId → Nat) : ∀ (l : List CellId),
    (l.map fun x => f x + g x).sum = (l.map f).sum + (l.map g).sum := by
  intro l
  induction l with
  | nil => rfl
  | cons y ys ih =>
    simp only [List.map_cons, List.sum_cons, ih]
    omega

/-- Every table entry with a value contributes one passage at each endpoint. -/
theorem sum_partners_length {cells : List CellId} (hnd : cells.Nodup) :
    ∀ (tbl : List (CellId × Option CellId)),
      (∀ c d, (c, some d) ∈ tbl → c ∈ cells ∧ d ∈ cells ∧ c ≠ d) →
      (cells.map fun c => (partners tbl c).length).sum =
        2 * tbl.countP (fun p => p.2 ≠ none) := by
  intro tbl
  induction tbl using List.reverseRecOn with
  | nil =>
    intro _
    have : ∀ c ∈ cells, (partners [] c).length = 0 := by
      intro c _
      rfl
    rw [List.map_congr_left this]
    simp
  | append_singleton t e ih =>
    intro hok
    have hokt : ∀ c d, (c, some d) ∈ t → c ∈ cells ∧ d ∈ cells ∧ c ≠ d := by
      intro c d hm
      exact hok c d (List.mem_append_left _ hm)
    rw [List.countP_append]
    obtain ⟨c, v⟩ := e
    cases v with
    | none =>
      have hmap : ∀ x ∈ cells, (partners (t ++ [(c, none)]) x).length =
          (partners t x).length := by
        intro x _
        rw [partners_append, partners_none, List.append_nil]
      rw [List.map_congr_left hmap, ih hokt]
      simp
    | some d =>
      obtain ⟨hcc, hdc, hcd⟩ := hok c d (List.mem_append_right _ (by simp))
      have hmap : ∀ x ∈ cells, (partners (t ++ [(c, some d)]) x).length =
          (partners t x).length +
            ((if x = c then 1 else 0) + (if x = d then 1 else 0)) := by
        intro x _
        rw [partners_append, partners_some c d x hcd, List.length_append]
        by_cases hxc : x = c
        · rw [if_pos hxc, if_pos hxc, if_neg (hxc ▸ hcd)]
          simp
        · rw [if_neg hxc, if_neg hxc]
          by_cases hxd : x = d
          · rw [if_pos hxd, if_pos hxd]
            simp
          · rw [if_neg hxd, if_neg hxd]
            rfl
      rw [List.map_congr_left hmap]
      rw [sum_map_add_split (fun x => (partners t x).length)
        (fun x => (if x = c then 1 else 0) + (if x = d then 1 else 0)) cells]
      rw [sum_map_add_split (fun x => if x = c then 1 else 0)
        (fun x => if x = d then 1 else 0) cells]
      rw [sum_map_ite_count, sum_map_ite_count,
        count_nodup_one hnd hcc, count_nodup_one hnd hdc, ih hokt]
      simp [List.countP_cons]
      omega

theorem keyNodup_eq {α β : Type} [DecidableEq α] : ∀ {l : List (α × β)},
    (keysOf l).Nodup → ∀ {p q : α × β}, p ∈ l → q ∈ l → p.1 = q.1 → p = q := by
  intro l
  induction l with
  | nil => intro _ p q hp; exact absurd hp (List.not_mem_nil p)
  | cons a t ih =>
    intro hnd p q hp hq hk
    have hnd2 : (keysOf t).Nodup := by
      rw [keysOf, List.map_cons, List.nodup_cons] at hnd
      exact hnd.2
    have hhead : a.1 ∉ keysOf t := by
      rw [keysOf, List.map_cons, List.nodup_cons] at hnd
      exact hnd.1
    rcases List.mem_cons.mp hp with hp1 | hp1 <;> rcases List.mem_cons.mp hq with hq1 | hq1
    · rw [hp1, hq1]
    · exfalso
      apply hhead
      rw [← hp1, hk]
      exact List.mem_map.mpr ⟨q, hq1, rfl⟩
    · exfalso
      apply hhead
      rw [← hq1, ← hk]
      exact List.mem_map.mpr ⟨p, hp1, rfl⟩
    · exact ih hnd2 hp1 hq1 hk

theorem linkTable_conn {s0 : MazeState} {tbl : List (CellId × Option CellId)}
    {root : CellId} {r : CellId → Nat} (hf : Fresh s0)
    (hself : ∀ a b, (a, some b) ∈ tbl → a ≠ b)
    (hmut : ∀ a b, (a, some b) ∈ tbl → (b, some a) ∉ tbl)
    (hknd : (keysOf tbl).Nodup)
    (hnone : ∀ c, (c, none) ∈ tbl → c = root)
    (hedge : ∀ c d, (c, some d) ∈ tbl → d ∈ keysOf tbl ∧ r d < r c) :
    ∀ (n : Nat) (c : CellId), c ∈ keysOf tbl → r c = n →
      PassConn (linkTable s0 tbl) c root := by
  intro n
  induction n using Nat.strong_induction_on with
  | _ n ih =>
    intro c hc hrc
    obtain ⟨⟨ck, cv⟩, hcm, hck⟩ := List.mem_map.mp hc
    have hck2 : ck = c := hck
    subst hck2
    cases cv with
    | none =>
      rw [hnone ck hcm]
      exact Relation.ReflTransGen.refl
    | some d =>
      obtain ⟨hdk, hdr⟩ := hedge ck d hcm
      have hpassEq : passages (linkTable s0 tbl) ck = partners tbl ck := by
        rw [passages, (linkTable_pass hf tbl hself hmut hknd ck).1, keysOf,
          List.map_map]
        have hcomp : (Prod.fst ∘ fun d : CellId => (d, (1 : Int))) = id := rfl
        rw [hcomp, List.map_id]
      have hstep : plinked (linkTable s0 tbl) ck d := by
        rw [plinked, hpassEq]
        exact (mem_partners tbl hself d ck).mpr (Or.inl hcm)
      exact Relation.ReflTransGen.head hstep (ih (r d) (hrc ▸ hdr) d hdk rfl)

/-- Linking a parent table whose edges strictly descend a rank onto a fresh
state produces a spanning tree of the table's key set. -/
theorem linkTable_spanning {s0 : MazeState} {tbl : List (CellId × Option CellId)}
    {root : CellId} {cells : List CellId} {r : CellId → Nat}
    (hf : Fresh s0) (hnd : cells.Nodup) (hknd : (keysOf tbl).Nodup)
    (hroot : (root, none) ∈ tbl)
    (hnone : ∀ c, (c, none) ∈ tbl → c = root)
    (hedge : ∀ c d, (c, some d) ∈ tbl → d ∈ keysOf tbl ∧ r d < r c)
    (hkeys : ∀ c, c ∈ keysOf tbl ↔ c ∈ cells) :
    OneComponent (linkTable s0 tbl) cells ∧
      edgeSum (linkTable s0 tbl) cells = 2 * (cells.length - 1) ∧
      undirCount (linkTable s0 tbl) cells = cells.length - 1 := by
  have hself : ∀ a b, (a, some b) ∈ tbl → a ≠ b := by
    intro a b hm heq
    have h1 := (hedge a b hm).2
    rw [heq] at h1
    omega
  have hmut : ∀ a b, (a, some b) ∈ tbl → (b, some a) ∉ tbl := by
    intro a b hm hm2
    have h1 := (hedge a b hm).2
    have h2 := (hedge b a hm2).2
    omega
  have hpassEq : ∀ x, passages (linkTable s0 tbl) x = partners tbl x := by
    intro x
    rw [passages, (linkTable_pass hf tbl hself hmut hknd x).1, keysOf, List.map_map]
    have hcomp : (Prod.fst ∘ fun d : CellId => (d, (1 : Int))) = id := rfl
    rw [hcomp, List.map_id]
  have hok : ∀ c d, (c, some d) ∈ tbl → c ∈ cells ∧ d ∈ cells ∧ c ≠ d := by
    intro c d hm
    exact ⟨(hkeys c).mp (List.mem_map.mpr ⟨(c, some d), hm, rfl⟩),
      (hkeys d).mp (hedge c d hm).1, hself c d hm⟩
  have hsum : edgeSum (linkTable s0 tbl) cells =
      2 * tbl.countP (fun p => p.2 ≠ none) := by
    have hmapc : ∀ c ∈ cells, (passages (linkTable s0 tbl) c).length =
        (partners tbl c).length := fun c _ => by rw [hpassEq c]
    rw [edgeSum, List.map_congr_left hmapc]
    exact sum_partners_length hnd tbl hok
  have hrootk : root ∈ keysOf tbl := List.mem_map.mpr ⟨(root, none), hroot, rfl⟩
  have hlteq : tbl.length = cells.length := by
    have h1 : (keysOf tbl).toFinset = cells.toFinset := by
      ext x
      rw [List.mem_toFinset, List.mem_toFinset]
      exact hkeys x
    have h2 : (keysOf tbl).length = (keysOf tbl).toFinset.card :=
      (List.toFinset_card_of_nodup hknd).symm
    have h3 : cells.length = cells.toFinset.card :=
      (List.toFinset_card_of_nodup hnd).symm
    have h4 : (keysOf tbl).toFinset.card = cells.toFinset.card := by rw [h1]
    have h5 : (keysOf tbl).length = tbl.length := by rw [keysOf, List.length_map]
    omega
  have hcnone : tbl.countP (fun p => p.2 = none) = 1 := by
    have hpoint : ∀ p ∈ tbl, (p.2 = none) ↔ (p = (root, none)) := by
      intro p hp
      constructor
      · intro h2
        have hpr : p = (p.1, none) := by
          cases p with
          | mk a b =>
            simp only at h2
            rw [h2]
        have hp1 : p.1 = root := hnone p.1 (hpr ▸ hp)
        rw [hpr, hp1]
      · intro h2
        rw [h2]
    have hcong : tbl.countP (fun p => p.2 = none) =
        tbl.countP (fun p => p = (root, none)) := by
      apply List.countP_congr
      intro p hp
      simp only [decide_eq_true_eq]
      exact hpoint p hp
    rw [hcong]
    have hfilter : tbl.countP (fun p => p = (root, none)) ≤ 1 := by
      rw [List.countP_eq_length_filter]
      by_contra hgt
      push_neg at hgt
      obtain ⟨q1, l2, hsplit⟩ := List.exists_cons_of_ne_nil
        (l := tbl.filter (fun p => p = (root, none))) (by
          intro hnil
          rw [hnil] at hgt
          simp at hgt)
      have hq1 : q1 = (root, none) := by
        have : q1 ∈ tbl.filter (fun p => p = (root, none)) := by
          rw [hsplit]
          exact List.mem_cons_self _ _
        simpa using (List.mem_filter.mp this).2
      have hl2 : l2 ≠ [] := by
        intro hnil
        rw [hsplit, hnil] at hgt
        simp at hgt
      obtain ⟨q2, l3, hsplit2⟩ := List.exists_cons_of_ne_nil hl2
      have hq2 : q2 = (root, none) := by
        have : q2 ∈ tbl.filter (fun p => p = (root, none)) := by
          rw [hsplit, hsplit2]
          exact List.mem_cons_of_mem _ (List.mem_cons_self _ _)
        simpa using (List.mem_filter.mp this).2
      have hsub : List.Sublist ((root, none) :: (root, none) :: l3) tbl := by
        have hfs : List.Sublist (tbl.filter (fun p => p = (root, none))) tbl :=
          List.filter_sublist tbl
        rw [hsplit, hsplit2, hq1, hq2] at hfs
        exact hfs
      have hkeysub : List.Sublist (root :: root :: l3.map Prod.fst) (keysOf tbl) := by
        have := hsub.map Prod.fst
        simpa [keysOf] using this
      have := hknd.sublist hkeysub
      simp at this
    have hpos : 0 < tbl.countP (fun p => p = (root, none)) := by
      rw [List.countP_pos]
      exact ⟨(root, none), hroot, by simp⟩
    omega
  have hsome : tbl.countP (fun p => p.2 ≠ none) = cells.length - 1 := by
    have hlen := List.length_eq_countP_add_countP
      (fun p : CellId × Option CellId => decide (p.2 = none)) tbl
    have hcong : tbl.countP (fun p => decide ¬ (decide (p.2 = none)) = true) =
        tbl.countP (fun p => p.2 ≠ none) := by
      apply List.countP_congr
      intro p hp
      simp
    rw [hcong] at hlen
    omega
  have hconnroot : ∀ c ∈ cells, PassConn (linkTable s0 tbl) c root := by
    intro c hc
    exact linkTable_conn hf hself hmut hknd hnone hedge (r c) c ((hkeys c).mpr hc) rfl
  have hsymm : ∀ a b, plinked (linkTable s0 tbl) a b → plinked (linkTable s0 tbl) b a := by
    intro a b hab
    rw [plinked, hpassEq] at hab ⊢
    rcases (mem_partners tbl hself b a).mp hab with h | h
    · exact (mem_partners tbl hself a b).mpr (Or.inr h)
    · exact (mem_partners tbl hself a b).mpr (Or.inl h)
  have hrootc : root ∈ cells := (hkeys root).mp hrootk
  have hnonempty : cells ≠ [] := by
    intro hnil
    rw [hnil] at hrootc
    exact absurd hrootc (List.not_mem_nil root)
  have hlen1 : 1 ≤ cells.length := by
    cases cells with
    | nil => exact absurd rfl hnonempty
    | cons _ _ => simp
  refine ⟨⟨hnonempty, ?_⟩, ?_, ?_⟩
  · intro a ha b hb
    have h1 := hconnroot a ha
    have h2 := hconnroot b hb
    have h2' : PassConn (linkTable s0 tbl) root b :=
      (Relation.ReflTransGen.symmetric hsymm) h2
    exact h1.trans h2'
  · rw [hsum, hsome]
  · rw [undirCount, hsum, hsome]
    omega

theorem indexOf_ge_of_not_mem {l l2 : List CellId} {a : CellId} (h : a ∉ l) :
    l.length ≤ (l ++ l2).indexOf a := by
  induction l with
  | nil => simp
  | cons b t ih =>
    have hab : a ≠ b := fun hh => h (hh ▸ List.mem_cons_self _ _)
    have hat : a ∉ t := fun hh => h (List.mem_cons_of_mem _ hh)
    rw [List.cons_append, List.indexOf_cons_ne _ (Ne.symm hab), List.length_cons]
    exact Nat.succ_le_succ (ih hat)

theorem rankedExt_edge {root : CellId} {tbl : List (CellId × Option CellId)}
    (h : RankedExt root tbl) :
    ∀ c d, (c, some d) ∈ tbl → d ∈ keysOf tbl ∧
      (keysOf tbl).indexOf d < (keysOf tbl).indexOf c := by
  induction h with
  | base =>
    intro c d hm
    exact absurd (List.mem_singleton.mp hm) (by simp)
  | grow tbl k p htbl hk hp ih =>
    intro c d hm
    have hkeys : keysOf (tbl ++ [(k, some p)]) = keysOf tbl ++ [k] := by
      rw [keysOf, List.map_append]
      rfl
    rcases List.mem_append.mp hm with hm1 | hm1
    · obtain ⟨hd, hlt⟩ := ih c d hm1
      have hc : c ∈ keysOf tbl := List.mem_map.mpr ⟨(c, some d), hm1, rfl⟩
      rw [hkeys, List.indexOf_append_of_mem hd, List.indexOf_append_of_mem hc]
      exact ⟨List.mem_append_left _ hd, hlt⟩
    · have heq : (c, some d) = (k, some p) := List.mem_singleton.mp hm1
      have hc : c = k := congrArg Prod.fst heq
      have hd : d = p := by
        have := congrArg Prod.snd heq
        simpa using this
      subst hc
      subst hd
      rw [hkeys, List.indexOf_append_of_mem hp]
      refine ⟨List.mem_append_left _ hp, ?_⟩
      have h1 : (keysOf tbl).indexOf d < (keysOf tbl).length :=
        List.indexOf_lt_length.mpr hp
      have h2 : (keysOf tbl).length ≤ ((keysOf tbl) ++ [c]).indexOf c :=
        indexOf_ge_of_not_mem hk
      omega

theorem mem_dictSet_iff {α β : Type} [DecidableEq α] (l : List (α × β)) (k : α) (v : β) :
    ∀ p, p ∈ dictSet l k v ↔ p = (k, v) ∨ (p ∈ l ∧ p.1 ≠ k) := by
  intro p
  rw [dictSet]
  by_cases hmem : k ∈ keysOf l
  · rw [if_pos hmem]
    constructor
    · intro hp
      obtain ⟨q, hq, hqe⟩ := List.mem_map.mp hp
      by_cases hq1 : q.1 = k
      · rw [if_pos hq1] at hqe
        exact Or.inl hqe.symm
      · rw [if_neg hq1] at hqe
        exact Or.inr ⟨hqe ▸ hq, hqe ▸ hq1⟩
    · rintro (rfl | ⟨hpl, hpk⟩)
      · obtain ⟨q, hq, hqk⟩ := List.mem_map.mp hmem
        refine List.mem_map.mpr ⟨q, hq, ?_⟩
        rw [if_pos hqk]
      · refine List.mem_map.mpr ⟨p, hpl, ?_⟩
        rw [if_neg hpk]
  · rw [if_neg hmem]
    constructor
    · intro hp
      rcases List.mem_append.mp hp with hp1 | hp1
      · refine Or.inr ⟨hp1, ?_⟩
        intro hk
        exact hmem (List.mem_map.mpr ⟨p, hp1, hk⟩)
      · exact Or.inl (List.mem_singleton.mp hp1)
    · rintro (rfl | ⟨hpl, _⟩)
      · exact List.mem_append_right _ (by simp)
      · exact List.mem_append_left _ hpl

/-- The invariant of `AldousBroder.simple_random_walk`: the first-entrance
table is a ranked extension rooted at the start. -/
structure ABInv (cells : List CellId) (start : CellId) (w : ABWalkSt) : Prop where
  rk : RankedExt start w.fe
  cellK : w.cell ∈ keysOf w.fe
  keysSub : ∀ k ∈ keysOf w.fe, k ∈ cells
  cover : ∀ c ∈ cells, c ∉ w.unvisited → c ∈ keysOf w.fe

theorem abWalkStep_inv (s : MazeState) (choiceO : Nat → Nat) {cells : List CellId}
    {start : CellId} (hclosed : GridClosed s cells) {w : ABWalkSt}
    (hI : ABInv cells start w) : ABInv cells start (abWalkStep s choiceO w) := by
  rw [abWalkStep]
  by_cases h1 : w.unvisited = ∅
  · rw [if_pos h1]; exact hI
  · rw [if_neg h1]
    by_cases h2 : (s.nbrs w.cell).isEmpty
    · rw [if_pos h2]; exact hI
    · rw [if_neg h2]
      dsimp only
      set nbr := listChoice (choiceO w.t) (s.nbrs w.cell) with hnbr
      have hnn : s.nbrs w.cell ≠ [] := by
        intro hnil
        rw [hnil] at h2
        exact h2 rfl
      have hnbrc : nbr ∈ cells :=
        hclosed w.cell (hI.keysSub _ hI.cellK) nbr (listChoice_mem _ _ hnn)
      by_cases h3 : nbr ∈ keysOf w.fe
      · rw [if_pos h3]
        refine ⟨hI.rk, h3, hI.keysSub, ?_⟩
        intro c hc hcu
        by_cases hcn : c = nbr
        · rw [hcn]; exact h3
        · refine hI.cover c hc ?_
          intro hcu2
          exact hcu (Finset.mem_erase.mpr ⟨hcn, hcu2⟩)
      · rw [if_neg h3]
        have hkeys : keysOf (w.fe ++ [(nbr, some w.cell)]) = keysOf w.fe ++ [nbr] := by
          rw [keysOf, List.map_append]
          rfl
        refine ⟨RankedExt.grow _ nbr w.cell hI.rk h3 hI.cellK, ?_, ?_, ?_⟩
        · rw [hkeys]
          exact List.mem_append_right _ (by simp)
        · intro k hk
          rw [hkeys] at hk
          rcases List.mem_append.mp hk with hk | hk
          · exact hI.keysSub k hk
          · rw [List.mem_singleton.mp hk]
            exact hnbrc
        · intro c hc hcu
          rw [hkeys]
          by_cases hcn : c = nbr
          · exact List.mem_append_right _ (by simp [hcn])
          · refine List.mem_append_left _ (hI.cover c hc ?_)
            intro hcu2
            exact hcu (Finset.mem_erase.mpr ⟨hcn, hcu2⟩)

/-- `AldousBroder.plain` run to completion on a connected grid spans it. -/
theorem abPlain_spans {cells : List CellId} {s0 : MazeState} {choiceO : Nat → Nat}
    {start : CellId} {fuel : Nat} {s' : MazeState} {tbl : List (CellId × Option CellId)}
    (hclosed : GridClosed s0 cells) (hnd : cells.Nodup) (hf : Fresh s0)
    (hstart : start ∈ cells)
    (hrun : abPlain s0 choiceO cells start fuel = some (s', tbl)) :
    OneComponent s' cells ∧ edgeSum s' cells = 2 * (cells.length - 1) ∧
      undirCount s' cells = cells.length - 1 := by
  rw [abPlain] at hrun
  set w := simpleRandomWalk s0 choiceO cells start fuel with hw
  by_cases hd : abWalkDone w = true
  · rw [if_pos hd] at hrun
    have heq := Option.some.inj hrun
    have hs' : s' = linkTable s0 w.fe := (congrArg Prod.fst heq).symm
    have hIw : ABInv cells start w := by
      rw [hw, simpleRandomWalk]
      refine loopIter_inv _ _ (ABInv cells start)
        (fun x h _ => abWalkStep_inv s0 choiceO hclosed h) fuel _
        ⟨RankedExt.base, by simp [keysOf], ?_, ?_⟩
      · intro k hk
        have hks : k = start := by simpa [keysOf] using hk
        rw [hks]
        exact hstart
      · intro c hc hcu
        have hcs : c = start := by
          by_contra hne
          exact hcu (Finset.mem_erase.mpr ⟨hne, List.mem_toFinset.mpr hc⟩)
        simp [keysOf, hcs]
    have hemp : w.unvisited = ∅ := by
      rw [abWalkDone] at hd
      simpa using hd
    have hkeys : ∀ c, c ∈ keysOf w.fe ↔ c ∈ cells := by
      intro c
      constructor
      · exact hIw.keysSub c
      · intro hc
        refine hIw.cover c hc ?_
        rw [hemp]
        exact Finset.not_mem_empty c
    have hroot : (start, none) ∈ w.fe := by
      obtain ⟨e, he, hke⟩ := List.mem_map.mp hIw.rk.root_mem
      have hv := (hIw.rk.none_iff e he).mpr hke
      have hee : e = (start, none) := by
        cases e with
        | mk a b =>
          simp only at hke hv
          rw [hke, hv]
      rw [← hee]
      exact he
    have hnone : ∀ c, (c, none) ∈ w.fe → c = start := by
      intro c hm
      exact (hIw.rk.none_iff (c, none) hm).mp rfl
    rw [hs']
    exact linkTable_spanning hf hnd hIw.rk.keys_nodup hroot hnone
      (rankedExt_edge hIw.rk) hkeys
  · rw [if_neg hd] at hrun
    exact absurd hrun (by simp)

/-- The invariant of `AldousBroder.simple_random_walk2`: the last-exit table
has no `None` entries yet, and some rank function (last-exit times) makes
every recorded exit point at a later-exited cell or at the current cell. -/
structure AB2Inv (cells : List CellId) (w : AB2St) : Prop where
  cellC : w.cell ∈ cells
  keysSub : ∀ k ∈ keysOf w.le, k ∈ cells
  knd : (keysOf w.le).Nodup
  noneAbsent : ∀ c, (c, none) ∉ w.le
  cover : ∀ c ∈ cells, c ∉ w.unvisited → c ∈ keysOf w.le ∨ c = w.cell
  rank : ∃ r : CellId → Nat, (∀ c ∈ keysOf w.le, r c < w.t) ∧
    ∀ c d, (c, some d) ∈ w.le → d = w.cell ∨ (d ∈ keysOf w.le ∧ r c < r d)

theorem ab2Step_inv (s : MazeState) (choiceO : Nat → Nat) {cells : List CellId}
    (hclosed : GridClosed s cells) {w : AB2St}
    (hI : AB2Inv cells w) : AB2Inv cells (ab2Step s choiceO w) := by
  rw [ab2Step]
  by_cases h1 : w.unvisited = ∅
  · rw [if_pos h1]; exact hI
  · rw [if_neg h1]
    by_cases h2 : (s.nbrs w.cell).isEmpty
    · rw [if_pos h2]; exact hI
    · rw [if_neg h2]
      dsimp only
      set nbr := listChoice (choiceO w.t) (s.nbrs w.cell) with hnbr
      have hnn : s.nbrs w.cell ≠ [] := by
        intro hnil
        rw [hnil] at h2
        exact h2 rfl
      have hnbrc : nbr ∈ cells := hclosed w.cell hI.cellC nbr (listChoice_mem _ _ hnn)
      refine ⟨hnbrc, ?_, ?_, ?_, ?_, ?_⟩
      · intro k hk
        rcases (mem_keysOf_dictSet _ _ _ _).mp hk with hk | hk
        · rw [hk]; exact hI.cellC
        · exact hI.keysSub k hk
      · by_cases hc : w.cell ∈ keysOf w.le
        · rw [keysOf_dictSet_of_mem _ _ _ hc]
          exact hI.knd
        · rw [keysOf_dictSet_of_not_mem _ _ _ hc]
          exact List.nodup_append.mpr ⟨hI.knd, List.nodup_singleton _,
            by simpa using hc⟩
      · intro c hc
        rcases (mem_dictSet_iff _ _ _ _).mp hc with hc | ⟨hc, _⟩
        · exact absurd (congrArg Prod.snd hc) (by simp)
        · exact hI.noneAbsent c hc
      · intro c hc hcu
        by_cases hcn : c = nbr
        · exact Or.inr hcn
        · have hcu2 : c ∉ w.unvisited := fun hh =>
            hcu (Finset.mem_erase.mpr ⟨hcn, hh⟩)
          rcases hI.cover c hc hcu2 with hk | hk
          · exact Or.inl ((mem_keysOf_dictSet _ _ _ _).mpr (Or.inr hk))
          · exact Or.inl ((mem_keysOf_dictSet _ _ _ _).mpr (Or.inl hk))
      · obtain ⟨r, hrb, hre⟩ := hI.rank
        refine ⟨fun x => if x = w.cell then w.t else r x, ?_, ?_⟩
        · intro c hc
          dsimp only at hc ⊢
          by_cases hcc : c = w.cell
          · rw [if_pos hcc]; omega
          · rw [if_neg hcc]
            rcases (mem_keysOf_dictSet _ _ _ _).mp hc with hc | hc
            · exact absurd hc hcc
            · have := hrb c hc
              omega
        · intro c d hcd
          dsimp only at hcd ⊢
          rcases (mem_dictSet_iff _ _ _ _).mp hcd with hcd | ⟨hcd, hc1⟩
          · have hc : c = w.cell := congrArg Prod.fst hcd
            have hd : d = nbr := by
              have := congrArg Prod.snd hcd
              simpa using this
            exact Or.inl (hd.trans rfl)
          · simp only at hc1
            have hck : c ∈ keysOf w.le := List.mem_map.mpr ⟨(c, some d), hcd, rfl⟩
            have hrc : r c < w.t := hrb c hck
            rcases hre c d hcd with hd | ⟨hdk, hrd⟩
            · refine Or.inr ⟨(mem_keysOf_dictSet _ _ _ _).mpr (Or.inl hd), ?_⟩
              rw [if_neg hc1, if_pos hd]
              exact hrc
            · by_cases hdn : d = nbr
              · exact Or.inl hdn
              · refine Or.inr ⟨(mem_keysOf_dictSet _ _ _ _).mpr (Or.inr hdk), ?_⟩
                rw [if_neg hc1]
                by_cases hdc : d = w.cell
                · rw [if_pos hdc]
                  exact hrc
                · rw [if_neg hdc]
                  exact hrd

/-- `AldousBroder.vanilla` run to completion on a connected grid spans it. -/
theorem abVanilla_spans {cells : List CellId} {s0 : MazeState} {choiceO : Nat → Nat}
    {start : CellId} {fuel : Nat} {s' : MazeState} {tbl : List (CellId × Option CellId)}
    (hclosed : GridClosed s0 cells) (hnd : cells.Nodup) (hf : Fresh s0)
    (hstart : start ∈ cells)
    (hrun : abVanilla s0 choiceO cells start fuel = some (s', tbl)) :
    OneComponent s' cells ∧ edgeSum s' cells = 2 * (cells.length - 1) ∧
      undirCount s' cells = cells.length - 1 := by
  rw [abVanilla, simpleRandomWalk2] at hrun
  set w := loopIter (ab2Step s0 choiceO) ab2Done fuel
    ⟨[], start, cells.toFinset.erase start, 0⟩ with hw
  by_cases hd : ab2Done w = true
  · rw [if_pos hd] at hrun
    rw [Option.map_some'] at hrun
    have heq := Option.some.inj hrun
    have hs' : s' = linkTable s0 (dictSet w.le w.cell none) :=
      (congrArg Prod.fst heq).symm
    have hIw : AB2Inv cells w := by
      rw [hw]
      refine loopIter_inv _ _ (AB2Inv cells)
        (fun x h _ => ab2Step_inv s0 choiceO hclosed h) fuel _
        ⟨hstart, by simp [keysOf], by simp [keysOf], by simp, ?_, ?_⟩
      · intro c hc hcu
        refine Or.inr ?_
        by_contra hne
        exact hcu (Finset.mem_erase.mpr ⟨hne, List.mem_toFinset.mpr hc⟩)
      · exact ⟨fun _ => 0, by simp [keysOf], by simp⟩
    have hemp : w.unvisited = ∅ := by
      rw [ab2Done] at hd
      simpa using hd
    set tb := dictSet w.le w.cell none with htb
    have hmem : ∀ p, p ∈ tb ↔ p = (w.cell, none) ∨ (p ∈ w.le ∧ p.1 ≠ w.cell) :=
      mem_dictSet_iff _ _ _
    have hknd : (keysOf tb).Nodup := by
      rw [htb]
      by_cases hc : w.cell ∈ keysOf w.le
      · rw [keysOf_dictSet_of_mem _ _ _ hc]
        exact hIw.knd
      · rw [keysOf_dictSet_of_not_mem _ _ _ hc]
        exact List.nodup_append.mpr ⟨hIw.knd, List.nodup_singleton _, by simpa using hc⟩
    have hroot : (w.cell, none) ∈ tb := (hmem _).mpr (Or.inl rfl)
    have hnone : ∀ c, (c, none) ∈ tb → c = w.cell := by
      intro c hc
      rcases (hmem _).mp hc with hc | ⟨hc, _⟩
      · exact congrArg Prod.fst hc
      · exact absurd hc (hIw.noneAbsent c)
    have hkeys : ∀ c, c ∈ keysOf tb ↔ c ∈ cells := by
      intro c
      constructor
      · intro hc
        rcases (mem_keysOf_dictSet _ _ _ _).mp hc with hc | hc
        · rw [hc]; exact hIw.cellC
        · exact hIw.keysSub c hc
      · intro hc
        have hcu : c ∉ w.unvisited := by
          rw [hemp]
          exact Finset.not_mem_empty c
        rcases hIw.cover c hc hcu with hk | hk
        · exact (mem_keysOf_dictSet _ _ _ _).mpr (Or.inr hk)
        · exact (mem_keysOf_dictSet _ _ _ _).mpr (Or.inl hk)
    obtain ⟨r, hrb, hre⟩ := hIw.rank
    have hedge : ∀ c d, (c, some d) ∈ tb → d ∈ keysOf tb ∧
        (if d = w.cell then 0 else w.t + 1 - r d) < (if c = w.cell then 0 else w.t + 1 - r c) := by
      intro c d hcd
      rcases (hmem _).mp hcd with hcd | ⟨hcd, hc1⟩
      · exact absurd (congrArg Prod.snd hcd) (by simp)
      · simp only at hc1
        have hck : c ∈ keysOf w.le := List.mem_map.mpr ⟨(c, some d), hcd, rfl⟩
        have hrc : r c < w.t := hrb c hck
        rw [if_neg hc1]
        rcases hre c d hcd with hd | ⟨hdk, hrd⟩
        · refine ⟨(mem_keysOf_dictSet _ _ _ _).mpr (Or.inl hd), ?_⟩
          rw [if_pos hd]
          omega
        · refine ⟨(mem_keysOf_dictSet _ _ _ _).mpr (Or.inr hdk), ?_⟩
          by_cases hdc : d = w.cell
          · rw [if_pos hdc]
            omega
          · rw [if_neg hdc]
            have hrdb : r d < w.t := hrb d hdk
            omega
    have htbl : tbl = tb := (congrArg Prod.snd heq).symm
    rw [hs']
    exact linkTable_spanning hf hnd hknd hroot hnone hedge hkeys
  · rw [if_neg hd] at hrun
    exact absurd hrun (by simp)

/-! ## Hunt-and-kill: invariants, progress and termination -/

theorem killF_unvisited_subset (choiceO : Nat → Nat) : ∀ (st : HKSt),
    (killF choiceO st).unvisited ⊆ st.unvisited := by
  intro st
  generalize hN : st.unvisited.card = N
  induction N using Nat.strong_induction_on generalizing st with
  | _ N ih =>
    rw [killF]
    split
    · exact fun x hx => hx
    · split
      · exact fun x hx => hx
      · rename_i hu cell cur heq
        lift_lets
        extract_lets ns
        have hnsdef : ns = ((st.s.nbrs cur).filter (· ∈ st.unvisited)).dedup := rfl
        split
        · exact fun x hx => hx
        · rename_i hns
          have hlt : choiceO st.t % ns.length < ns.length :=
            Nat.mod_lt _ (Nat.pos_of_ne_zero hns)
          set c2 := ns.getD (choiceO st.t % ns.length) 0 with hc2
          have hmem : c2 ∈ st.unvisited := by
            have h1 : c2 ∈ ns := by
              rw [hc2, List.getD_eq_getElem?_getD, List.getElem?_eq_getElem hlt]
              exact List.getElem_mem _
            rw [hnsdef] at h1
            exact List.mem_filter.mp (List.mem_dedup.mp h1) |>.2 |> of_decide_eq_true
          have hcard : (st.unvisited.erase c2).card < N :=
            hN ▸ Finset.card_erase_lt_of_mem hmem
          have hsub := ih _ hcard
            ⟨linkCells st.s cur c2, st.unvisited.erase c2,
              st.frontier ++ (ns.eraseIdx (choiceO st.t % ns.length)).map (fun x => (cur, x)),
              some c2, st.t + 1⟩ rfl
          exact hsub.trans (Finset.erase_subset _ _)

theorem killNF_unvisited_subset (choiceO : Nat → Nat) : ∀ (st : HKSt),
    (killNF choiceO st).unvisited ⊆ st.unvisited := by
  intro st
  generalize hN : st.unvisited.card = N
  induction N using Nat.strong_induction_on generalizing st with
  | _ N ih =>
    rw [killNF]
    split
    · exact fun x hx => hx
    · split
      · exact fun x hx => hx
      · rename_i hu cell cur heq
        lift_lets
        extract_lets ns
        have hnsdef : ns = ((st.s.nbrs cur).filter (· ∈ st.unvisited)).dedup := rfl
        split
        · exact fun x hx => hx
        · rename_i hns
          have hlt : choiceO st.t % ns.length < ns.length :=
            Nat.mod_lt _ (Nat.pos_of_ne_zero hns)
          set c2 := ns.getD (choiceO st.t % ns.length) 0 with hc2
          have hmem : c2 ∈ st.unvisited := by
            have h1 : c2 ∈ ns := by
              rw [hc2, List.getD_eq_getElem?_getD, List.getElem?_eq_getElem hlt]
              exact List.getElem_mem _
            rw [hnsdef] at h1
            exact List.mem_filter.mp (List.mem_dedup.mp h1) |>.2 |> of_decide_eq_true
          have hcard : (st.unvisited.erase c2).card < N :=
            hN ▸ Finset.card_erase_lt_of_mem hmem
          have hsub := ih _ hcard
            ⟨linkCells st.s cur c2, st.unvisited.erase c2, st.frontier,
              some c2, st.t + 1⟩ rfl
          exact hsub.trans (Finset.erase_subset _ _)

theorem killF_inv (choiceO : Nat → Nat) (cells : List CellId) (start : CellId) :
    ∀ (st : HKSt), HKInv cells start st → HKInv cells start (killF choiceO st) := by
  intro st
  generalize hN : st.unvisited.card = N
  induction N using Nat.strong_induction_on generalizing st with
  | _ N ih =>
    intro hI
    rw [killF]
    split
    · exact hI
    · split
      · exact hI
      · rename_i hu cell cur heq
        lift_lets
        extract_lets ns
        have hnsdef : ns = ((st.s.nbrs cur).filter (· ∈ st.unvisited)).dedup := rfl
        split
        · exact hI
        · rename_i hns
          have hlt : choiceO st.t % ns.length < ns.length :=
            Nat.mod_lt _ (Nat.pos_of_ne_zero hns)
          set c2 := ns.getD (choiceO st.t % ns.length) 0 with hc2
          have hmem : c2 ∈ st.unvisited := by
            have h1 : c2 ∈ ns := by
              rw [hc2, List.getD_eq_getElem?_getD, List.getElem?_eq_getElem hlt]
              exact List.getElem_mem _
            rw [hnsdef] at h1
            exact List.mem_filter.mp (List.mem_dedup.mp h1) |>.2 |> of_decide_eq_true
          have hcur : cur ∉ st.unvisited := hI.currOk cur heq
          have hcard : (st.unvisited.erase c2).card < N :=
            hN ▸ Finset.card_erase_lt_of_mem hmem
          refine ih _ hcard
            ⟨linkCells st.s cur c2, st.unvisited.erase c2,
              st.frontier ++ (ns.eraseIdx (choiceO st.t % ns.length)).map (fun x => (cur, x)),
              some c2, st.t + 1⟩ rfl ⟨?_, ?_, ?_, ?_⟩
          · intro c hcE
            exact hI.unvSub c (Finset.mem_of_mem_erase hcE)
          · intro c hcE
            have hcu : c ∈ st.unvisited := Finset.mem_of_mem_erase hcE
            have hc2ne : c ≠ c2 := Finset.ne_of_mem_erase hcE
            have hcurne : c ≠ cur := fun h => hcur (h ▸ hcu)
            show (linkCells st.s cur c2).pass c = []
            rw [pass_linkCells_other st.s cur c2 c hcurne hc2ne]
            exact hI.unvEmpty c hcu
          · intro c hEq
            have hce : c = c2 := (Option.some.inj hEq).symm
            rw [hce]
            exact Finset.not_mem_erase c2 _
          · intro pr hpr
            rcases List.mem_append.mp hpr with hpr | hpr
            · intro hm2
              exact hI.frontOk pr hpr (Finset.mem_of_mem_erase hm2)
            · obtain ⟨x, hx, hxe⟩ := List.mem_map.mp hpr
              intro hm2
              rw [← hxe] at hm2
              exact hcur (Finset.mem_of_mem_erase hm2)

theorem killNF_inv (choiceO : Nat → Nat) (cells : List CellId) (start : CellId) :
    ∀ (st : HKSt), HKInv cells start st → HKInv cells start (killNF choiceO st) := by
  intro st
  generalize hN : st.unvisited.card = N
  induction N using Nat.strong_induction_on generalizing st with
  | _ N ih =>
    intro hI
    rw [killNF]
    split
    · exact hI
    · split
      · exact hI
      · rename_i hu cell cur heq
        lift_lets
        extract_lets ns
        have hnsdef : ns = ((st.s.nbrs cur).filter (· ∈ st.unvisited)).dedup := rfl
        split
        · exact hI
        · rename_i hns
          have hlt : choiceO st.t % ns.length < ns.length :=
            Nat.mod_lt _ (Nat.pos_of_ne_zero hns)
          set c2 := ns.getD (choiceO st.t % ns.length) 0 with hc2
          have hmem : c2 ∈ st.unvisited := by
            have h1 : c2 ∈ ns := by
              rw [hc2, List.getD_eq_getElem?_getD, List.getElem?_eq_getElem hlt]
              exact List.getElem_mem _
            rw [hnsdef] at h1
            exact List.mem_filter.mp (List.mem_dedup.mp h1) |>.2 |> of_decide_eq_true
          have hcur : cur ∉ st.unvisited := hI.currOk cur heq
          have hcard : (st.unvisited.erase c2).card < N :=
            hN ▸ Finset.card_erase_lt_of_mem hmem
          refine ih _ hcard
            ⟨linkCells st.s cur c2, st.unvisited.erase c2, st.frontier,
              some c2, st.t + 1⟩ rfl ⟨?_, ?_, ?_, ?_⟩
          · intro c hcE
            exact hI.unvSub c (Finset.mem_of_mem_erase hcE)
          · intro c hcE
            have hcu : c ∈ st.unvisited := Finset.mem_of_mem_erase hcE
            have hc2ne : c ≠ c2 := Finset.ne_of_mem_erase hcE
            have hcurne : c ≠ cur := fun h => hcur (h ▸ hcu)
            show (linkCells st.s cur c2).pass c = []
            rw [pass_linkCells_other st.s cur c2 c hcurne hc2ne]
            exact hI.unvEmpty c hcu
          · intro c hEq
            have hce : c = c2 := (Option.some.inj hEq).symm
            rw [hce]
            exact Finset.not_mem_erase c2 _
          · intro pr hpr
            intro hm2
            exact hI.frontOk pr hpr (Finset.mem_of_mem_erase hm2)

theorem huntF_inv (choiceO : Nat → Nat) (cells : List CellId) (start : CellId) :
    ∀ (st : HKSt), HKInv cells start st → HKInv cells start (huntF choiceO st) := by
  intro st
  generalize hN : st.frontier.length = N
  induction N using Nat.strong_induction_on generalizing st with
  | _ N ih =>
    intro hI
    rw [huntF]
    split
    · exact ⟨hI.unvSub, hI.unvEmpty, fun c h => Option.noConfusion h, hI.frontOk⟩
    · rename_i hq
      lift_lets
      extract_lets pc rest
      have hpc : pc = st.frontier.getD (choiceO st.t % st.frontier.length) (0, 0) := rfl
      have hrest : rest = st.frontier.eraseIdx (choiceO st.t % st.frontier.length) := rfl
      have hlt : choiceO st.t % st.frontier.length < st.frontier.length :=
        Nat.mod_lt _ (Nat.pos_of_ne_zero hq)
      have hpcmem : pc ∈ st.frontier := by
        rw [hpc]
        exact getD_mem _ _ hlt
      split
      · rename_i hin
        have hp1 : pc.1 ∉ st.unvisited := hI.frontOk pc hpcmem
        refine ⟨?_, ?_, ?_, ?_⟩
        · intro c hc
          exact hI.unvSub c (Finset.mem_of_mem_erase hc)
        · intro c hc
          have hcu := Finset.mem_of_mem_erase hc
          have hne2 : c ≠ pc.2 := Finset.ne_of_mem_erase hc
          have hne1 : c ≠ pc.1 := fun h => hp1 (h ▸ hcu)
          show (linkCells st.s pc.1 pc.2).pass c = []
          rw [pass_linkCells_other st.s pc.1 pc.2 c hne1 hne2]
          exact hI.unvEmpty c hcu
        · intro c hEq
          have hce : c = pc.2 := (Option.some.inj hEq).symm
          rw [hce]
          exact Finset.not_mem_erase _ _
        · intro pr hpr
          have hprf : pr ∈ st.frontier := by
            rw [hrest] at hpr
            exact mem_of_mem_eraseIdx _ _ pr hpr
          intro hm2
          exact hI.frontOk pr hprf (Finset.mem_of_mem_erase hm2)
      · rename_i hin
        have hlen : rest.length < N := by
          rw [hrest]
          have := List.length_eraseIdx_add_one hlt
          omega
        refine ih _ hlen ⟨st.s, st.unvisited, rest, st.curr, st.t + 1⟩ rfl
          ⟨hI.unvSub, hI.unvEmpty, hI.currOk, ?_⟩
        intro pr hpr
        refine hI.frontOk pr ?_
        rw [hrest] at hpr
        exact mem_of_mem_eraseIdx _ _ pr hpr

theorem huntScan_inv (choiceO : Nat → Nat) (cells : List CellId) (start : CellId) :
    ∀ (candidates : List CellId) (st : HKSt) (t : Nat),
    HKInv cells start st → HKInv cells start (huntScan choiceO st candidates t) := by
  intro candidates
  generalize hN : candidates.length = N
  induction N using Nat.strong_induction_on generalizing candidates with
  | _ N ih =>
    intro st t hI
    rw [huntScan]
    split
    · exact ⟨hI.unvSub, hI.unvEmpty, fun c h => Option.noConfusion h, hI.frontOk⟩
    · rename_i hc
      lift_lets
      extract_lets cell
      split
      · rename_i nbr hfind
        have hnbr : nbr ∉ st.unvisited := by
          have := List.find?_some hfind
          simpa using this
        refine ⟨?_, ?_, ?_, ?_⟩
        · intro c hc2
          exact hI.unvSub c (Finset.mem_of_mem_erase hc2)
        · intro c hc2
          have hcu := Finset.mem_of_mem_erase hc2
          have hneC : c ≠ cell := Finset.ne_of_mem_erase hc2
          have hneN : c ≠ nbr := fun h => hnbr (h ▸ hcu)
          show (linkCells st.s cell nbr).pass c = []
          rw [pass_linkCells_other st.s cell nbr c hneC hneN]
          exact hI.unvEmpty c hcu
        · intro c hEq
          have hce : c = cell := (Option.some.inj hEq).symm
          rw [hce]
          exact Finset.not_mem_erase _ _
        · intro pr hpr
          intro hm2
          exact hI.frontOk pr hpr (Finset.mem_of_mem_erase hm2)
      · have hlt : choiceO t % candidates.length < candidates.length :=
          Nat.mod_lt _ (Nat.pos_of_ne_zero hc)
        have hlen : (candidates.eraseIdx (choiceO t % candidates.length)).length < N := by
          have := List.length_eraseIdx_add_one hlt
          omega
        exact ih _ hlen (candidates.eraseIdx (choiceO t % candidates.length)) rfl
          st (t + 1) hI

theorem hkOuterStep_inv (choiceO : Nat → Nat) (v : HKVariant) (cells : List CellId)
    (start : CellId) (st : HKSt) (hI : HKInv cells start st) :
    HKInv cells start (hkOuterStep choiceO v st) := by
  rw [hkOuterStep.eq_def]
  by_cases h1 : st.unvisited = ∅ ∨ st.curr = none
  · rw [if_pos h1]; exact hI
  · rw [if_neg h1]
    cases v with
    | frontier =>
      exact huntF_inv choiceO cells start _ (killF_inv choiceO cells start st hI)
    | noFrontier =>
      exact huntScan_inv choiceO cells start (finAsc (killNF choiceO st).unvisited)
        (killNF choiceO st) (killNF choiceO st).t (killNF_inv choiceO cells start st hI)
    | noShuffle =>
      exact huntScan_inv (fun _ => 0) cells start (finAsc (killNF choiceO st).unvisited)
        (killNF choiceO st) (killNF choiceO st).t (killNF_inv choiceO cells start st hI)

theorem huntF_progress (choiceO : Nat → Nat) : ∀ (st : HKSt),
    (huntF choiceO st).curr = none ∨
      (huntF choiceO st).unvisited.card < st.unvisited.card := by
  intro st
  generalize hN : st.frontier.length = N
  induction N using Nat.strong_induction_on generalizing st with
  | _ N ih =>
    rw [huntF]
    split
    · exact Or.inl rfl
    · rename_i hq
      lift_lets
      extract_lets pc rest
      have hrest : rest = st.frontier.eraseIdx (choiceO st.t % st.frontier.length) := rfl
      have hlt : choiceO st.t % st.frontier.length < st.frontier.length :=
        Nat.mod_lt _ (Nat.pos_of_ne_zero hq)
      split
      · rename_i hin
        exact Or.inr (Finset.card_erase_lt_of_mem hin)
      · rename_i hin
        have hlen : rest.length < N := by
          rw [hrest]
          have := List.length_eraseIdx_add_one hlt
          omega
        exact ih _ hlen ⟨st.s, st.unvisited, rest, st.curr, st.t + 1⟩ rfl

theorem huntScan_progress (choiceO : Nat → Nat) : ∀ (candidates : List CellId)
    (st : HKSt) (t : Nat), (∀ c ∈ candidates, c ∈ st.unvisited) →
    (huntScan choiceO st candidates t).curr = none ∨
      (huntScan choiceO st candidates t).unvisited.card < st.unvisited.card := by
  intro candidates
  generalize hN : candidates.length = N
  induction N using Nat.strong_induction_on generalizing candidates with
  | _ N ih =>
    intro st t hcand
    rw [huntScan]
    split
    · exact Or.inl rfl
    · rename_i hc
      lift_lets
      extract_lets cell
      have hcell : cell ∈ candidates :=
        getD_mem _ _ (Nat.mod_lt _ (Nat.pos_of_ne_zero hc))
      split
      · rename_i nbr hfind
        exact Or.inr (Finset.card_erase_lt_of_mem (hcand cell hcell))
      · have hlt : choiceO t % candidates.length < candidates.length :=
          Nat.mod_lt _ (Nat.pos_of_ne_zero hc)
        have hlen : (candidates.eraseIdx (choiceO t % candidates.length)).length < N := by
          have := List.length_eraseIdx_add_one hlt
          omega
        exact ih _ hlen (candidates.eraseIdx (choiceO t % candidates.length)) rfl
          st (t + 1) (fun c h => hcand c (mem_of_mem_eraseIdx _ _ c h))

theorem hkOuterStep_progress (choiceO : Nat → Nat) (v : HKVariant) (st : HKSt)
    (hnd : hkDone st = false) :
    hkDone (hkOuterStep choiceO v st) = true ∨
      (hkOuterStep choiceO v st).unvisited.card < st.unvisited.card := by
  have hcond : ¬(st.unvisited = ∅ ∨ st.curr = none) := by
    rw [hkDone] at hnd
    simpa using hnd
  rw [hkOuterStep.eq_def, if_neg hcond]
  cases v with
  | frontier =>
    have hksub : (killF choiceO st).unvisited ⊆ st.unvisited :=
      killF_unvisited_subset choiceO st
    rcases huntF_progress choiceO (killF choiceO st) with h | h
    · left
      rw [hkDone]
      simp [h]
    · right
      exact Nat.lt_of_lt_of_le h (Finset.card_le_card hksub)
  | noFrontier =>
    have hksub : (killNF choiceO st).unvisited ⊆ st.unvisited :=
      killNF_unvisited_subset choiceO st
    rcases huntScan_progress choiceO (finAsc (killNF choiceO st).unvisited)
        (killNF choiceO st) (killNF choiceO st).t
        (fun c h => (mem_finAsc _ _).mp h) with h | h
    · left
      rw [hkDone]
      rw [huntNF]
      simp [h]
    · right
      rw [huntNF]
      exact Nat.lt_of_lt_of_le h (Finset.card_le_card hksub)
  | noShuffle =>
    have hksub : (killNF choiceO st).unvisited ⊆ st.unvisited :=
      killNF_unvisited_subset choiceO st
    rcases huntScan_progress (fun _ => 0) (finAsc (killNF choiceO st).unvisited)
        (killNF choiceO st) (killNF choiceO st).t
        (fun c h => (mem_finAsc _ _).mp h) with h | h
    · left
      rw [hkDone]
      rw [huntNS]
      simp [h]
    · right
      rw [huntNS]
      exact Nat.lt_of_lt_of_le h (Finset.card_le_card hksub)

theorem mem_eraseIdx_of_ne {γ : Type} : ∀ (l : List γ) (i : Nat) (d u : γ),
    u ∈ l → u ≠ l.getD i d → u ∈ l.eraseIdx i := by
  intro l
  induction l with
  | nil => intro i d u hu _; exact absurd hu (List.not_mem_nil u)
  | cons a t ih =>
    intro i d u hu hne
    cases i with
    | zero =>
      rcases List.mem_cons.mp hu with rfl | hu
      · exact absurd List.getD_cons_zero.symm hne
      · rw [List.eraseIdx_cons_zero]
        exact hu
    | succ j =>
      rcases List.mem_cons.mp hu with rfl | hu
      · rw [List.eraseIdx_cons_succ]
        exact List.mem_cons_self _ _
      · rw [List.eraseIdx_cons_succ]
        exact List.mem_cons_of_mem _ (ih j d u hu (by simpa using hne))

theorem sdiff_erase_insert {X u : Finset CellId} {a : CellId} (ha : a ∈ X) :
    X \ u.erase a = insert a (X \ u) := by
  ext x
  constructor
  · intro hx
    obtain ⟨hx1, hx2⟩ := Finset.mem_sdiff.mp hx
    by_cases hxa : x = a
    · exact Finset.mem_insert.mpr (Or.inl hxa)
    · refine Finset.mem_insert.mpr (Or.inr (Finset.mem_sdiff.mpr ⟨hx1, ?_⟩))
      intro hxu
      exact hx2 (Finset.mem_erase.mpr ⟨hxa, hxu⟩)
  · intro hx
    rcases Finset.mem_insert.mp hx with rfl | hx
    · exact Finset.mem_sdiff.mpr ⟨ha, fun h => absurd rfl (Finset.mem_erase.mp h).1⟩
    · obtain ⟨hx1, hx2⟩ := Finset.mem_sdiff.mp hx
      exact Finset.mem_sdiff.mpr ⟨hx1, fun h => hx2 (Finset.mem_of_mem_erase h)⟩

/-- The spanning-tree invariant of the hunt-and-kill loop: the carved passages
form a spanning tree of the visited region and the neighbor tables are the
grid's. -/
structure HKSpan (cells : List CellId) (s0 : MazeState) (st : HKSt) : Prop where
  tree : TreeInv cells st.s (cells.toFinset \ st.unvisited)
  unvSub : st.unvisited ⊆ cells.toFinset
  nbrsEq : st.s.nbrs = s0.nbrs
  currOk : ∀ c, st.curr = some c → c ∈ cells ∧ c ∉ st.unvisited

/-- Every visited/unvisited boundary pair is recorded in the frontier or led by
the current cell. -/
def FullCover (cells : List CellId) (s0 : MazeState) (st : HKSt) : Prop :=
  ∀ v ∈ cells, v ∉ st.unvisited → ∀ u ∈ s0.nbrs v, u ∈ st.unvisited →
    (v, u) ∈ st.frontier ∨ st.curr = some v

/-- Frontier entries name visited grid cells. -/
def FrontWF (cells : List CellId) (st : HKSt) : Prop :=
  ∀ pr ∈ st.frontier, pr.1 ∈ cells ∧ pr.1 ∉ st.unvisited

/-- No visited cell has an unvisited neighbor. -/
def NoBoundary (cells : List CellId) (s0 : MazeState) (st : HKSt) : Prop :=
  ∀ v ∈ cells, v ∉ st.unvisited → ∀ u ∈ s0.nbrs v, u ∉ st.unvisited

/-- No unvisited cell has a visited neighbor. -/
def NoBoundaryU (s0 : MazeState) (st : HKSt) : Prop :=
  ∀ u ∈ st.unvisited, ∀ nb ∈ s0.nbrs u, nb ∈ st.unvisited

theorem killF_span (choiceO : Nat → Nat) (cells : List CellId) (s0 : MazeState)
    (hnd : cells.Nodup) : ∀ (st : HKSt),
    HKSpan cells s0 st → FullCover cells s0 st → FrontWF cells st →
    HKSpan cells s0 (killF choiceO st) ∧ FullCover cells s0 (killF choiceO st) ∧
      FrontWF cells (killF choiceO st) ∧
      ((killF choiceO st).unvisited = ∅ ∨ (killF choiceO st).curr = none ∨
        ∃ c, (killF choiceO st).curr = some c ∧
          ∀ u ∈ s0.nbrs c, u ∉ (killF choiceO st).unvisited) := by
  intro st
  generalize hN : st.unvisited.card = N
  induction N using Nat.strong_induction_on generalizing st with
  | _ N ih =>
    intro hI hcov hwf
    rw [killF]
    split
    · rename_i hu
      exact ⟨hI, hcov, hwf, Or.inl hu⟩
    · split
      · rename_i hu heq
        exact ⟨hI, hcov, hwf, Or.inr (Or.inl heq)⟩
      · rename_i hu cell cur heq
        lift_lets
        extract_lets ns
        have hnsdef : ns = ((st.s.nbrs cur).filter (· ∈ st.unvisited)).dedup := rfl
        split
        · rename_i hns
          refine ⟨hI, hcov, hwf, Or.inr (Or.inr ⟨cur, heq, ?_⟩)⟩
          intro u hu2 humem
          have hnil : ns = [] := List.length_eq_zero.mp hns
          rw [hnsdef] at hnil
          have hfil : (st.s.nbrs cur).filter (· ∈ st.unvisited) = [] :=
            (List.dedup_eq_nil _).mp hnil
          have hu3 : u ∈ st.s.nbrs cur := by rw [hI.nbrsEq]; exact hu2
          have := List.filter_eq_nil_iff.mp hfil u hu3
          simp only [decide_eq_true_eq] at this
          exact this humem
        · rename_i hns
          have hlt : choiceO st.t % ns.length < ns.length :=
            Nat.mod_lt _ (Nat.pos_of_ne_zero hns)
          set c2 := ns.getD (choiceO st.t % ns.length) 0 with hc2
          have hc2ns : c2 ∈ ns := by
            rw [hc2, List.getD_eq_getElem?_getD, List.getElem?_eq_getElem hlt]
            exact List.getElem_mem _
          have hmem : c2 ∈ st.unvisited := by
            have h1 := hc2ns
            rw [hnsdef] at h1
            exact List.mem_filter.mp (List.mem_dedup.mp h1) |>.2 |> of_decide_eq_true
          obtain ⟨hcurc, hcurnu⟩ := hI.currOk cur heq
          have hc2cells : c2 ∈ cells := List.mem_toFinset.mp (hI.unvSub hmem)
          have hcard : (st.unvisited.erase c2).card < N :=
            hN ▸ Finset.card_erase_lt_of_mem hmem
          refine ih _ hcard
            ⟨linkCells st.s cur c2, st.unvisited.erase c2,
              st.frontier ++ (ns.eraseIdx (choiceO st.t % ns.length)).map (fun x => (cur, x)),
              some c2, st.t + 1⟩ rfl ?_ ?_ ?_
          · refine ⟨?_, ?_, hI.nbrsEq, ?_⟩
            · show TreeInv cells (linkCells st.s cur c2) (cells.toFinset \ st.unvisited.erase c2)
              rw [sdiff_erase_insert (List.mem_toFinset.mpr hc2cells)]
              refine hI.tree.grow hnd ?_ hc2cells ?_
              · exact Finset.mem_sdiff.mpr ⟨List.mem_toFinset.mpr hcurc, hcurnu⟩
              · intro hc2v
                exact (Finset.mem_sdiff.mp hc2v).2 hmem
            · intro c hcE
              exact hI.unvSub (Finset.mem_of_mem_erase hcE)
            · intro c hEq
              have hce : c = c2 := (Option.some.inj hEq).symm
              rw [hce]
              exact ⟨hc2cells, Finset.not_mem_erase c2 _⟩
          · intro v hv hvnu u hu2 huu
            have huu2 : u ∈ st.unvisited := Finset.mem_of_mem_erase huu
            have hune : u ≠ c2 := Finset.ne_of_mem_erase huu
            by_cases hvu : v ∈ st.unvisited
            · have hvc2 : v = c2 := by
                by_contra hne
                exact hvnu (Finset.mem_erase.mpr ⟨hne, hvu⟩)
              exact Or.inr (by rw [hvc2])
            · rcases hcov v hv hvu u hu2 huu2 with hfr | hcu
              · exact Or.inl (List.mem_append_left _ hfr)
              · have hvcur : v = cur := Option.some.inj (heq ▸ hcu).symm
                subst hvcur
                have huns : u ∈ ns := by
                  rw [hnsdef]
                  refine List.mem_dedup.mpr (List.mem_filter.mpr ⟨?_, ?_⟩)
                  · rw [hI.nbrsEq]; exact hu2
                  · exact decide_eq_true huu2
                have huer : u ∈ ns.eraseIdx (choiceO st.t % ns.length) :=
                  mem_eraseIdx_of_ne ns _ 0 u huns hune
                exact Or.inl (List.mem_append_right _
                  (List.mem_map.mpr ⟨u, huer, rfl⟩))
          · intro pr hpr
            rcases List.mem_append.mp hpr with hpr | hpr
            · obtain ⟨h1, h2⟩ := hwf pr hpr
              exact ⟨h1, fun hm => h2 (Finset.mem_of_mem_erase hm)⟩
            · obtain ⟨x, hx, hxe⟩ := List.mem_map.mp hpr
              rw [← hxe]
              exact ⟨hcurc, fun hm => hcurnu (Finset.mem_of_mem_erase hm)⟩

theorem killNF_span (choiceO : Nat → Nat) (cells : List CellId) (s0 : MazeState)
    (hnd : cells.Nodup) : ∀ (st : HKSt),
    HKSpan cells s0 st → HKSpan cells s0 (killNF choiceO st) := by
  intro st
  generalize hN : st.unvisited.card = N
  induction N using Nat.strong_induction_on generalizing st with
  | _ N ih =>
    intro hI
    rw [killNF]
    split
    · exact hI
    · split
      · exact hI
      · rename_i hu cell cur heq
        lift_lets
        extract_lets ns
        have hnsdef : ns = ((st.s.nbrs cur).filter (· ∈ st.unvisited)).dedup := rfl
        split
        · exact hI
        · rename_i hns
          have hlt : choiceO st.t % ns.length < ns.length :=
            Nat.mod_lt _ (Nat.pos_of_ne_zero hns)
          set c2 := ns.getD (choiceO st.t % ns.length) 0 with hc2
          have hc2ns : c2 ∈ ns := by
            rw [hc2, List.getD_eq_getElem?_getD, List.getElem?_eq_getElem hlt]
            exact List.getElem_mem _
          have hmem : c2 ∈ st.unvisited := by
            have h1 := hc2ns
            rw [hnsdef] at h1
            exact List.mem_filter.mp (List.mem_dedup.mp h1) |>.2 |> of_decide_eq_true
          obtain ⟨hcurc, hcurnu⟩ := hI.currOk cur heq
          have hc2cells : c2 ∈ cells := List.mem_toFinset.mp (hI.unvSub hmem)
          have hcard : (st.unvisited.erase c2).card < N :=
            hN ▸ Finset.card_erase_lt_of_mem hmem
          refine ih _ hcard
            ⟨linkCells st.s cur c2, st.unvisited.erase c2, st.frontier,
              some c2, st.t + 1⟩ rfl ⟨?_, ?_, hI.nbrsEq, ?_⟩
          · show TreeInv cells (linkCells st.s cur c2) (cells.toFinset \ st.unvisited.erase c2)
            rw [sdiff_erase_insert (List.mem_toFinset.mpr hc2cells)]
            refine hI.tree.grow hnd ?_ hc2cells ?_
            · exact Finset.mem_sdiff.mpr ⟨List.mem_toFinset.mpr hcurc, hcurnu⟩
            · intro hc2v
              exact (Finset.mem_sdiff.mp hc2v).2 hmem
          · intro c hcE
            exact hI.unvSub (Finset.mem_of_mem_erase hcE)
          · intro c hEq
            have hce : c = c2 := (Option.some.inj hEq).symm
            rw [hce]
            exact ⟨hc2cells, Finset.not_mem_erase c2 _⟩

theorem huntF_span (choiceO : Nat → Nat) (cells : List CellId) (s0 : MazeState)
    (hnd : cells.Nodup) : ∀ (st : HKSt),
    HKSpan cells s0 st →
    (∀ v ∈ cells, v ∉ st.unvisited → ∀ u ∈ s0.nbrs v, u ∈ st.unvisited →
      (v, u) ∈ st.frontier) →
    FrontWF cells st →
    HKSpan cells s0 (huntF choiceO st) ∧ FullCover cells s0 (huntF choiceO st) ∧
      FrontWF cells (huntF choiceO st) ∧
      ((huntF choiceO st).curr = none → NoBoundary cells s0 (huntF choiceO st)) := by
  intro st
  generalize hN : st.frontier.length = N
  induction N using Nat.strong_induction_on generalizing st with
  | _ N ih =>
    intro hI hcov hwf
    rw [huntF]
    split
    · rename_i hq
      have hnil : st.frontier = [] := List.length_eq_zero.mp hq
      have hnob : NoBoundary cells s0 st := by
        intro v hv hvnu u hu2 huu
        have := hcov v hv hvnu u hu2 huu
        rw [hnil] at this
        exact absurd this (List.not_mem_nil _)
      refine ⟨⟨hI.tree, hI.unvSub, hI.nbrsEq, fun c h => Option.noConfusion h⟩,
        ?_, ?_, fun _ => hnob⟩
      · intro v hv hvnu u hu2 huu
        exact absurd (hnob v hv hvnu u hu2) (fun h => h huu)
      · intro pr hpr
        rw [hnil] at hpr
        exact absurd hpr (List.not_mem_nil pr)
    · rename_i hq
      lift_lets
      extract_lets pc rest
      have hpc : pc = st.frontier.getD (choiceO st.t % st.frontier.length) (0, 0) := rfl
      have hrest : rest = st.frontier.eraseIdx (choiceO st.t % st.frontier.length) := rfl
      have hlt : choiceO st.t % st.frontier.length < st.frontier.length :=
        Nat.mod_lt _ (Nat.pos_of_ne_zero hq)
      have hpcmem : pc ∈ st.frontier := by
        rw [hpc]
        exact getD_mem _ _ hlt
      split
      · rename_i hin
        obtain ⟨hpc1c, hpc1v⟩ := hwf pc hpcmem
        have hpc2c : pc.2 ∈ cells := List.mem_toFinset.mp (hI.unvSub hin)
        refine ⟨⟨?_, ?_, hI.nbrsEq, ?_⟩, ?_, ?_, ?_⟩
        · show TreeInv cells (linkCells st.s pc.1 pc.2)
            (cells.toFinset \ st.unvisited.erase pc.2)
          rw [sdiff_erase_insert (List.mem_toFinset.mpr hpc2c)]
          refine hI.tree.grow hnd ?_ hpc2c ?_
          · exact Finset.mem_sdiff.mpr ⟨List.mem_toFinset.mpr hpc1c, hpc1v⟩
          · intro hv
            exact (Finset.mem_sdiff.mp hv).2 hin
        · intro c hcE
          exact hI.unvSub (Finset.mem_of_mem_erase hcE)
        · intro c hEq
          have hce : c = pc.2 := (Option.some.inj hEq).symm
          rw [hce]
          exact ⟨hpc2c, Finset.not_mem_erase pc.2 _⟩
        · intro v hv hvnu u hu2 huu
          have huu2 : u ∈ st.unvisited := Finset.mem_of_mem_erase huu
          have hune : u ≠ pc.2 := Finset.ne_of_mem_erase huu
          by_cases hvu : v ∈ st.unvisited
          · have hvpc : v = pc.2 := by
              by_contra hne
              exact hvnu (Finset.mem_erase.mpr ⟨hne, hvu⟩)
            exact Or.inr (by rw [hvpc])
          · have hfr := hcov v hv hvu u hu2 huu2
            have hneq : (v, u) ≠ pc := fun h => hune (congrArg Prod.snd h)
            refine Or.inl ?_
            show (v, u) ∈ rest
            rw [hrest]
            exact mem_eraseIdx_of_ne _ _ (0, 0) _ hfr (hpc ▸ hneq)
        · intro pr hpr
          have hpr2 : pr ∈ st.frontier := by
            rw [hrest] at hpr
            exact mem_of_mem_eraseIdx _ _ pr hpr
          obtain ⟨h1, h2⟩ := hwf pr hpr2
          exact ⟨h1, fun hm => h2 (Finset.mem_of_mem_erase hm)⟩
        · intro habs
          exact absurd habs (by simp)
      · rename_i hnin
        have hlen : rest.length < N := by
          rw [hrest]
          have := List.length_eraseIdx_add_one hlt
          omega
        refine ih _ hlen ⟨st.s, st.unvisited, rest, st.curr, st.t + 1⟩ rfl
          ⟨hI.tree, hI.unvSub, hI.nbrsEq, hI.currOk⟩ ?_ ?_
        · intro v hv hvnu u hu2 huu
          have hfr := hcov v hv hvnu u hu2 huu
          have hneq : (v, u) ≠ pc := by
            intro h
            rw [← h] at hnin
            exact hnin huu
          show (v, u) ∈ rest
          rw [hrest]
          exact mem_eraseIdx_of_ne _ _ (0, 0) _ hfr (hpc ▸ hneq)
        · intro pr hpr
          have hpr2 : pr ∈ st.frontier := by
            rw [hrest] at hpr
            exact mem_of_mem_eraseIdx _ _ pr hpr
          exact hwf pr hpr2

theorem huntScan_span (choiceO : Nat → Nat) (cells : List CellId) (s0 : MazeState)
    (hnd : cells.Nodup) (hclosed : GridClosed s0 cells) :
    ∀ (candidates : List CellId) (st : HKSt) (t : Nat),
    HKSpan cells s0 st → (∀ c ∈ candidates, c ∈ st.unvisited) →
    HKSpan cells s0 (huntScan choiceO st candidates t) ∧
      ((huntScan choiceO st candidates t).curr = none →
        (huntScan choiceO st candidates t).unvisited = st.unvisited ∧
        ∀ c ∈ candidates, ∀ nb ∈ s0.nbrs c, nb ∈ st.unvisited) := by
  intro candidates
  generalize hN : candidates.length = N
  induction N using Nat.strong_induction_on generalizing candidates with
  | _ N ih =>
    intro st t hI hcand
    rw [huntScan]
    split
    · rename_i hc
      have hnil : candidates = [] := List.length_eq_zero.mp hc
      refine ⟨⟨hI.tree, hI.unvSub, hI.nbrsEq, fun c h => Option.noConfusion h⟩,
        fun _ => ⟨rfl, ?_⟩⟩
      intro c hc2
      rw [hnil] at hc2
      exact absurd hc2 (List.not_mem_nil c)
    · rename_i hc
      lift_lets
      extract_lets cell
      have hcell : cell ∈ candidates :=
        getD_mem _ _ (Nat.mod_lt _ (Nat.pos_of_ne_zero hc))
      have hcellu : cell ∈ st.unvisited := hcand cell hcell
      have hcellc : cell ∈ cells := List.mem_toFinset.mp (hI.unvSub hcellu)
      split
      · rename_i nbr hfind
        have hnbr : nbr ∉ st.unvisited := by
          have := List.find?_some hfind
          simpa using this
        have hnbrn : nbr ∈ st.s.nbrs cell := List.mem_of_find?_eq_some hfind
        have hnbrn0 : nbr ∈ s0.nbrs cell := by rw [← hI.nbrsEq]; exact hnbrn
        have hnbrc : nbr ∈ cells := hclosed cell hcellc nbr hnbrn0
        have hne : cell ≠ nbr := fun h => hnbr (h ▸ hcellu)
        refine ⟨⟨?_, ?_, hI.nbrsEq, ?_⟩, ?_⟩
        · show TreeInv cells (linkCells st.s cell nbr)
            (cells.toFinset \ st.unvisited.erase cell)
          rw [sdiff_erase_insert (List.mem_toFinset.mpr hcellc),
            linkCells_comm st.s cell nbr hne]
          refine hI.tree.grow hnd ?_ hcellc ?_
          · exact Finset.mem_sdiff.mpr ⟨List.mem_toFinset.mpr hnbrc, hnbr⟩
          · intro hv
            exact (Finset.mem_sdiff.mp hv).2 hcellu
        · intro c hcE
          exact hI.unvSub (Finset.mem_of_mem_erase hcE)
        · intro c hEq
          have hce : c = cell := (Option.some.inj hEq).symm
          rw [hce]
          exact ⟨hcellc, Finset.not_mem_erase cell _⟩
        · intro habs
          exact absurd habs (by simp)
      · rename_i hfind
        have hlt : choiceO t % candidates.length < candidates.length :=
          Nat.mod_lt _ (Nat.pos_of_ne_zero hc)
        have hlen : (candidates.eraseIdx (choiceO t % candidates.length)).length < N := by
          have := List.length_eraseIdx_add_one hlt
          omega
        obtain ⟨hI2, hrec⟩ := ih _ hlen (candidates.eraseIdx (choiceO t % candidates.length))
          rfl st (t + 1) hI (fun c h => hcand c (mem_of_mem_eraseIdx _ _ c h))
        refine ⟨hI2, fun hnone => ?_⟩
        obtain ⟨hunv, hall⟩ := hrec hnone
        refine ⟨hunv, ?_⟩
        intro c hc2 nb hnb
        by_cases hceq : c = cell
        · subst hceq
          have hnb2 : nb ∈ st.s.nbrs cell := by rw [hI.nbrsEq]; exact hnb
          have := List.find?_eq_none.mp hfind nb hnb2
          simpa using this
        · have hcer : c ∈ candidates.eraseIdx (choiceO t % candidates.length) :=
            mem_eraseIdx_of_ne _ _ 0 _ hc2 hceq
          exact hall c hcer nb hnb

theorem noBoundary_visits_all {cells : List CellId} {s0 : MazeState} {st : HKSt}
    (hclosed : GridClosed s0 cells) (hconn : GridConnected s0 cells)
    (hnb : NoBoundary cells s0 st) {a : CellId} (ha : a ∈ cells)
    (hav : a ∉ st.unvisited) : ∀ c ∈ cells, c ∉ st.unvisited := by
  intro c hc
  have hreach : Relation.ReflTransGen (adjacent s0) a c := hconn a ha c hc
  clear hc
  have : c ∈ cells ∧ c ∉ st.unvisited := by
    induction hreach with
    | refl => exact ⟨ha, hav⟩
    | tail hprev hadj ihp =>
      exact ⟨hclosed _ ihp.1 _ hadj, hnb _ ihp.1 ihp.2 _ hadj⟩
  exact this.2

theorem hkSpan_done_spans {cells : List CellId} {s0 : MazeState} {st : HKSt}
    (hnd : cells.Nodup) (hclosed : GridClosed s0 cells)
    (hconn : GridConnected s0 cells) (hI : HKSpan cells s0 st)
    (hend : st.unvisited = ∅ ∨ NoBoundary cells s0 st) :
    OneComponent st.s cells ∧ edgeSum st.s cells = 2 * (cells.length - 1) ∧
      undirCount st.s cells = cells.length - 1 := by
  have hemp : st.unvisited = ∅ := by
    rcases hend with h | h
    · exact h
    · obtain ⟨a, ha⟩ := hI.tree.visNE
      obtain ⟨ha1, ha2⟩ := Finset.mem_sdiff.mp ha
      have hall := noBoundary_visits_all hclosed hconn h (List.mem_toFinset.mp ha1) ha2
      refine Finset.eq_empty_iff_forall_not_mem.mpr ?_
      intro u hu
      exact hall u (List.mem_toFinset.mp (hI.unvSub hu)) hu
  have htree := hI.tree
  rw [hemp, Finset.sdiff_empty] at htree
  exact treeInv_full hnd htree

theorem hkOuterStep_spanF (choiceO : Nat → Nat) {cells : List CellId}
    {s0 : MazeState} (hnd : cells.Nodup) (st : HKSt) (hx : hkDone st = false)
    (hI : HKSpan cells s0 st ∧ FullCover cells s0 st ∧ FrontWF cells st ∧
      (st.curr = none → NoBoundary cells s0 st)) :
    HKSpan cells s0 (hkOuterStep choiceO HKVariant.frontier st) ∧
      FullCover cells s0 (hkOuterStep choiceO HKVariant.frontier st) ∧
      FrontWF cells (hkOuterStep choiceO HKVariant.frontier st) ∧
      ((hkOuterStep choiceO HKVariant.frontier st).curr = none →
        NoBoundary cells s0 (hkOuterStep choiceO HKVariant.frontier st)) := by
  obtain ⟨hsp, hcov, hwf, _⟩ := hI
  have hcond : ¬(st.unvisited = ∅ ∨ st.curr = none) := by
    rw [hkDone] at hx
    simpa using hx
  rw [hkOuterStep.eq_def, if_neg hcond]
  obtain ⟨hsp2, hcov2, hwf2, hpost⟩ :=
    killF_span choiceO cells s0 hnd st hsp hcov hwf
  set stk := killF choiceO st with hstk
  have hfcov : ∀ v ∈ cells, v ∉ stk.unvisited → ∀ u ∈ s0.nbrs v,
      u ∈ stk.unvisited → (v, u) ∈ stk.frontier := by
    intro v hv hvnu u hu2 huu
    rcases hcov2 v hv hvnu u hu2 huu with hfr | hcu
    · exact hfr
    · rcases hpost with hp | hp | ⟨c, hcurr, hnb⟩
      · rw [hp] at huu
        exact absurd huu (Finset.not_mem_empty u)
      · rw [hp] at hcu
        exact absurd hcu (by simp)
      · have hvc : v = c := Option.some.inj (hcurr ▸ hcu).symm
        subst hvc
        exact absurd huu (hnb u hu2)
  exact huntF_span choiceO cells s0 hnd stk hsp2 hfcov hwf2

theorem hkOuterStep_spanS (choiceO : Nat → Nat) {cells : List CellId}
    {s0 : MazeState} (hnd : cells.Nodup) (hclosed : GridClosed s0 cells)
    (v : HKVariant) (hv : v ≠ HKVariant.frontier) (st : HKSt)
    (hx : hkDone st = false)
    (hI : HKSpan cells s0 st ∧ (st.curr = none → NoBoundaryU s0 st)) :
    HKSpan cells s0 (hkOuterStep choiceO v st) ∧
      ((hkOuterStep choiceO v st).curr = none →
        NoBoundaryU s0 (hkOuterStep choiceO v st)) := by
  obtain ⟨hsp, _⟩ := hI
  have hcond : ¬(st.unvisited = ∅ ∨ st.curr = none) := by
    rw [hkDone] at hx
    simpa using hx
  rw [hkOuterStep.eq_def, if_neg hcond]
  have hsp2 : HKSpan cells s0 (killNF choiceO st) :=
    killNF_span choiceO cells s0 hnd st hsp
  set stk := killNF choiceO st with hstk
  have hscan : ∀ (co : Nat → Nat),
      HKSpan cells s0 (huntScan co stk (finAsc stk.unvisited) stk.t) ∧
      ((huntScan co stk (finAsc stk.unvisited) stk.t).curr = none →
        NoBoundaryU s0 (huntScan co stk (finAsc stk.unvisited) stk.t)) := by
    intro co
    obtain ⟨hI2, hrec⟩ := huntScan_span co cells s0 hnd hclosed
      (finAsc stk.unvisited) stk stk.t hsp2 (fun c h => (mem_finAsc _ _).mp h)
    refine ⟨hI2, fun hnone => ?_⟩
    obtain ⟨hunv, hall⟩ := hrec hnone
    intro u hu nb hnb
    rw [hunv] at hu
    rw [hunv]
    exact hall u ((mem_finAsc _ _).mpr hu) nb hnb
  cases v with
  | frontier => exact absurd rfl hv
  | noFrontier =>
    rw [huntNF]
    exact hscan choiceO
  | noShuffle =>
    rw [huntNS]
    exact hscan (fun _ => 0)

/-- A terminating hunt-and-kill run on a connected grid spans it, in any of
the three hunt variants. -/
theorem huntKill_spans {cells : List CellId} {s0 : MazeState} (choiceO : Nat → Nat)
    (v : HKVariant) {start : CellId} (fuel : Nat)
    (hf : Fresh s0) (hnd : cells.Nodup) (hclosed : GridClosed s0 cells)
    (hconn : GridConnected s0 cells) (hstart : start ∈ cells)
    (hsym : ∀ a b, b ∈ s0.nbrs a → a ∈ s0.nbrs b)
    (hdone : hkDone (huntKillOn choiceO v s0 cells start fuel) = true) :
    OneComponent (huntKillOn choiceO v s0 cells start fuel).s cells ∧
      edgeSum (huntKillOn choiceO v s0 cells start fuel).s cells =
        2 * (cells.length - 1) ∧
      undirCount (huntKillOn choiceO v s0 cells start fuel).s cells =
        cells.length - 1 := by
  set st := huntKillOn choiceO v s0 cells start fuel with hst
  have hsp0 : HKSpan cells s0 ⟨s0, cells.toFinset.erase start, [], some start, 0⟩ := by
    refine ⟨?_, Finset.erase_subset _ _, rfl, ?_⟩
    · show TreeInv cells s0 (cells.toFinset \ cells.toFinset.erase start)
      rw [sdiff_erase_single (List.mem_toFinset.mpr hstart)]
      exact TreeInv.single hf hstart
    · intro c hEq
      have hce : c = start := (Option.some.inj hEq).symm
      rw [hce]
      exact ⟨hstart, Finset.not_mem_erase _ _⟩
  have hend : HKSpan cells s0 st ∧ (st.unvisited = ∅ ∨ NoBoundary cells s0 st) := by
    cases hvf : v with
    | frontier =>
      have hInv : HKSpan cells s0 st ∧ FullCover cells s0 st ∧ FrontWF cells st ∧
          (st.curr = none → NoBoundary cells s0 st) := by
        rw [hst, hvf, huntKillOn]
        refine loopIter_inv _ _ _ (fun x h hh => hkOuterStep_spanF choiceO hnd x hh h)
          fuel _ ⟨hsp0, ?_, ?_, ?_⟩
        · intro v2 hv2 hvnu u hu2 huu
          refine Or.inr ?_
          have hv2s : v2 = start := by
            by_contra hne
            exact hvnu (Finset.mem_erase.mpr ⟨hne, List.mem_toFinset.mpr hv2⟩)
          rw [hv2s]
        · intro pr hpr
          exact absurd hpr (List.not_mem_nil pr)
        · intro habs
          exact absurd habs (by simp)
      rw [hkDone] at hdone
      rcases of_decide_eq_true hdone with hu | hc
      · exact ⟨hInv.1, Or.inl hu⟩
      · exact ⟨hInv.1, Or.inr (hInv.2.2.2 hc)⟩
    | noFrontier =>
      have hInv : HKSpan cells s0 st ∧ (st.curr = none → NoBoundaryU s0 st) := by
        rw [hst, hvf, huntKillOn]
        refine loopIter_inv _ _ _
          (fun x h hh => hkOuterStep_spanS choiceO hnd hclosed _ (by simp) x hh h)
          fuel _ ⟨hsp0, fun habs => absurd habs (by simp)⟩
      rw [hkDone] at hdone
      rcases of_decide_eq_true hdone with hu | hc
      · exact ⟨hInv.1, Or.inl hu⟩
      · refine ⟨hInv.1, Or.inr ?_⟩
        have hnbU := hInv.2 hc
        intro v2 hv2 hvnu u hu2 huu
        exact hvnu (hnbU u huu v2 (hsym v2 u hu2))
    | noShuffle =>
      have hInv : HKSpan cells s0 st ∧ (st.curr = none → NoBoundaryU s0 st) := by
        rw [hst, hvf, huntKillOn]
        refine loopIter_inv _ _ _
          (fun x h hh => hkOuterStep_spanS choiceO hnd hclosed _ (by simp) x hh h)
          fuel _ ⟨hsp0, fun habs => absurd habs (by simp)⟩
      rw [hkDone] at hdone
      rcases of_decide_eq_true hdone with hu | hc
      · exact ⟨hInv.1, Or.inl hu⟩
      · refine ⟨hInv.1, Or.inr ?_⟩
        have hnbU := hInv.2 hc
        intro v2 hv2 hvnu u hu2 huu
        exact hvnu (hnbU u huu v2 (hsym v2 u hu2))
  exact hkSpan_done_spans hnd hclosed hconn hend.1 hend.2

/-- The claim's spanning-tree outcome: one passage component and `v - 1`
undirected passages (each mutual pair counted once). -/
def SpanningTree (s : MazeState) (cells : List CellId) : Prop :=
  OneComponent s cells ∧ edgeSum s cells = 2 * (cells.length - 1) ∧
    undirCount s cells = cells.length - 1

theorem plusAdj : ∀ a ∈ plusCells, a = 0 ∨ (0 ∈ plusNbrs a ∧ a ∈ plusNbrs 0) := by
  decide

theorem plusConnected : GridConnected plusMaze plusCells := by
  intro a ha b hb
  have h0a : Relation.ReflTransGen (adjacent plusMaze) a 0 := by
    rcases plusAdj a ha with rfl | ⟨h1, _⟩
    · exact Relation.ReflTransGen.refl
    · exact Relation.ReflTransGen.single h1
  have h0b : Relation.ReflTransGen (adjacent plusMaze) 0 b := by
    rcases plusAdj b hb with rfl | ⟨_, h2⟩
    · exact Relation.ReflTransGen.refl
    · exact Relation.ReflTransGen.single h2
  exact h0a.trans h0b

/-- C2 counterexample: on the connected five-cell plus grid (center 0 with
four leaves), the bounded-fan-out binary variant rooted at the center runs to
completion (its queue drains) but carves only 2 of the required 4 undirected
passages and leaves the maze disconnected: the claim's "every carving
algorithm" includes the binary variants, and for them the spanning-tree
property is false. -/
theorem spanning_tree_C2_counterexample :
    Fresh plusMaze ∧ plusCells.Nodup ∧ GridClosed plusMaze plusCells ∧
    GridConnected plusMaze plusCells ∧ (0 : CellId) ∈ plusCells ∧
    Shuffler idShuffle ∧
    engDone (binarySearchOn 0 stackPick idShuffle plusMaze 20) = true ∧
    undirCount (binarySearchOn 0 stackPick idShuffle plusMaze 20).s plusCells = 2 ∧
    plusCells.length - 1 = 4 ∧
    ¬ OneComponent (binarySearchOn 0 stackPick idShuffle plusMaze 20).s plusCells := by
  refine ⟨fun _ => rfl, by decide,
    (by decide : ∀ c ∈ plusCells, ∀ d ∈ plusMaze.nbrs c, d ∈ plusCells),
    plusConnected, by decide,
    fun _ l => List.Perm.refl l, by decide, by decide, by decide, ?_⟩
  intro hone
  have hconn : PassConn (binarySearchOn 0 stackPick idShuffle plusMaze 20).s 1 0 :=
    hone.2 1 (by decide) 0 (by decide)
  have hpass : passages (binarySearchOn 0 stackPick idShuffle plusMaze 20).s 1 = [] := by
    decide
  rcases Relation.ReflTransGen.cases_head hconn with heq | ⟨c, hstep, _⟩
  · exact absurd heq (by decide)
  · rw [plinked, hpass] at hstep
    exact absurd hstep (List.not_mem_nil c)

/-- C2 (amended): on a connected grid, every carving algorithm of sections
4.3-4.7 other than the bounded-fan-out binary variants - the generic search
engine under any queue discipline, Wilson, the three Aldous-Broder variants,
hunt-and-kill in all three hunt modes, and the hybrid - leaves, on every
terminating run, exactly one component and exactly `v - 1` undirected
passages. -/
theorem spanning_tree_C2_amended {cells : List CellId} {s0 : MazeState}
    {start : CellId} (hf : Fresh s0) (hnd : cells.Nodup)
    (hclosed : GridClosed s0 cells) (hconn : GridConnected s0 cells)
    (hstart : start ∈ cells)
    (hsym : ∀ a b, b ∈ s0.nbrs a → a ∈ s0.nbrs b) :
    (∀ (pick : Nat → List Entry → Nat) (shuf : Nat → List CellId → List CellId)
        (fuel : Nat), Shuffler shuf →
        engDone (spanningSearchOn pick shuf s0 start fuel) = true →
        SpanningTree (spanningSearchOn pick shuf s0 start fuel).s cells) ∧
    (∀ (choiceO : Nat → Nat → Nat) (wfuel : Nat → Nat) (fuel : Nat),
        wilsonDone (wilsonOn choiceO wfuel s0 cells start fuel) = true →
        SpanningTree (wilsonOn choiceO wfuel s0 cells start fuel).s cells) ∧
    (∀ (choiceO : Nat → Nat) (fuel : Nat) (s' : MazeState)
        (tbl : List (CellId × Option CellId)),
        abPlain s0 choiceO cells start fuel = some (s', tbl) →
        SpanningTree s' cells) ∧
    (∀ (choiceO : Nat → Nat) (fuel : Nat) (s' : MazeState)
        (tbl : List (CellId × Option CellId)),
        abVanilla s0 choiceO cells start fuel = some (s', tbl) →
        SpanningTree s' cells) ∧
    (∀ (choiceO : Nat → Nat) (maxIts : Option Nat) (minCells : ℚ) (fuel : Nat),
        (abBlueberry s0 choiceO cells start maxIts minCells fuel).unvisited = ∅ →
        SpanningTree (abBlueberry s0 choiceO cells start maxIts minCells fuel).s cells) ∧
    (∀ (choiceO : Nat → Nat) (v : HKVariant) (fuel : Nat),
        hkDone (huntKillOn choiceO v s0 cells start fuel) = true →
        SpanningTree (huntKillOn choiceO v s0 cells start fuel).s cells) ∧
    (∀ (choiceAB : Nat → Nat) (choiceW : Nat → Nat → Nat) (wfuel : Nat → Nat)
        (density : ℚ) (fuel1 fuel2 : Nat) (wst : WilsonSt),
        hybridABWOn choiceAB choiceW wfuel s0 cells start density fuel1 fuel2 =
          some wst →
        wilsonDone wst = true → SpanningTree wst.s cells) := by
  refine ⟨?_, ?_, ?_, ?_, ?_, ?_, ?_⟩
  · intro pick shuf fuel hsh hdone
    exact engine_spans pick shuf hsh hf hnd hclosed hconn hstart fuel hdone
  · intro choiceO wfuel fuel hdone
    exact wilsonOn_spans hclosed hnd hf choiceO wfuel fuel hstart hdone
  · intro choiceO fuel s' tbl hrun
    exact abPlain_spans hclosed hnd hf hstart hrun
  · intro choiceO fuel s' tbl hrun
    exact abVanilla_spans hclosed hnd hf hstart hrun
  · intro choiceO maxIts minCells fuel hemp
    exact blueberry_spans hclosed hnd hf choiceO maxIts minCells fuel hstart hemp
  · intro choiceO v fuel hdone
    exact huntKill_spans choiceO v fuel hf hnd hclosed hconn hstart hsym hdone
  · intro choiceAB choiceW wfuel density fuel1 fuel2 wst hrun hdone
    exact hybrid_spans hclosed hnd hf choiceAB choiceW wfuel density fuel1 fuel2
      hstart hrun hdone

theorem spanning_tree_C2_amended_witness :
    Fresh twoIslandMaze ∧ ([0] : List CellId).Nodup ∧
    GridClosed twoIslandMaze [0] ∧ GridConnected twoIslandMaze [0] ∧
    (0 : CellId) ∈ [0] ∧
    (∀ a b, b ∈ twoIslandMaze.nbrs a → a ∈ twoIslandMaze.nbrs b) ∧
    ((∀ (pick : Nat → List Entry → Nat) (shuf : Nat → List CellId → List CellId)
        (fuel : Nat), Shuffler shuf →
        engDone (spanningSearchOn pick shuf twoIslandMaze 0 fuel) = true →
        SpanningTree (spanningSearchOn pick shuf twoIslandMaze 0 fuel).s [0]) ∧
    (∀ (choiceO : Nat → Nat → Nat) (wfuel : Nat → Nat) (fuel : Nat),
        wilsonDone (wilsonOn choiceO wfuel twoIslandMaze [0] 0 fuel) = true →
        SpanningTree (wilsonOn choiceO wfuel twoIslandMaze [0] 0 fuel).s [0]) ∧
    (∀ (choiceO : Nat → Nat) (fuel : Nat) (s' : MazeState)
        (tbl : List (CellId × Option CellId)),
        abPlain twoIslandMaze choiceO [0] 0 fuel = some (s', tbl) →
        SpanningTree s' [0]) ∧
    (∀ (choiceO : Nat → Nat) (fuel : Nat) (s' : MazeState)
        (tbl : List (CellId × Option CellId)),
        abVanilla twoIslandMaze choiceO [0] 0 fuel = some (s', tbl) →
        SpanningTree s' [0]) ∧
    (∀ (choiceO : Nat → Nat) (maxIts : Option Nat) (minCells : ℚ) (fuel : Nat),
        (abBlueberry twoIslandMaze choiceO [0] 0 maxIts minCells fuel).unvisited = ∅ →
        SpanningTree (abBlueberry twoIslandMaze choiceO [0] 0 maxIts minCells fuel).s [0]) ∧
    (∀ (choiceO : Nat → Nat) (v : HKVariant) (fuel : Nat),
        hkDone (huntKillOn choiceO v twoIslandMaze [0] 0 fuel) = true →
        SpanningTree (huntKillOn choiceO v twoIslandMaze [0] 0 fuel).s [0]) ∧
    (∀ (choiceAB : Nat → Nat) (choiceW : Nat → Nat → Nat) (wfuel : Nat → Nat)
        (density : ℚ) (fuel1 fuel2 : Nat) (wst : WilsonSt),
        hybridABWOn choiceAB choiceW wfuel twoIslandMaze [0] 0 density fuel1 fuel2 =
          some wst →
        wilsonDone wst = true → SpanningTree wst.s [0])) :=
  ⟨fun _ => rfl, by decide,
    fun c _ d hd => absurd hd (List.not_mem_nil d),
    fun a ha b hb => by
      rw [List.mem_singleton.mp ha, List.mem_singleton.mp hb],
    by decide,
    fun a b h => absurd h (List.not_mem_nil b),
    spanning_tree_C2_amended (fun _ => rfl) (by decide)
      (fun c _ d hd => absurd hd (List.not_mem_nil d))
      (fun a ha b hb => by
        rw [List.mem_singleton.mp ha, List.mem_singleton.mp hb])
      (by decide)
      (fun a b h => absurd h (List.not_mem_nil b))⟩

/-! ## Surface grid counting (cylinder, torus, Moebius) -/

theorem mem_insertNew {α : Type} [DecidableEq α] (l : List α) (a x : α) :
    x ∈ insertNew l a ↔ x ∈ l ∨ x = a := by
  rw [insertNew]
  split
  · rename_i h
    constructor
    · exact Or.inl
    · rintro (hx | rfl)
      · exact hx
      · exact h
  · simp

theorem nodup_insertNew {α : Type} [DecidableEq α] (l : List α) (a : α) (h : l.Nodup) :
    (insertNew l a).Nodup := by
  rw [insertNew]
  split
  · exact h
  · rename_i ha
    exact List.nodup_append.mpr ⟨h, List.nodup_singleton a, by simpa using ha⟩

theorem foldl_insertNew_mem {α : Type} [DecidableEq α] :
    ∀ (l init : List α) (x : α), x ∈ l.foldl insertNew init ↔ x ∈ init ∨ x ∈ l := by
  intro l
  induction l with
  | nil => simp
  | cons a t ih =>
    intro init x
    rw [List.foldl_cons, ih, mem_insertNew]
    constructor
    · rintro ((hx | rfl) | hx)
      · exact Or.inl hx
      · exact Or.inr (List.mem_cons_self _ _)
      · exact Or.inr (List.mem_cons_of_mem _ hx)
    · rintro (hx | hx)
      · exact Or.inl (Or.inl hx)
      · rcases List.mem_cons.mp hx with rfl | hx
        · exact Or.inl (Or.inr rfl)
        · exact Or.inr hx

theorem foldl_insertNew_nodup {α : Type} [DecidableEq α] :
    ∀ (l init : List α), init.Nodup → (l.foldl insertNew init).Nodup := by
  intro l
  induction l with
  | nil => intro init h; exact h
  | cons a t ih =>
    intro init h
    exact ih (insertNew init a) (nodup_insertNew init a h)

theorem length_foldl_insertNew {α : Type} [DecidableEq α] (l : List α) :
    (l.foldl insertNew []).length = l.toFinset.card := by
  have hnd : (l.foldl insertNew []).Nodup := foldl_insertNew_nodup l [] List.nodup_nil
  have hfs : (l.foldl insertNew []).toFinset = l.toFinset := by
    ext x
    rw [List.mem_toFinset, List.mem_toFinset, foldl_insertNew_mem]
    simp
  rw [← List.toFinset_card_of_nodup hnd, hfs]

theorem foldl_insertNew_inner {α β : Type} [DecidableEq α] (g : β → List α) :
    ∀ (l : List β) (init : List α),
      l.foldl (fun acc p => (g p).foldl insertNew acc) init =
        (l.flatMap g).foldl insertNew init := by
  intro l
  induction l with
  | nil => intro init; rfl
  | cons a t ih =>
    intro init
    rw [List.foldl_cons, ih, List.flatMap_cons, List.foldl_append]

/-- The raw per-cell wall-key list (with repetitions): `wallsList` is its
first-occurrence deduplication. -/
def wallFlat (rows cols : Nat) (tf : Transform) : List ((Int × Int) × (Int × Int)) :=
  (cellsIdx rows cols).flatMap fun p => wallKeys tf p.1 p.2

/-- The raw node-key list (with repetitions): `nodesList` is its
first-occurrence deduplication. -/
def nodeFlat (rows cols : Nat) (tf : Transform) : List (Int × Int) :=
  ((List.range (rows+1)).flatMap fun i => (List.range (cols+1)).map fun j =>
    ((i : Nat), (j : Nat))).map fun p => tf p.2 p.1

theorem nodesList_eq (rows cols : Nat) (tf : Transform) :
    nodesList rows cols tf = (nodeFlat rows cols tf).foldl insertNew [] := by
  rw [nodesList, nodeFlat, List.foldl_map]

theorem wallsList_eq (rows cols : Nat) (tf : Transform) :
    wallsList rows cols tf = (wallFlat rows cols tf).foldl insertNew [] := by
  rw [wallsList, wallFlat, foldl_insertNew_inner]

theorem gridV_card (rows cols : Nat) (tf : Transform) :
    gridV rows cols tf = (nodeFlat rows cols tf).toFinset.card := by
  rw [gridV, nodesList_eq, length_foldl_insertNew]

theorem gridE_card (rows cols : Nat) (tf : Transform) :
    gridE rows cols tf = (wallFlat rows cols tf).toFinset.card := by
  rw [gridE, wallsList_eq, length_foldl_insertNew]

theorem mem_nodeFlat (rows cols : Nat) (tf : Transform) (x : Int × Int) :
    x ∈ nodeFlat rows cols tf ↔
      ∃ i ≤ rows, ∃ j ≤ cols, tf (j : Int) (i : Int) = x := by
  rw [nodeFlat]
  simp only [List.mem_map, List.mem_flatMap, List.mem_range]
  constructor
  · rintro ⟨p, ⟨i, hi, q, hq, rfl⟩, hx⟩
    exact ⟨i, by omega, q, by omega, hx⟩
  · rintro ⟨i, hi, j, hj, hx⟩
    exact ⟨(i, j), ⟨i, by omega, j, by omega, rfl⟩, hx⟩

theorem mem_cellsIdx (rows cols : Nat) (p : Nat × Nat) :
    p ∈ cellsIdx rows cols ↔ p.1 < rows ∧ p.2 < cols := by
  rw [cellsIdx]
  simp only [List.mem_flatMap, List.mem_map, List.mem_range]
  constructor
  · rintro ⟨i, hi, j, hj, rfl⟩
    exact ⟨hi, hj⟩
  · intro ⟨h1, h2⟩
    exact ⟨p.1, h1, p.2, h2, rfl⟩

theorem mem_wallFlat (rows cols : Nat) (tf : Transform) (x : (Int × Int) × (Int × Int)) :
    x ∈ wallFlat rows cols tf ↔
      ∃ i < rows, ∃ j < cols, x ∈ wallKeys tf i j := by
  rw [wallFlat]
  simp only [List.mem_flatMap]
  constructor
  · rintro ⟨p, hp, hx⟩
    obtain ⟨h1, h2⟩ := (mem_cellsIdx rows cols p).mp hp
    exact ⟨p.1, h1, p.2, h2, hx⟩
  · rintro ⟨i, hi, j, hj, hx⟩
    exact ⟨(i, j), (mem_cellsIdx rows cols (i, j)).mpr ⟨hi, hj⟩, hx⟩

theorem gridF_eq (rows cols : Nat) : gridF rows cols = rows * cols := by
  rw [gridF, cellsIdx]
  rw [List.length_flatMap]
  have h : List.map (List.length ∘ fun i =>
      List.map (fun j => ((i : Nat), (j : Nat))) (List.range cols)) (List.range rows) =
      List.replicate rows cols := by
    refine List.eq_replicate.mpr ⟨by simp, ?_⟩
    intro x hx
    obtain ⟨i, _, hix⟩ := List.mem_map.mp hx
    rw [← hix]
    simp
  rw [h, List.sum_replicate, smul_eq_mul]

theorem wallKey_lt {a b : Int × Int} (h : a.1 < b.1) : wallKey a b = (a, b) := by
  rw [wallKey, if_pos]
  simp [coordLe, h]

theorem wallKey_gt {a b : Int × Int} (h : b.1 < a.1) : wallKey a b = (b, a) := by
  rw [wallKey, if_neg]
  simp only [coordLe, Bool.or_eq_true, Bool.and_eq_true, decide_eq_true_eq]
  omega

theorem wallKey_eq_le {a b : Int × Int} (h1 : a.1 = b.1) (h2 : a.2 ≤ b.2) :
    wallKey a b = (a, b) := by
  rw [wallKey, if_pos]
  simp [coordLe, h1, h2]

theorem wallKey_eq_gt {a b : Int × Int} (h1 : a.1 = b.1) (h2 : b.2 < a.2) :
    wallKey a b = (b, a) := by
  rw [wallKey, if_neg]
  simp only [coordLe, Bool.or_eq_true, Bool.and_eq_true, decide_eq_true_eq]
  omega

theorem wallKey_comm (a b : Int × Int) : wallKey a b = wallKey b a := by
  rcases lt_trichotomy a.1 b.1 with h | h | h
  · rw [wallKey_lt h, wallKey_gt h]
  · rcases lt_trichotomy a.2 b.2 with h2 | h2 | h2
    · rw [wallKey_eq_le h (le_of_lt h2), wallKey_eq_gt h.symm h2]
    · have hab : a = b := by
        rcases a with ⟨a1, a2⟩
        rcases b with ⟨b1, b2⟩
        simp_all
      rw [hab]
    · rw [wallKey_eq_gt h h2, wallKey_eq_le h.symm (le_of_lt h2)]
  · rw [wallKey_gt h, wallKey_lt h]

theorem wallKey_cases (a b : Int × Int) : wallKey a b = (a, b) ∨ wallKey a b = (b, a) := by
  rw [wallKey]
  split
  · exact Or.inl rfl
  · exact Or.inr rfl

theorem natPair_injective :
    Function.Injective (fun p : Nat × Nat => ((p.2 : Int), (p.1 : Int))) := by
  intro p q h
  rcases p with ⟨p1, p2⟩
  rcases q with ⟨q1, q2⟩
  simp only [Prod.mk.injEq, Nat.cast_inj] at h
  simp [h.1, h.2]

theorem cylinder_gridV (m n : Nat) (hn : 1 ≤ n) :
    gridV m n (cylinderTransform n) = (m + 1) * n := by
  rw [gridV_card]
  have hset : (nodeFlat m n (cylinderTransform n)).toFinset =
      Finset.image (fun p : Nat × Nat => ((p.2 : Int), (p.1 : Int)))
        (Finset.range (m+1) ×ˢ Finset.range n) := by
    ext x
    rw [List.mem_toFinset, mem_nodeFlat, Finset.mem_image]
    constructor
    · rintro ⟨i, hi, j, hj, rfl⟩
      refine ⟨(i, j % n), ?_, ?_⟩
      · rw [Finset.mem_product, Finset.mem_range, Finset.mem_range]
        exact ⟨by omega, Nat.mod_lt _ (by omega)⟩
      · show ((((j % n : Nat)) : Int), (i : Int)) = cylinderTransform n (j : Int) (i : Int)
        simp only [cylinderTransform]
        rw [Int.natCast_mod]
    · rintro ⟨⟨i, j⟩, hp, rfl⟩
      rw [Finset.mem_product, Finset.mem_range, Finset.mem_range] at hp
      refine ⟨i, by omega, j, by omega, ?_⟩
      simp only [cylinderTransform]
      rw [Int.emod_eq_of_lt (Int.natCast_nonneg j) (by exact_mod_cast hp.2)]
  rw [hset, Finset.card_image_of_injective _ natPair_injective, Finset.card_product,
    Finset.card_range, Finset.card_range]

theorem torus_gridV (m n : Nat) (hm : 1 ≤ m) (hn : 1 ≤ n) :
    gridV m n (torusTransform m n) = m * n := by
  rw [gridV_card]
  have hset : (nodeFlat m n (torusTransform m n)).toFinset =
      Finset.image (fun p : Nat × Nat => ((p.2 : Int), (p.1 : Int)))
        (Finset.range m ×ˢ Finset.range n) := by
    ext x
    rw [List.mem_toFinset, mem_nodeFlat, Finset.mem_image]
    constructor
    · rintro ⟨i, hi, j, hj, rfl⟩
      refine ⟨(i % m, j % n), ?_, ?_⟩
      · rw [Finset.mem_product, Finset.mem_range, Finset.mem_range]
        exact ⟨Nat.mod_lt _ (by omega), Nat.mod_lt _ (by omega)⟩
      · show ((((j % n : Nat)) : Int), (((i % m : Nat)) : Int)) =
          torusTransform m n (j : Int) (i : Int)
        simp only [torusTransform]
        rw [Int.natCast_mod, Int.natCast_mod]
    · rintro ⟨⟨i, j⟩, hp, rfl⟩
      rw [Finset.mem_product, Finset.mem_range, Finset.mem_range] at hp
      refine ⟨i, by omega, j, by omega, ?_⟩
      simp only [torusTransform]
      rw [Int.emod_eq_of_lt (Int.natCast_nonneg j) (by exact_mod_cast hp.2),
        Int.emod_eq_of_lt (Int.natCast_nonneg i) (by exact_mod_cast hp.1)]
  rw [hset, Finset.card_image_of_injective _ natPair_injective, Finset.card_product,
    Finset.card_range, Finset.card_range]

theorem moebiusTransform_lt (m n : Nat) {j : Nat} (hj : j < n) (y : Int) :
    moebiusTransform m n (j : Int) y = ((j : Int), y) := by
  have h1 : (j : Int) / (n : Int) = 0 :=
    Int.ediv_eq_zero_of_lt (Int.natCast_nonneg j) (by exact_mod_cast hj)
  have h2 : (j : Int) % (n : Int) = (j : Int) :=
    Int.emod_eq_of_lt (Int.natCast_nonneg j) (by exact_mod_cast hj)
  simp [moebiusTransform, h1, h2]

theorem moebiusTransform_seam (m n : Nat) (hn : 1 ≤ n) (y : Int) :
    moebiusTransform m n (n : Int) y = (0, (m : Int) - y - 1) := by
  have hne : (n : Int) ≠ 0 := by exact_mod_cast (by omega : n ≠ 0)
  have h1 : (n : Int) / (n : Int) = 1 := Int.ediv_self hne
  have h2 : (n : Int) % (n : Int) = 0 := Int.emod_self
  simp [moebiusTransform, h1, h2]

theorem moebius_gridV (m n : Nat) (hn : 1 ≤ n) :
    gridV m n (moebiusTransform m n) = (m + 1) * n + 1 := by
  rw [gridV_card]
  have hset : (nodeFlat m n (moebiusTransform m n)).toFinset =
      Finset.image (fun p : Nat × Nat => ((p.2 : Int), (p.1 : Int)))
        (Finset.range (m+1) ×ˢ Finset.range n) ∪ {((0 : Int), (-1 : Int))} := by
    ext x
    rw [List.mem_toFinset, mem_nodeFlat, Finset.mem_union, Finset.mem_image,
      Finset.mem_singleton]
    constructor
    · rintro ⟨i, hi, j, hj, rfl⟩
      by_cases hjn : j < n
      · refine Or.inl ⟨(i, j), ?_, ?_⟩
        · rw [Finset.mem_product, Finset.mem_range, Finset.mem_range]
          exact ⟨by omega, hjn⟩
        · rw [moebiusTransform_lt m n hjn]
      · have hje : j = n := by omega
        rw [hje, moebiusTransform_seam m n (by omega)]
        by_cases him : i < m
        · refine Or.inl ⟨(m - i - 1, 0), ?_, ?_⟩
          · rw [Finset.mem_product, Finset.mem_range, Finset.mem_range]
            exact ⟨by omega, by omega⟩
          · show (((0 : Nat) : Int), ((m - i - 1 : Nat) : Int)) = _
            have hc : ((m - i - 1 : Nat) : Int) = (m : Int) - (i : Int) - 1 := by omega
            rw [hc]
            simp
        · have hie : i = m := by omega
          refine Or.inr ?_
          have h3 : (m : Int) - (i : Int) - 1 = -1 := by omega
          rw [h3]
    · rintro (⟨⟨i, j⟩, hp, rfl⟩ | rfl)
      · rw [Finset.mem_product, Finset.mem_range, Finset.mem_range] at hp
        refine ⟨i, by omega, j, by omega, ?_⟩
        rw [moebiusTransform_lt m n hp.2]
      · refine ⟨m, le_refl m, n, le_refl n, ?_⟩
        rw [moebiusTransform_seam m n hn]
        have : (m : Int) - (m : Int) - 1 = -1 := by omega
        rw [this]
  rw [hset]
  have hdisj : Disjoint
      (Finset.image (fun p : Nat × Nat => ((p.2 : Int), (p.1 : Int)))
        (Finset.range (m+1) ×ˢ Finset.range n)) {((0 : Int), (-1 : Int))} := by
    rw [Finset.disjoint_singleton_right]
    intro hmem
    obtain ⟨⟨i, j⟩, _, hij⟩ := Finset.mem_image.mp hmem
    have := congrArg Prod.snd hij
    simp only at this
    omega
  rw [Finset.card_union_of_disjoint hdisj,
    Finset.card_image_of_injective _ natPair_injective, Finset.card_product,
    Finset.card_range, Finset.card_range, Finset.card_singleton]

/-- The horizontal wall of a column-wrapped grid between nodes `(j, y)` and
`((j+1) mod n, y)`. -/
def cylH (n : Nat) (p : Nat × Nat) : (Int × Int) × (Int × Int) :=
  wallKey ((p.2 : Int), (p.1 : Int)) ((((p.2 : Int) + 1) % (n : Int)), (p.1 : Int))

/-- The vertical wall between nodes `(j, y)` and `(j, y+1)` (already in
canonical order). -/
def vWall (p : Nat × Nat) : (Int × Int) × (Int × Int) :=
  (((p.2 : Int), (p.1 : Int)), ((p.2 : Int), (p.1 : Int) + 1))

theorem cyl_wallKeys_eq (n : Nat) (i j : Nat) (hj : j < n) :
    wallKeys (cylinderTransform n) i j =
      [cylH n (i, j), vWall (i, (j+1) % n), cylH n (i+1, j), vWall (i, j)] := by
  have hj' : ((j : Int)) % (n : Int) = (j : Int) :=
    Int.emod_eq_of_lt (Int.natCast_nonneg j) (by exact_mod_cast hj)
  simp only [wallKeys, cylinderTransform, cylH, vWall]
  push_cast [hj']
  have h2 : wallKey (((j : Int) + 1) % (n : Int), (i : Int))
      (((j : Int) + 1) % (n : Int), (i : Int) + 1) =
      ((((j : Int) + 1) % (n : Int), (i : Int)), (((j : Int) + 1) % (n : Int), (i : Int) + 1)) :=
    wallKey_eq_le rfl (by omega)
  have h3 : wallKey (((j : Int) + 1) % (n : Int), (i : Int) + 1) ((j : Int), (i : Int) + 1) =
      wallKey ((j : Int), (i : Int) + 1) (((j : Int) + 1) % (n : Int), (i : Int) + 1) :=
    wallKey_comm _ _
  have h4 : wallKey ((j : Int), (i : Int) + 1) ((j : Int), (i : Int)) =
      (((j : Int), (i : Int)), ((j : Int), (i : Int) + 1)) :=
    wallKey_eq_gt rfl (by omega)
  rw [h2, h3, h4]

theorem cylH_eval_lt (n : Nat) {j : Nat} (hj : j + 1 < n) (y : Nat) :
    cylH n (y, j) = (((j : Int), (y : Int)), ((j : Int) + 1, (y : Int))) := by
  rw [cylH]
  have h : ((j : Int) + 1) % (n : Int) = (j : Int) + 1 :=
    Int.emod_eq_of_lt (by omega) (by exact_mod_cast hj)
  rw [h, wallKey_lt (by simp only []; omega)]

theorem cylH_eval_seam (n : Nat) (hn : 2 ≤ n) (y : Nat) :
    cylH n (y, n - 1) = (((0 : Int), (y : Int)), (((n - 1 : Nat) : Int), (y : Int))) := by
  rw [cylH]
  have h : (((n - 1 : Nat) : Int) + 1) % (n : Int) = 0 := by
    have h1 : ((n - 1 : Nat) : Int) + 1 = (n : Int) := by omega
    rw [h1, Int.emod_self]
  rw [h, wallKey_gt (by simp only []; omega)]

theorem vWall_injective : Function.Injective vWall := by
  intro p q h
  rcases p with ⟨p1, p2⟩
  rcases q with ⟨q1, q2⟩
  simp only [vWall, Prod.mk.injEq] at h
  have h1 : p1 = q1 := by exact_mod_cast h.1.2
  have h2 : p2 = q2 := by exact_mod_cast h.1.1
  simp [h1, h2]

theorem cylH_injOn (m n : Nat) (hn : 3 ≤ n) :
    Set.InjOn (cylH n) ↑(Finset.range (m+1) ×ˢ Finset.range n) := by
  intro p hp q hq h
  rcases p with ⟨py, pj⟩
  rcases q with ⟨qy, qj⟩
  simp only [Finset.coe_product, Set.mem_prod, Finset.mem_coe, Finset.mem_range] at hp hq
  by_cases hpj : pj + 1 < n
  · by_cases hqj : qj + 1 < n
    · rw [cylH_eval_lt n hpj py, cylH_eval_lt n hqj qy] at h
      simp only [Prod.mk.injEq] at h
      have : pj = qj ∧ py = qy := by
        constructor
        · exact_mod_cast h.1.1
        · exact_mod_cast h.1.2
      simp [this.1, this.2]
    · have hqe : qj = n - 1 := by omega
      rw [cylH_eval_lt n hpj py, hqe, cylH_eval_seam n (by omega) qy] at h
      simp only [Prod.mk.injEq] at h
      have h1 : (pj : Int) = 0 := h.1.1
      have h2 : (pj : Int) + 1 = ((n - 1 : Nat) : Int) := h.2.1
      omega
  · have hpe : pj = n - 1 := by omega
    by_cases hqj : qj + 1 < n
    · rw [hpe, cylH_eval_seam n (by omega) py, cylH_eval_lt n hqj qy] at h
      simp only [Prod.mk.injEq] at h
      have h1 : (0 : Int) = (qj : Int) := h.1.1
      have h2 : ((n - 1 : Nat) : Int) = (qj : Int) + 1 := h.2.1
      omega
    · have hqe : qj = n - 1 := by omega
      rw [hpe, cylH_eval_seam n (by omega) py, hqe, cylH_eval_seam n (by omega) qy] at h
      simp only [Prod.mk.injEq] at h
      have h1 : py = qy := by exact_mod_cast h.1.2
      simp [hpe, hqe, h1]

theorem cylH_fst_ne (n : Nat) (hn : 3 ≤ n) (y j : Nat) (hj : j < n) :
    (cylH n (y, j)).1.1 ≠ (cylH n (y, j)).2.1 := by
  by_cases hj1 : j + 1 < n
  · rw [cylH_eval_lt n hj1 y]
    simp only []
    omega
  · have hje : j = n - 1 := by omega
    rw [hje, cylH_eval_seam n (by omega) y]
    simp only []
    omega

theorem cylinder_gridE (m n : Nat) (hm : 1 ≤ m) (hn : 3 ≤ n) :
    gridE m n (cylinderTransform n) = m * n + (m + 1) * n := by
  rw [gridE_card]
  have hset : (wallFlat m n (cylinderTransform n)).toFinset =
      Finset.image (cylH n) (Finset.range (m+1) ×ˢ Finset.range n) ∪
      Finset.image vWall (Finset.range m ×ˢ Finset.range n) := by
    ext x
    rw [List.mem_toFinset, mem_wallFlat, Finset.mem_union, Finset.mem_image,
      Finset.mem_image]
    constructor
    · rintro ⟨i, hi, j, hj, hx⟩
      rw [cyl_wallKeys_eq n i j hj] at hx
      simp only [List.mem_cons, List.not_mem_nil, or_false] at hx
      rcases hx with rfl | rfl | rfl | rfl
      · exact Or.inl ⟨(i, j), by
          rw [Finset.mem_product, Finset.mem_range, Finset.mem_range]
          exact ⟨by omega, hj⟩, rfl⟩
      · exact Or.inr ⟨(i, (j+1) % n), by
          rw [Finset.mem_product, Finset.mem_range, Finset.mem_range]
          exact ⟨hi, Nat.mod_lt _ (by omega)⟩, rfl⟩
      · exact Or.inl ⟨(i+1, j), by
          rw [Finset.mem_product, Finset.mem_range, Finset.mem_range]
          exact ⟨by omega, hj⟩, rfl⟩
      · exact Or.inr ⟨(i, j), by
          rw [Finset.mem_product, Finset.mem_range, Finset.mem_range]
          exact ⟨hi, hj⟩, rfl⟩
    · rintro (⟨⟨y, j⟩, hp, rfl⟩ | ⟨⟨y, j⟩, hp, rfl⟩)
      · rw [Finset.mem_product, Finset.mem_range, Finset.mem_range] at hp
        by_cases hy : y < m
        · refine ⟨y, hy, j, hp.2, ?_⟩
          rw [cyl_wallKeys_eq n y j hp.2]
          exact List.mem_cons_self _ _
        · have hye : y = m := by omega
          refine ⟨y - 1, by omega, j, hp.2, ?_⟩
          rw [cyl_wallKeys_eq n (y-1) j hp.2]
          have hyr : y - 1 + 1 = y := by omega
          rw [hyr]
          exact List.mem_cons_of_mem _ (List.mem_cons_of_mem _ (List.mem_cons_self _ _))
      · rw [Finset.mem_product, Finset.mem_range, Finset.mem_range] at hp
        refine ⟨y, hp.1, j, hp.2, ?_⟩
        rw [cyl_wallKeys_eq n y j hp.2]
        exact List.mem_cons_of_mem _ (List.mem_cons_of_mem _
          (List.mem_cons_of_mem _ (List.mem_cons_self _ _)))
  have hdisj : Disjoint
      (Finset.image (cylH n) (Finset.range (m+1) ×ˢ Finset.range n))
      (Finset.image vWall (Finset.range m ×ˢ Finset.range n)) := by
    rw [Finset.disjoint_left]
    intro x hx1 hx2
    obtain ⟨⟨y, j⟩, hp, rfl⟩ := Finset.mem_image.mp hx1
    obtain ⟨⟨y2, j2⟩, _, hv⟩ := Finset.mem_image.mp hx2
    rw [Finset.mem_product, Finset.mem_range, Finset.mem_range] at hp
    have hne := cylH_fst_ne n hn y j hp.2
    rw [← hv] at hne
    exact hne rfl
  rw [hset, Finset.card_union_of_disjoint hdisj,
    Finset.card_image_of_injOn (cylH_injOn m n hn),
    Finset.card_image_of_injective _ vWall_injective, Finset.card_product,
    Finset.card_product]
  simp only [Finset.card_range]
  ring

/-- The vertical wall of a row-wrapped grid between nodes `(j, y)` and
`(j, (y+1) mod m)`. -/
def torV (m : Nat) (p : Nat × Nat) : (Int × Int) × (Int × Int) :=
  wallKey ((p.2 : Int), (p.1 : Int)) ((p.2 : Int), ((p.1 : Int) + 1) % (m : Int))

theorem torus_wallKeys_eq (m n : Nat) (i j : Nat) (hi : i < m) (hj : j < n) :
    wallKeys (torusTransform m n) i j =
      [cylH n (i, j), torV m (i, (j+1) % n), cylH n ((i+1) % m, j), torV m (i, j)] := by
  have hj' : ((j : Int)) % (n : Int) = (j : Int) :=
    Int.emod_eq_of_lt (Int.natCast_nonneg j) (by exact_mod_cast hj)
  have hi' : ((i : Int)) % (m : Int) = (i : Int) :=
    Int.emod_eq_of_lt (Int.natCast_nonneg i) (by exact_mod_cast hi)
  simp only [wallKeys, torusTransform, cylH, torV]
  push_cast [hj', hi']
  have h3 : wallKey (((j : Int) + 1) % (n : Int), ((i : Int) + 1) % (m : Int))
      ((j : Int), ((i : Int) + 1) % (m : Int)) =
      wallKey ((j : Int), ((i : Int) + 1) % (m : Int))
        (((j : Int) + 1) % (n : Int), ((i : Int) + 1) % (m : Int)) :=
    wallKey_comm _ _
  have h4 : wallKey ((j : Int), ((i : Int) + 1) % (m : Int)) ((j : Int), (i : Int)) =
      wallKey ((j : Int), (i : Int)) ((j : Int), ((i : Int) + 1) % (m : Int)) :=
    wallKey_comm _ _
  rw [h3, h4]

theorem torV_eval_lt (m : Nat) {i : Nat} (hi : i + 1 < m) (j : Nat) :
    torV m (i, j) = (((j : Int), (i : Int)), ((j : Int), (i : Int) + 1)) := by
  simp only [torV]
  have h : ((i : Int) + 1) % (m : Int) = (i : Int) + 1 :=
    Int.emod_eq_of_lt (by omega) (by exact_mod_cast hi)
  rw [h]
  exact wallKey_eq_le rfl (by omega)

theorem torV_eval_seam (m : Nat) (hm : 2 ≤ m) (j : Nat) :
    torV m (m - 1, j) = (((j : Int), (0 : Int)), ((j : Int), ((m - 1 : Nat) : Int))) := by
  simp only [torV]
  have h : (((m - 1 : Nat) : Int) + 1) % (m : Int) = 0 := by
    have h1 : ((m - 1 : Nat) : Int) + 1 = (m : Int) := by omega
    rw [h1, Int.emod_self]
  rw [h]
  exact wallKey_eq_gt rfl (by simp only []; omega)

theorem torV_injOn (m n : Nat) (hm : 3 ≤ m) :
    Set.InjOn (torV m) ↑(Finset.range m ×ˢ Finset.range n) := by
  intro p hp q hq h
  rcases p with ⟨py, pj⟩
  rcases q with ⟨qy, qj⟩
  simp only [Finset.coe_product, Set.mem_prod, Finset.mem_coe, Finset.mem_range] at hp hq
  by_cases hpy : py + 1 < m
  · by_cases hqy : qy + 1 < m
    · rw [torV_eval_lt m hpy pj, torV_eval_lt m hqy qj] at h
      simp only [Prod.mk.injEq] at h
      have h1 : pj = qj := by exact_mod_cast h.1.1
      have h2 : py = qy := by exact_mod_cast h.1.2
      simp [h1, h2]
    · have hqe : qy = m - 1 := by omega
      rw [torV_eval_lt m hpy pj, hqe, torV_eval_seam m (by omega) qj] at h
      simp only [Prod.mk.injEq] at h
      have h1 : (py : Int) = 0 := h.1.2
      have h2 : (py : Int) + 1 = ((m - 1 : Nat) : Int) := h.2.2
      omega
  · have hpe : py = m - 1 := by omega
    by_cases hqy : qy + 1 < m
    · rw [hpe, torV_eval_seam m (by omega) pj, torV_eval_lt m hqy qj] at h
      simp only [Prod.mk.injEq] at h
      have h1 : (0 : Int) = (qy : Int) := h.1.2
      have h2 : ((m - 1 : Nat) : Int) = (qy : Int) + 1 := h.2.2
      omega
    · have hqe : qy = m - 1 := by omega
      rw [hpe, torV_eval_seam m (by omega) pj, hqe, torV_eval_seam m (by omega) qj] at h
      simp only [Prod.mk.injEq] at h
      have h1 : pj = qj := by exact_mod_cast h.1.1
      simp [hpe, hqe, h1]

theorem torV_fst_eq (m : Nat) (p : Nat × Nat) : (torV m p).1.1 = (torV m p).2.1 := by
  rw [torV]
  rcases wallKey_cases ((p.2 : Int), (p.1 : Int))
    ((p.2 : Int), ((p.1 : Int) + 1) % (m : Int)) with h | h
  · rw [h]
  · rw [h]

theorem torus_gridE (m n : Nat) (hm : 3 ≤ m) (hn : 3 ≤ n) :
    gridE m n (torusTransform m n) = 2 * (m * n) := by
  rw [gridE_card]
  have hset : (wallFlat m n (torusTransform m n)).toFinset =
      Finset.image (cylH n) (Finset.range m ×ˢ Finset.range n) ∪
      Finset.image (torV m) (Finset.range m ×ˢ Finset.range n) := by
    ext x
    rw [List.mem_toFinset, mem_wallFlat, Finset.mem_union, Finset.mem_image,
      Finset.mem_image]
    constructor
    · rintro ⟨i, hi, j, hj, hx⟩
      rw [torus_wallKeys_eq m n i j hi hj] at hx
      simp only [List.mem_cons, List.not_mem_nil, or_false] at hx
      rcases hx with rfl | rfl | rfl | rfl
      · exact Or.inl ⟨(i, j), by
          rw [Finset.mem_product, Finset.mem_range, Finset.mem_range]
          exact ⟨hi, hj⟩, rfl⟩
      · exact Or.inr ⟨(i, (j+1) % n), by
          rw [Finset.mem_product, Finset.mem_range, Finset.mem_range]
          exact ⟨hi, Nat.mod_lt _ (by omega)⟩, rfl⟩
      · exact Or.inl ⟨((i+1) % m, j), by
          rw [Finset.mem_product, Finset.mem_range, Finset.mem_range]
          exact ⟨Nat.mod_lt _ (by omega), hj⟩, rfl⟩
      · exact Or.inr ⟨(i, j), by
          rw [Finset.mem_product, Finset.mem_range, Finset.mem_range]
          exact ⟨hi, hj⟩, rfl⟩
    · rintro (⟨⟨y, j⟩, hp, rfl⟩ | ⟨⟨y, j⟩, hp, rfl⟩)
      · rw [Finset.mem_product, Finset.mem_range, Finset.mem_range] at hp
        refine ⟨y, hp.1, j, hp.2, ?_⟩
        rw [torus_wallKeys_eq m n y j hp.1 hp.2]
        exact List.mem_cons_self _ _
      · rw [Finset.mem_product, Finset.mem_range, Finset.mem_range] at hp
        refine ⟨y, hp.1, j, hp.2, ?_⟩
        rw [torus_wallKeys_eq m n y j hp.1 hp.2]
        exact List.mem_cons_of_mem _ (List.mem_cons_of_mem _
          (List.mem_cons_of_mem _ (List.mem_cons_self _ _)))
  have hdisj : Disjoint
      (Finset.image (cylH n) (Finset.range m ×ˢ Finset.range n))
      (Finset.image (torV m) (Finset.range m ×ˢ Finset.range n)) := by
    rw [Finset.disjoint_left]
    intro x hx1 hx2
    obtain ⟨⟨y, j⟩, hp, rfl⟩ := Finset.mem_image.mp hx1
    obtain ⟨q, _, hv⟩ := Finset.mem_image.mp hx2
    rw [Finset.mem_product, Finset.mem_range, Finset.mem_range] at hp
    have hne := cylH_fst_ne n hn y j hp.2
    rw [← hv] at hne
    exact hne (torV_fst_eq m q)
  have hsub : (Finset.range m ×ˢ Finset.range n : Finset (Nat × Nat)) ⊆
      Finset.range (m+1) ×ˢ Finset.range n := by
    intro p hp
    rw [Finset.mem_product, Finset.mem_range, Finset.mem_range] at hp
    rw [Finset.mem_product, Finset.mem_range, Finset.mem_range]
    exact ⟨by omega, hp.2⟩
  rw [hset, Finset.card_union_of_disjoint hdisj,
    Finset.card_image_of_injOn ((cylH_injOn m n hn).mono (by exact_mod_cast hsub)),
    Finset.card_image_of_injOn (torV_injOn m n hm), Finset.card_product]
  simp only [Finset.card_range]
  ring

/-- A horizontal wall between nodes `(j, y)` and `(j+1, y)` (canonical
order). -/
def moebA (p : Nat × Nat) : (Int × Int) × (Int × Int) :=
  (((p.2 : Int), (p.1 : Int)), ((p.2 : Int) + 1, (p.1 : Int)))

/-- The seam wall of the Moebius grid between nodes `(0, m-i-1)` and
`(n-1, i)` (canonical order). -/
def moebB (m n : Nat) (i : Nat) : (Int × Int) × (Int × Int) :=
  (((0 : Int), (m : Int) - (i : Int) - 1), (((n - 1 : Nat) : Int), (i : Int)))

/-- The phantom wall of the Moebius grid between the phantom node `(0, -1)`
and `(0, 0)`. -/
def moebPh : (Int × Int) × (Int × Int) := (((0 : Int), (-1 : Int)), ((0 : Int), (0 : Int)))

theorem moebiusTransform_lt' (m n : Nat) {x : Int} (h0 : 0 ≤ x) (hx : x < (n : Int))
    (y : Int) : moebiusTransform m n x y = (x, y) := by
  have h1 : x / (n : Int) = 0 := Int.ediv_eq_zero_of_lt h0 hx
  have h2 : x % (n : Int) = x := Int.emod_eq_of_lt h0 hx
  simp [moebiusTransform, h1, h2]

theorem moeb_wallKeys_lt (m n : Nat) (i j : Nat) (hj : j + 1 < n) :
    wallKeys (moebiusTransform m n) i j =
      [moebA (i, j), vWall (i, j+1), moebA (i+1, j), vWall (i, j)] := by
  simp only [wallKeys, moebA, vWall]
  have e1 : ∀ y : Int, moebiusTransform m n (j : Int) y = ((j : Int), y) :=
    fun y => moebiusTransform_lt' m n (by omega) (by exact_mod_cast show j < n by omega) y
  have e2 : ∀ y : Int, moebiusTransform m n ((j : Int) + 1) y = ((j : Int) + 1, y) :=
    fun y => moebiusTransform_lt' m n (by omega) (by exact_mod_cast hj) y
  simp only [e1, e2]
  push_cast
  have h1 : wallKey ((j : Int), (i : Int)) ((j : Int) + 1, (i : Int)) =
      (((j : Int), (i : Int)), ((j : Int) + 1, (i : Int))) :=
    wallKey_lt (by simp only []; omega)
  have h2 : wallKey ((j : Int) + 1, (i : Int)) ((j : Int) + 1, (i : Int) + 1) =
      (((j : Int) + 1, (i : Int)), ((j : Int) + 1, (i : Int) + 1)) :=
    wallKey_eq_le rfl (by simp only []; omega)
  have h3 : wallKey ((j : Int) + 1, (i : Int) + 1) ((j : Int), (i : Int) + 1) =
      (((j : Int), (i : Int) + 1), ((j : Int) + 1, (i : Int) + 1)) :=
    wallKey_gt (by simp only []; omega)
  have h4 : wallKey ((j : Int), (i : Int) + 1) ((j : Int), (i : Int)) =
      (((j : Int), (i : Int)), ((j : Int), (i : Int) + 1)) :=
    wallKey_eq_gt rfl (by simp only []; omega)
  rw [h1, h2, h3, h4]

theorem moeb_wallKeys_seam (m n : Nat) (hn : 2 ≤ n) (i : Nat) :
    wallKeys (moebiusTransform m n) i (n-1) =
      [moebB m n i, (((0 : Int), (m : Int) - (i : Int) - 2), ((0 : Int), (m : Int) - (i : Int) - 1)),
       moebB m n (i+1), vWall (i, n-1)] := by
  simp only [wallKeys, moebB, vWall]
  have hseq : ((n - 1 : Nat) : Int) + 1 = (n : Int) := by omega
  rw [hseq]
  have e1 : ∀ y : Int, moebiusTransform m n ((n - 1 : Nat) : Int) y =
      (((n - 1 : Nat) : Int), y) :=
    fun y => moebiusTransform_lt' m n (by omega) (by omega) y
  simp only [moebiusTransform_seam m n (by omega), e1]
  push_cast
  have harith : (m : Int) - ((i : Int) + 1) - 1 = (m : Int) - (i : Int) - 2 := by ring
  rw [harith]
  have hn1 : (0 : Int) < ((n - 1 : Nat) : Int) := by omega
  have h1 : wallKey (((n - 1 : Nat) : Int), (i : Int)) (0, (m : Int) - (i : Int) - 1) =
      ((0, (m : Int) - (i : Int) - 1), (((n - 1 : Nat) : Int), (i : Int))) :=
    wallKey_gt (by simp only []; omega)
  have h2 : wallKey ((0 : Int), (m : Int) - (i : Int) - 1)
      ((0 : Int), (m : Int) - (i : Int) - 2) =
      (((0 : Int), (m : Int) - (i : Int) - 2), ((0 : Int), (m : Int) - (i : Int) - 1)) :=
    wallKey_eq_gt rfl (by simp only []; omega)
  have h3 : wallKey ((0 : Int), (m : Int) - (i : Int) - 2)
      (((n - 1 : Nat) : Int), (i : Int) + 1) =
      (((0 : Int), (m : Int) - (i : Int) - 2), (((n - 1 : Nat) : Int), (i : Int) + 1)) :=
    wallKey_lt (by simp only []; omega)
  have h4 : wallKey (((n - 1 : Nat) : Int), (i : Int) + 1) (((n - 1 : Nat) : Int), (i : Int)) =
      ((((n - 1 : Nat) : Int), (i : Int)), (((n - 1 : Nat) : Int), (i : Int) + 1)) :=
    wallKey_eq_gt rfl (by simp only []; omega)
  rw [h1, h2, h3, h4]

theorem moebA_injective : Function.Injective moebA := by
  intro p q h
  rcases p with ⟨p1, p2⟩
  rcases q with ⟨q1, q2⟩
  simp only [moebA, Prod.mk.injEq] at h
  have h1 : p1 = q1 := by exact_mod_cast h.1.2
  have h2 : p2 = q2 := by exact_mod_cast h.1.1
  simp [h1, h2]

theorem moebB_injective (m n : Nat) : Function.Injective (moebB m n) := by
  intro p q h
  simp only [moebB, Prod.mk.injEq] at h
  exact_mod_cast h.2.2

theorem moebius_gridE (m n : Nat) (hm : 1 ≤ m) (hn : 3 ≤ n) :
    gridE m n (moebiusTransform m n) = m * n + (m + 1) * n + 1 := by
  rw [gridE_card]
  set A := Finset.image moebA (Finset.range (m+1) ×ˢ Finset.range (n-1)) with hA
  set B := Finset.image (moebB m n) (Finset.range (m+1)) with hB
  set C := Finset.image vWall (Finset.range m ×ˢ Finset.range n) with hC
  have hset : (wallFlat m n (moebiusTransform m n)).toFinset = (A ∪ B) ∪ (C ∪ {moebPh}) := by
    ext x
    rw [List.mem_toFinset, mem_wallFlat, Finset.mem_union, Finset.mem_union,
      Finset.mem_union, Finset.mem_singleton, hA, hB, hC, Finset.mem_image,
      Finset.mem_image, Finset.mem_image]
    constructor
    · rintro ⟨i, hi, j, hj, hx⟩
      by_cases hj1 : j + 1 < n
      · rw [moeb_wallKeys_lt m n i j hj1] at hx
        simp only [List.mem_cons, List.not_mem_nil, or_false] at hx
        rcases hx with rfl | rfl | rfl | rfl
        · exact Or.inl (Or.inl ⟨(i, j), by
            rw [Finset.mem_product, Finset.mem_range, Finset.mem_range]
            exact ⟨by omega, by omega⟩, rfl⟩)
        · exact Or.inr (Or.inl ⟨(i, j+1), by
            rw [Finset.mem_product, Finset.mem_range, Finset.mem_range]
            exact ⟨hi, hj1⟩, rfl⟩)
        · exact Or.inl (Or.inl ⟨(i+1, j), by
            rw [Finset.mem_product, Finset.mem_range, Finset.mem_range]
            exact ⟨by omega, by omega⟩, rfl⟩)
        · exact Or.inr (Or.inl ⟨(i, j), by
            rw [Finset.mem_product, Finset.mem_range, Finset.mem_range]
            exact ⟨hi, hj⟩, rfl⟩)
      · have hje : j = n - 1 := by omega
        rw [hje, moeb_wallKeys_seam m n (by omega) i] at hx
        simp only [List.mem_cons, List.not_mem_nil, or_false] at hx
        rcases hx with rfl | rfl | rfl | rfl
        · exact Or.inl (Or.inr ⟨i, by rw [Finset.mem_range]; omega, rfl⟩)
        · by_cases him : i + 2 ≤ m
          · refine Or.inr (Or.inl ⟨(m - i - 2, 0), by
              rw [Finset.mem_product, Finset.mem_range, Finset.mem_range]
              exact ⟨by omega, by omega⟩, ?_⟩)
            simp only [vWall]
            have c1 : ((m - i - 2 : Nat) : Int) = (m : Int) - (i : Int) - 2 := by omega
            rw [c1]
            have c2 : (m : Int) - (i : Int) - 2 + 1 = (m : Int) - (i : Int) - 1 := by ring
            rw [c2]
            norm_num
          · have hie : i = m - 1 := by omega
            refine Or.inr (Or.inr ?_)
            rw [moebPh]
            have c1 : (m : Int) - (i : Int) - 2 = -1 := by omega
            have c2 : (m : Int) - (i : Int) - 1 = 0 := by omega
            rw [c1, c2]
        · exact Or.inl (Or.inr ⟨i+1, by rw [Finset.mem_range]; omega, rfl⟩)
        · exact Or.inr (Or.inl ⟨(i, n-1), by
            rw [Finset.mem_product, Finset.mem_range, Finset.mem_range]
            exact ⟨hi, by omega⟩, rfl⟩)
    · rintro ((⟨⟨y, j⟩, hp, rfl⟩ | ⟨i, hi, rfl⟩) | (⟨⟨y, j⟩, hp, rfl⟩ | rfl))
      · rw [Finset.mem_product, Finset.mem_range, Finset.mem_range] at hp
        by_cases hy : y < m
        · refine ⟨y, hy, j, by omega, ?_⟩
          rw [moeb_wallKeys_lt m n y j (by omega)]
          exact List.mem_cons_self _ _
        · refine ⟨y - 1, by omega, j, by omega, ?_⟩
          rw [moeb_wallKeys_lt m n (y-1) j (by omega)]
          have hyr : y - 1 + 1 = y := by omega
          rw [hyr]
          exact List.mem_cons_of_mem _ (List.mem_cons_of_mem _ (List.mem_cons_self _ _))
      · rw [Finset.mem_range] at hi
        by_cases him : i < m
        · refine ⟨i, him, n - 1, by omega, ?_⟩
          rw [moeb_wallKeys_seam m n (by omega) i]
          exact List.mem_cons_self _ _
        · refine ⟨i - 1, by omega, n - 1, by omega, ?_⟩
          rw [moeb_wallKeys_seam m n (by omega) (i-1)]
          have hir : i - 1 + 1 = i := by omega
          rw [hir]
          exact List.mem_cons_of_mem _ (List.mem_cons_of_mem _ (List.mem_cons_self _ _))
      · rw [Finset.mem_product, Finset.mem_range, Finset.mem_range] at hp
        by_cases hj1 : j + 1 < n
        · refine ⟨y, hp.1, j, hp.2, ?_⟩
          rw [moeb_wallKeys_lt m n y j hj1]
          exact List.mem_cons_of_mem _ (List.mem_cons_of_mem _
            (List.mem_cons_of_mem _ (List.mem_cons_self _ _)))
        · have hje : j = n - 1 := by omega
          refine ⟨y, hp.1, j, hp.2, ?_⟩
          rw [hje, moeb_wallKeys_seam m n (by omega) y]
          exact List.mem_cons_of_mem _ (List.mem_cons_of_mem _
            (List.mem_cons_of_mem _ (List.mem_cons_self _ _)))
      · refine ⟨m - 1, by omega, n - 1, by omega, ?_⟩
        rw [moeb_wallKeys_seam m n (by omega) (m-1)]
        have hph : moebPh = (((0 : Int), (m : Int) - ((m - 1 : Nat) : Int) - 2),
            ((0 : Int), (m : Int) - ((m - 1 : Nat) : Int) - 1)) := by
          rw [moebPh]
          have c1 : (m : Int) - ((m - 1 : Nat) : Int) - 2 = -1 := by omega
          have c2 : (m : Int) - ((m - 1 : Nat) : Int) - 1 = 0 := by omega
          rw [c1, c2]
        rw [hph]
        exact List.mem_cons_of_mem _ (List.mem_cons_self _ _)
  have hAB : Disjoint A B := by
    rw [Finset.disjoint_left]
    intro x hx1 hx2
    obtain ⟨⟨y, j⟩, _, rfl⟩ := Finset.mem_image.mp hx1
    obtain ⟨i, _, hb⟩ := Finset.mem_image.mp hx2
    simp only [moebA, moebB, Prod.mk.injEq] at hb
    have h1 : ((n - 1 : Nat) : Int) = (j : Int) + 1 := hb.2.1
    have h2 : (0 : Int) = (j : Int) := hb.1.1
    omega
  have hCPh : Disjoint C {moebPh} := by
    rw [Finset.disjoint_right]
    intro x hx1 hx2
    rw [Finset.mem_singleton] at hx1
    obtain ⟨⟨y, j⟩, _, hv⟩ := Finset.mem_image.mp hx2
    rw [hx1] at hv
    simp only [vWall, moebPh, Prod.mk.injEq] at hv
    have h1 : ((y : Nat) : Int) = -1 := hv.1.2
    omega
  have hbig : Disjoint (A ∪ B) (C ∪ {moebPh}) := by
    rw [Finset.disjoint_left]
    intro x hx1 hx2
    have hne : x.1.1 ≠ x.2.1 := by
      rcases Finset.mem_union.mp hx1 with hx | hx
      · obtain ⟨⟨y, j⟩, _, rfl⟩ := Finset.mem_image.mp hx
        simp only [moebA]
        omega
      · obtain ⟨i, _, rfl⟩ := Finset.mem_image.mp hx
        simp only [moebB]
        omega
    have heq : x.1.1 = x.2.1 := by
      rcases Finset.mem_union.mp hx2 with hx | hx
      · obtain ⟨⟨y, j⟩, _, rfl⟩ := Finset.mem_image.mp hx
        simp [vWall]
      · rw [Finset.mem_singleton.mp hx, moebPh]
    exact hne heq
  rw [hset, Finset.card_union_of_disjoint hbig, Finset.card_union_of_disjoint hAB,
    Finset.card_union_of_disjoint hCPh, hA, hB, hC,
    Finset.card_image_of_injective _ moebA_injective,
    Finset.card_image_of_injective _ (moebB_injective m n),
    Finset.card_image_of_injective _ vWall_injective, Finset.card_product,
    Finset.card_product, Finset.card_singleton]
  simp only [Finset.card_range]
  have hsum : (m + 1) * (n - 1) + (m + 1) = (m + 1) * n := by
    have h1 : n - 1 + 1 = n := by omega
    calc (m + 1) * (n - 1) + (m + 1) = (m + 1) * ((n - 1) + 1) := by ring
      _ = (m + 1) * n := by rw [h1]
  omega

theorem dictGet_cons {α β : Type} [DecidableEq α] (p : α × β) (t : List (α × β)) (x : α) :
    dictGet (p :: t) x = if p.1 = x then some p.2 else dictGet t x := by
  rw [dictGet, dictGet]
  by_cases hp : p.1 = x
  · rw [List.find?_cons_of_pos _ (by simpa using hp), if_pos hp]
    simp
  · rw [List.find?_cons_of_neg _ (by simpa using hp), if_neg hp]

theorem dictGet_mapSet_self {α β : Type} [DecidableEq α] (k : α) (v : β) :
    ∀ (d : List (α × β)), k ∈ keysOf d →
      dictGet (d.map fun p => if p.1 = k then (k, v) else p) k = some v := by
  intro d
  induction d with
  | nil => intro h; simp [keysOf] at h
  | cons p t ih =>
    intro h
    rw [List.map_cons]
    by_cases hp : p.1 = k
    · rw [if_pos hp, dictGet_cons]
      simp
    · rw [if_neg hp, dictGet_cons, if_neg hp]
      refine ih ?_
      rcases List.mem_map.mp h with ⟨q, hq, hqk⟩
      rcases List.mem_cons.mp hq with rfl | hq
      · exact absurd hqk hp
      · exact List.mem_map.mpr ⟨q, hq, hqk⟩

theorem dictGet_mapSet_other {α β : Type} [DecidableEq α] (k : α) (v : β) {x : α}
    (hx : x ≠ k) : ∀ (d : List (α × β)),
      dictGet (d.map fun p => if p.1 = k then (k, v) else p) x = dictGet d x := by
  intro d
  induction d with
  | nil => rfl
  | cons p t ih =>
    rw [List.map_cons]
    by_cases hp : p.1 = k
    · rw [if_pos hp, dictGet_cons, dictGet_cons]
      have h1 : ¬ (k = x) := fun h => hx h.symm
      have h2 : ¬ (p.1 = x) := fun h => hx (hp ▸ h).symm
      rw [if_neg h1, if_neg h2, ih]
    · rw [if_neg hp, dictGet_cons, dictGet_cons, ih]

theorem dictGet_dictSet_self {α β : Type} [DecidableEq α] (d : List (α × β)) (k : α)
    (v : β) : dictGet (dictSet d k v) k = some v := by
  rw [dictSet]
  split
  · rename_i hmem
    exact dictGet_mapSet_self k v d hmem
  · rename_i hmem
    exact dictGet_append_right d k v hmem

theorem dictGet_append_single_other {α β : Type} [DecidableEq α] (k : α) (v : β) {x : α}
    (hx : x ≠ k) : ∀ (d : List (α × β)), dictGet (d ++ [(k, v)]) x = dictGet d x := by
  intro d
  induction d with
  | nil =>
    rw [List.nil_append, dictGet_cons]
    simp only []
    rw [if_neg (fun h => hx h.symm)]
  | cons p t ih =>
    rw [List.cons_append, dictGet_cons, dictGet_cons, ih]

theorem dictGet_dictSet_other {α β : Type} [DecidableEq α] (d : List (α × β)) (k : α)
    (v : β) {x : α} (hx : x ≠ k) : dictGet (dictSet d k v) x = dictGet d x := by
  rw [dictSet]
  split
  · exact dictGet_mapSet_other k v hx d
  · exact dictGet_append_single_other k v hx d

theorem dictGet_dictPop_self {α β : Type} [DecidableEq α] (k : α) :
    ∀ (d : List (α × β)), dictGet (dictPop d k) k = none := by
  intro d
  induction d with
  | nil => rfl
  | cons p t ih =>
    rw [dictPop, List.filter_cons]
    by_cases hp : p.1 = k
    · rw [if_neg (by simpa using hp)]
      exact ih
    · rw [if_pos (by simpa using hp), dictGet_cons, if_neg hp]
      exact ih

theorem dictGet_dictPop_other {α β : Type} [DecidableEq α] (k : α) {x : α} (hx : x ≠ k) :
    ∀ (d : List (α × β)), dictGet (dictPop d k) x = dictGet d x := by
  intro d
  induction d with
  | nil => rfl
  | cons p t ih =>
    rw [dictPop, List.filter_cons]
    by_cases hp : p.1 = k
    · rw [if_neg (by simpa using hp), dictGet_cons]
      have h2 : ¬ (p.1 = x) := fun h => hx (hp ▸ h).symm
      rw [if_neg h2]
      exact ih
    · rw [if_pos (by simpa using hp), dictGet_cons, dictGet_cons]
      by_cases hpx : p.1 = x
      · rw [if_pos hpx, if_pos hpx]
      · rw [if_neg hpx, if_neg hpx]
        exact ih

theorem mem_keysOf_dictPop {α β : Type} [DecidableEq α] (d : List (α × β)) (k a : α) :
    a ∈ keysOf (dictPop d k) ↔ a ∈ keysOf d ∧ a ≠ k := by
  rw [keysOf, keysOf, dictPop]
  simp only [List.mem_map, List.mem_filter]
  constructor
  · rintro ⟨p, ⟨hp, hpk⟩, rfl⟩
    refine ⟨⟨p, hp, rfl⟩, ?_⟩
    simpa using hpk
  · rintro ⟨⟨p, hp, rfl⟩, hak⟩
    exact ⟨p, ⟨hp, by simpa using hak⟩, rfl⟩

theorem nodup_keysOf_dictPop {α β : Type} [DecidableEq α] (d : List (α × β)) (k : α)
    (h : (keysOf d).Nodup) : (keysOf (dictPop d k)).Nodup := by
  have hsub : List.Sublist (keysOf (dictPop d k)) (keysOf d) :=
    List.Sublist.map Prod.fst (List.filter_sublist d)
  exact h.sublist hsub

theorem keysOf_dictSet_eq_of_mem {α β : Type} [DecidableEq α] (d : List (α × β)) (k : α)
    (v : β) (h : k ∈ keysOf d) : keysOf (dictSet d k v) = keysOf d :=
  keysOf_dictSet_of_mem d k v h

theorem dictGet_foldl_dictSet {α β : Type} [DecidableEq α] (v : β) :
    ∀ (lst : List α) (m0 : List (α × β)) (x : α),
      dictGet (lst.foldl (fun m2 it => dictSet m2 it v) m0) x =
        if x ∈ lst then some v else dictGet m0 x := by
  intro lst
  induction lst with
  | nil => intro m0 x; simp
  | cons a t ih =>
    intro m0 x
    rw [List.foldl_cons, ih]
    by_cases hxt : x ∈ t
    · rw [if_pos hxt, if_pos (List.mem_cons_of_mem _ hxt)]
    · rw [if_neg hxt]
      by_cases hxa : x = a
      · rw [if_pos (hxa ▸ List.mem_cons_self _ _), hxa, dictGet_dictSet_self]
      · rw [if_neg (by simp [hxa, hxt]), dictGet_dictSet_other _ _ _ hxa]

theorem dictGet_map_pair {α β : Type} [DecidableEq α] (g : α → β) :
    ∀ (l : List α) (a : α),
      dictGet (l.map fun x => (x, g x)) a = if a ∈ l then some (g a) else none := by
  intro l
  induction l with
  | nil => intro a; simp [dictGet]
  | cons b t ih =>
    intro a
    rw [List.map_cons, dictGet_cons]
    by_cases hab : b = a
    · rw [if_pos hab, hab]
      simp
    · rw [if_neg hab, ih]
      by_cases hat : a ∈ t
      · rw [if_pos hat, if_pos (List.mem_cons_of_mem _ hat)]
      · rw [if_neg hat, if_neg (by
          intro h
          rcases List.mem_cons.mp h with rfl | h
          · exact hab rfl
          · exact hat h)]

/-- The label of a node in the merge state of `Grid.components`. -/
def gufLab (st : GUF) (nd : Int × Int) : Int × Int := (dictGet st.cmap nd).getD nd

/-- The member list of a component. -/
def gufBag (st : GUF) (k : Int × Int) : List (Int × Int) := (dictGet st.bag k).getD []

/-- The invariant of the merge pass of `Grid.components`: the bag keys are
distinct, every node's label is a bag key, every bag key is a self-labelled
node, and each bag holds exactly the nodes carrying its label. -/
structure GufInv (nodes : List (Int × Int)) (st : GUF) : Prop where
  knd : (keysOf st.bag).Nodup
  labKey : ∀ nd ∈ nodes, gufLab st nd ∈ keysOf st.bag
  keyLab : ∀ k ∈ keysOf st.bag, k ∈ nodes ∧ gufLab st k = k
  bagMem : ∀ k nd, nd ∈ gufBag st k → nd ∈ nodes ∧ gufLab st nd = k
  memBag : ∀ nd ∈ nodes, nd ∈ gufBag st (gufLab st nd)

theorem gufEdgeStep_inv (nodes : List (Int × Int)) (st : GUF)
    (e : (Int × Int) × (Int × Int)) (hI : GufInv nodes st)
    (h1 : e.1 ∈ nodes) (h2 : e.2 ∈ nodes) :
    GufInv nodes (gufEdgeStep st e) ∧
      (∀ a ∈ nodes, ∀ b ∈ nodes, gufLab st a = gufLab st b →
        gufLab (gufEdgeStep st e) a = gufLab (gufEdgeStep st e) b) ∧
      gufLab (gufEdgeStep st e) e.1 = gufLab (gufEdgeStep st e) e.2 := by
  by_cases hee : e.1 = e.2
  · have hstep : gufEdgeStep st e = st := by rw [gufEdgeStep, if_pos hee]
    rw [hstep]
    exact ⟨hI, fun a _ b _ h => h, by rw [hee]⟩
  · set L1 := gufLab st e.1 with hL1
    set L2 := gufLab st e.2 with hL2
    by_cases hL : L1 = L2
    · have hstep : gufEdgeStep st e = st := by
        rw [gufEdgeStep, if_neg hee]
        exact if_pos hL
      rw [hstep]
      exact ⟨hI, fun a _ b _ h => h, hL⟩
    · have hstep : gufEdgeStep st e =
          ⟨dictPop (dictSet st.bag L1 (gufBag st L1 ++ gufBag st L2)) L2,
           (gufBag st L2).foldl (fun m2 it => dictSet m2 it L1) st.cmap⟩ := by
        rw [gufEdgeStep, if_neg hee]
        exact if_neg hL
      rw [hstep]
      set st' : GUF :=
        ⟨dictPop (dictSet st.bag L1 (gufBag st L1 ++ gufBag st L2)) L2,
         (gufBag st L2).foldl (fun m2 it => dictSet m2 it L1) st.cmap⟩ with hst'
      have hL1k : L1 ∈ keysOf st.bag := hI.labKey e.1 h1
      have hL2k : L2 ∈ keysOf st.bag := hI.labKey e.2 h2
      have hlab : ∀ x, gufLab st' x = if x ∈ gufBag st L2 then L1 else gufLab st x := by
        intro x
        show (dictGet ((gufBag st L2).foldl (fun m2 it => dictSet m2 it L1) st.cmap) x).getD x = _
        rw [dictGet_foldl_dictSet]
        by_cases hx : x ∈ gufBag st L2
        · rw [if_pos hx, if_pos hx]
          rfl
        · rw [if_neg hx, if_neg hx]
          rfl
      have hlab2 : ∀ x ∈ nodes, gufLab st' x = if gufLab st x = L2 then L1 else gufLab st x := by
        intro x hx
        rw [hlab x]
        by_cases hxl : gufLab st x = L2
        · rw [if_pos hxl, if_pos (by rw [← hxl]; exact hI.memBag x hx)]
        · rw [if_neg hxl, if_neg (fun hmem => hxl (hI.bagMem L2 x hmem).2)]
      have hkeys : ∀ x, x ∈ keysOf st'.bag ↔ x ∈ keysOf st.bag ∧ x ≠ L2 := by
        intro x
        show x ∈ keysOf (dictPop (dictSet st.bag L1 _) L2) ↔ _
        rw [mem_keysOf_dictPop, keysOf_dictSet_of_mem _ _ _ hL1k]
      have hbag : ∀ k, k ≠ L2 → gufBag st' k =
          if k = L1 then gufBag st L1 ++ gufBag st L2 else gufBag st k := by
        intro k hk
        show (dictGet (dictPop (dictSet st.bag L1 _) L2) k).getD [] = _
        rw [dictGet_dictPop_other L2 hk]
        by_cases hkl : k = L1
        · rw [if_pos hkl, hkl, dictGet_dictSet_self]
          rfl
        · rw [if_neg hkl, dictGet_dictSet_other _ _ _ hkl]
          rfl
      have hbagL2 : gufBag st' L2 = [] := by
        show (dictGet (dictPop (dictSet st.bag L1 _) L2) L2).getD [] = []
        rw [dictGet_dictPop_self]
        rfl
      refine ⟨⟨?_, ?_, ?_, ?_, ?_⟩, ?_, ?_⟩
      · show (keysOf (dictPop (dictSet st.bag L1 _) L2)).Nodup
        refine nodup_keysOf_dictPop _ _ ?_
        rw [keysOf_dictSet_of_mem _ _ _ hL1k]
        exact hI.knd
      · intro nd hnd
        rw [hkeys, hlab2 nd hnd]
        by_cases hl : gufLab st nd = L2
        · rw [if_pos hl]
          exact ⟨hL1k, hL⟩
        · rw [if_neg hl]
          exact ⟨hI.labKey nd hnd, hl⟩
      · intro k hk
        rw [hkeys] at hk
        obtain ⟨hk1, hk2⟩ := hk
        obtain ⟨hkn, hkl⟩ := hI.keyLab k hk1
        refine ⟨hkn, ?_⟩
        rw [hlab2 k hkn, if_neg (by rw [hkl]; exact hk2), hkl]
      · intro k nd hnd
        by_cases hk2 : k = L2
        · rw [hk2, hbagL2] at hnd
          exact absurd hnd (List.not_mem_nil nd)
        · rw [hbag k hk2] at hnd
          by_cases hk1 : k = L1
          · rw [if_pos hk1] at hnd
            rcases List.mem_append.mp hnd with hnd | hnd
            · obtain ⟨hn, hl⟩ := hI.bagMem L1 nd hnd
              refine ⟨hn, ?_⟩
              rw [hlab2 nd hn, if_neg (by rw [hl]; exact hL), hl, hk1]
            · obtain ⟨hn, hl⟩ := hI.bagMem L2 nd hnd
              refine ⟨hn, ?_⟩
              rw [hlab2 nd hn, if_pos hl, hk1]
          · rw [if_neg hk1] at hnd
            obtain ⟨hn, hl⟩ := hI.bagMem k nd hnd
            refine ⟨hn, ?_⟩
            rw [hlab2 nd hn, if_neg (by rw [hl]; exact hk2), hl]
      · intro nd hnd
        rw [hlab2 nd hnd]
        by_cases hl : gufLab st nd = L2
        · rw [if_pos hl, hbag L1 hL]
          rw [if_pos rfl]
          refine List.mem_append_right _ ?_
          rw [← hl]
          exact hI.memBag nd hnd
        · rw [if_neg hl]
          by_cases hl1 : gufLab st nd = L1
          · rw [hl1, hbag L1 hL, if_pos rfl]
            refine List.mem_append_left _ ?_
            rw [← hl1]
            exact hI.memBag nd hnd
          · rw [hbag _ hl, if_neg hl1]
            exact hI.memBag nd hnd
      · intro a ha b hb h
        rw [hlab2 a ha, hlab2 b hb, h]
      · rw [hlab2 e.1 h1, hlab2 e.2 h2, ← hL1, ← hL2, if_neg hL, if_pos rfl]

theorem guf_fold (nodes : List (Int × Int)) :
    ∀ (ws : List ((Int × Int) × (Int × Int))) (st : GUF),
    GufInv nodes st →
    (∀ e ∈ ws, e.1 ∈ nodes ∧ e.2 ∈ nodes) →
    GufInv nodes (ws.foldl gufEdgeStep st) ∧
      (∀ a ∈ nodes, ∀ b ∈ nodes, gufLab st a = gufLab st b →
        gufLab (ws.foldl gufEdgeStep st) a = gufLab (ws.foldl gufEdgeStep st) b) ∧
      (∀ e ∈ ws, gufLab (ws.foldl gufEdgeStep st) e.1 =
        gufLab (ws.foldl gufEdgeStep st) e.2) := by
  intro ws
  induction ws with
  | nil =>
    intro st hI _
    exact ⟨hI, fun a _ b _ h => h, fun e he => absurd he (List.not_mem_nil e)⟩
  | cons e t ih =>
    intro st hI hend
    have he1 := (hend e (List.mem_cons_self _ _)).1
    have he2 := (hend e (List.mem_cons_self _ _)).2
    obtain ⟨hI1, hmono1, hcreate⟩ := gufEdgeStep_inv nodes st e hI he1 he2
    obtain ⟨hI2, hmono2, hedges⟩ := ih (gufEdgeStep st e) hI1
      (fun x hx => hend x (List.mem_cons_of_mem _ hx))
    rw [List.foldl_cons]
    refine ⟨hI2, ?_, ?_⟩
    · intro a ha b hb h
      exact hmono2 a ha b hb (hmono1 a ha b hb h)
    · intro x hx
      rcases List.mem_cons.mp hx with rfl | hx
      · exact hmono2 x.1 he1 x.2 he2 hcreate
      · exact hedges x hx

theorem nodup_all_eq {α : Type} (l : List α) (a : α) (hnd : l.Nodup)
    (hall : ∀ x ∈ l, x = a) (hmem : a ∈ l) : l = [a] := by
  cases l with
  | nil => exact absurd hmem (List.not_mem_nil a)
  | cons b t =>
    have hb : b = a := hall b (List.mem_cons_self _ _)
    cases t with
    | nil => rw [hb]
    | cons c t2 =>
      have hc : c = a := hall c (List.mem_cons_of_mem _ (List.mem_cons_self _ _))
      rw [List.nodup_cons] at hnd
      exact absurd (by rw [hb, ← hc]; exact List.mem_cons_self _ _ : b ∈ c :: t2) hnd.1

/-- The undirected adjacency carried by a wall list. -/
def edgeRel (ws : List ((Int × Int) × (Int × Int))) (a b : Int × Int) : Prop :=
  (a, b) ∈ ws ∨ (b, a) ∈ ws

theorem edgeRel_of_wallKey_mem {ws : List ((Int × Int) × (Int × Int))} {a b : Int × Int}
    (h : wallKey a b ∈ ws) : edgeRel ws a b := by
  rcases wallKey_cases a b with hc | hc
  · exact Or.inl (hc ▸ h)
  · exact Or.inr (hc ▸ h)

theorem gufK_one (nodes : List (Int × Int)) (ws : List ((Int × Int) × (Int × Int)))
    (hnd : nodes.Nodup) (hne : nodes ≠ [])
    (hend : ∀ e ∈ ws, e.1 ∈ nodes ∧ e.2 ∈ nodes)
    (hconn : ∀ a ∈ nodes, ∀ b ∈ nodes, Relation.EqvGen (edgeRel ws) a b) :
    (ws.foldl gufEdgeStep
      ⟨nodes.map fun nd => (nd, [nd]), nodes.map fun nd => (nd, nd)⟩).bag.length = 1 := by
  set init : GUF := ⟨nodes.map fun nd => (nd, [nd]), nodes.map fun nd => (nd, nd)⟩ with hinit
  have hkeys : keysOf init.bag = nodes := by
    show keysOf (nodes.map fun nd => (nd, [nd])) = nodes
    rw [keysOf, List.map_map]
    have hcomp : (Prod.fst ∘ fun nd : Int × Int => (nd, [nd])) = id := rfl
    rw [hcomp, List.map_id]
  have hlab0 : ∀ x, gufLab init x = x := by
    intro x
    show (dictGet (nodes.map fun nd => (nd, nd)) x).getD x = x
    rw [show (fun nd : Int × Int => (nd, nd)) = (fun nd : Int × Int => (nd, id nd)) from rfl,
      dictGet_map_pair]
    by_cases hx : x ∈ nodes
    · rw [if_pos hx]
      rfl
    · rw [if_neg hx]
      rfl
  have hbag0 : ∀ k, gufBag init k = if k ∈ nodes then [k] else [] := by
    intro k
    show (dictGet (nodes.map fun nd => (nd, [nd])) k).getD [] = _
    rw [show (fun nd : Int × Int => (nd, [nd])) = (fun nd : Int × Int => (nd, (fun x => [x]) nd))
      from rfl, dictGet_map_pair]
    by_cases hk : k ∈ nodes
    · rw [if_pos hk, if_pos hk]
      rfl
    · rw [if_neg hk, if_neg hk]
      rfl
  have hI0 : GufInv nodes init := by
    refine ⟨by rw [hkeys]; exact hnd, ?_, ?_, ?_, ?_⟩
    · intro nd hnd2
      rw [hkeys, hlab0]
      exact hnd2
    · intro k hk
      rw [hkeys] at hk
      exact ⟨hk, hlab0 k⟩
    · intro k nd hnd2
      rw [hbag0] at hnd2
      by_cases hk : k ∈ nodes
      · rw [if_pos hk] at hnd2
        have : nd = k := List.mem_singleton.mp hnd2
        rw [this, hlab0]
        exact ⟨hk, rfl⟩
      · rw [if_neg hk] at hnd2
        exact absurd hnd2 (List.not_mem_nil nd)
    · intro nd hnd2
      rw [hlab0, hbag0, if_pos hnd2]
      exact List.mem_singleton.mpr rfl
  obtain ⟨hIf, _, hedges⟩ := guf_fold nodes ws init hI0 hend
  set fin := ws.foldl gufEdgeStep init with hfin
  have hlabeq : ∀ a ∈ nodes, ∀ b ∈ nodes, gufLab fin a = gufLab fin b := by
    intro a ha b hb
    have hgen := hconn a ha b hb
    clear ha hb
    induction hgen with
    | rel x y hxy =>
      rcases hxy with hxy | hxy
      · exact hedges (x, y) hxy
      · exact (hedges (y, x) hxy).symm
    | refl x => rfl
    | symm x y _ ihs => exact ihs.symm
    | trans x y z _ _ ih1 ih2 => exact ih1.trans ih2
  obtain ⟨n0, hn0⟩ : ∃ n0, n0 ∈ nodes := by
    cases nodes with
    | nil => exact absurd rfl hne
    | cons a t => exact ⟨a, List.mem_cons_self _ _⟩
  set L0 := gufLab fin n0 with hL0
  have hallk : ∀ k ∈ keysOf fin.bag, k = L0 := by
    intro k hk
    obtain ⟨hkn, hkl⟩ := hIf.keyLab k hk
    rw [← hkl]
    exact hlabeq k hkn n0 hn0
  have hL0mem : L0 ∈ keysOf fin.bag := hIf.labKey n0 hn0
  have hkeq : keysOf fin.bag = [L0] := nodup_all_eq _ _ hIf.knd hallk hL0mem
  have : (keysOf fin.bag).length = 1 := by rw [hkeq]; rfl
  rw [keysOf, List.length_map] at this
  exact this

theorem mem_wallsList (rows cols : Nat) (tf : Transform)
    (e : (Int × Int) × (Int × Int)) :
    e ∈ wallsList rows cols tf ↔ e ∈ wallFlat rows cols tf := by
  rw [wallsList_eq, foldl_insertNew_mem]
  simp

theorem mem_nodesList (rows cols : Nat) (tf : Transform) (x : Int × Int) :
    x ∈ nodesList rows cols tf ↔ x ∈ nodeFlat rows cols tf := by
  rw [nodesList_eq, foldl_insertNew_mem]
  simp

theorem wall_endpoints_mem (rows cols : Nat) (tf : Transform) :
    ∀ e ∈ wallsList rows cols tf,
      e.1 ∈ nodesList rows cols tf ∧ e.2 ∈ nodesList rows cols tf := by
  intro e he
  rw [mem_wallsList] at he
  obtain ⟨i, hi, j, hj, hx⟩ := (mem_wallFlat rows cols tf e).mp he
  have hc : ∀ a b : Int × Int, e = wallKey a b →
      a ∈ nodeFlat rows cols tf → b ∈ nodeFlat rows cols tf →
      e.1 ∈ nodesList rows cols tf ∧ e.2 ∈ nodesList rows cols tf := by
    intro a b hab ha hb
    rw [mem_nodesList, mem_nodesList, hab]
    rcases wallKey_cases a b with hk | hk
    · rw [hk]
      exact ⟨ha, hb⟩
    · rw [hk]
      exact ⟨hb, ha⟩
  have hsw : tf (j : Int) (i : Int) ∈ nodeFlat rows cols tf :=
    (mem_nodeFlat _ _ _ _).mpr ⟨i, by omega, j, by omega, rfl⟩
  have hse : tf ((j : Int) + 1) (i : Int) ∈ nodeFlat rows cols tf := by
    refine (mem_nodeFlat _ _ _ _).mpr ⟨i, by omega, j + 1, by omega, ?_⟩
    push_cast
    rfl
  have hne2 : tf ((j : Int) + 1) ((i : Int) + 1) ∈ nodeFlat rows cols tf := by
    refine (mem_nodeFlat _ _ _ _).mpr ⟨i + 1, by omega, j + 1, by omega, ?_⟩
    push_cast
    rfl
  have hnw : tf (j : Int) ((i : Int) + 1) ∈ nodeFlat rows cols tf := by
    refine (mem_nodeFlat _ _ _ _).mpr ⟨i + 1, by omega, j, by omega, ?_⟩
    push_cast
    rfl
  simp only [wallKeys, List.mem_cons, List.not_mem_nil, or_false] at hx
  rcases hx with hx | hx | hx | hx
  · exact hc _ _ hx hsw hse
  · exact hc _ _ hx hse hne2
  · exact hc _ _ hx hne2 hnw
  · exact hc _ _ hx hnw hsw

theorem nodesList_nodup (rows cols : Nat) (tf : Transform) :
    (nodesList rows cols tf).Nodup := by
  rw [nodesList_eq]
  exact foldl_insertNew_nodup _ _ List.nodup_nil

theorem nodesList_ne_nil (rows cols : Nat) (tf : Transform) :
    nodesList rows cols tf ≠ [] := by
  intro hnil
  have hmem : tf ((0 : Nat) : Int) ((0 : Nat) : Int) ∈ nodesList rows cols tf :=
    (mem_nodesList _ _ _ _).mpr ((mem_nodeFlat _ _ _ _).mpr ⟨0, by omega, 0, by omega, rfl⟩)
  rw [hnil] at hmem
  exact absurd hmem (List.not_mem_nil _)

theorem cylH_mem (m n : Nat) (hm : 1 ≤ m) {y j : Nat} (hy : y ≤ m) (hj : j < n) :
    cylH n (y, j) ∈ wallsList m n (cylinderTransform n) := by
  rw [mem_wallsList, mem_wallFlat]
  by_cases hym : y < m
  · refine ⟨y, hym, j, hj, ?_⟩
    rw [cyl_wallKeys_eq n y j hj]
    exact List.mem_cons_self _ _
  · refine ⟨y - 1, by omega, j, hj, ?_⟩
    rw [cyl_wallKeys_eq n (y-1) j hj]
    have hyr : y - 1 + 1 = y := by omega
    rw [hyr]
    exact List.mem_cons_of_mem _ (List.mem_cons_of_mem _ (List.mem_cons_self _ _))

theorem vWall_mem_cyl (m n : Nat) {y j : Nat} (hy : y < m) (hj : j < n) :
    vWall (y, j) ∈ wallsList m n (cylinderTransform n) := by
  rw [mem_wallsList, mem_wallFlat]
  refine ⟨y, hy, j, hj, ?_⟩
  rw [cyl_wallKeys_eq n y j hj]
  exact List.mem_cons_of_mem _ (List.mem_cons_of_mem _
    (List.mem_cons_of_mem _ (List.mem_cons_self _ _)))

theorem cylinder_connRoot (m n : Nat) (hm : 1 ≤ m) (hn : 1 ≤ n) :
    ∀ a ∈ nodesList m n (cylinderTransform n),
      Relation.EqvGen (edgeRel (wallsList m n (cylinderTransform n))) a (0, 0) := by
  set ws := wallsList m n (cylinderTransform n) with hws
  have hcol : ∀ i : Nat, i ≤ m →
      Relation.EqvGen (edgeRel ws) (((0 : Nat) : Int), (i : Int)) (0, 0) := by
    intro i
    induction i with
    | zero => intro _; exact Relation.EqvGen.refl _
    | succ k ihk =>
      intro hk
      have hwall : vWall (k, 0) ∈ ws := vWall_mem_cyl m n (by omega) (by omega)
      have hrel : edgeRel ws (((0 : Nat) : Int), (k : Int)) (((0 : Nat) : Int), (k : Int) + 1) :=
        Or.inl hwall
      have hcast : ((k + 1 : Nat) : Int) = (k : Int) + 1 := by push_cast; ring
      rw [hcast]
      exact Relation.EqvGen.trans _ _ _
        (Relation.EqvGen.symm _ _ (Relation.EqvGen.rel _ _ hrel)) (ihk (by omega))
  have hrow : ∀ (i : Nat), i ≤ m → ∀ j : Nat, j < n →
      Relation.EqvGen (edgeRel ws) ((j : Int), (i : Int)) (((0 : Nat) : Int), (i : Int)) := by
    intro i hi j
    induction j with
    | zero => intro _; exact Relation.EqvGen.refl _
    | succ k ihk =>
      intro hk
      have hwall : cylH n (i, k) ∈ ws := cylH_mem m n hm hi (by omega)
      have hmod : ((k : Int) + 1) % (n : Int) = (k : Int) + 1 :=
        Int.emod_eq_of_lt (by omega) (by exact_mod_cast hk)
      have heq : cylH n (i, k) = wallKey ((k : Int), (i : Int)) ((k : Int) + 1, (i : Int)) := by
        simp only [cylH]
        rw [hmod]
      have hrel : edgeRel ws ((k : Int), (i : Int)) ((k : Int) + 1, (i : Int)) :=
        edgeRel_of_wallKey_mem (heq ▸ hwall)
      have hcast : ((k + 1 : Nat) : Int) = (k : Int) + 1 := by push_cast; ring
      rw [hcast]
      exact Relation.EqvGen.trans _ _ _
        (Relation.EqvGen.symm _ _ (Relation.EqvGen.rel _ _ hrel)) (ihk (by omega))
  intro a ha
  obtain ⟨i, hi, j, hj, rfl⟩ :=
    (mem_nodeFlat _ _ _ _).mp ((mem_nodesList _ _ _ _).mp ha)
  have hae : cylinderTransform n (j : Int) (i : Int) = (((j % n : Nat) : Int), (i : Int)) := by
    simp only [cylinderTransform]
    rw [Int.natCast_mod]
  rw [hae]
  exact Relation.EqvGen.trans _ _ _ (hrow i hi (j % n) (Nat.mod_lt _ (by omega)))
    (hcol i hi)

theorem cylinder_gridK (m n : Nat) (hm : 1 ≤ m) (hn : 3 ≤ n) :
    gridK m n (cylinderTransform n) = 1 := by
  rw [gridK]
  exact gufK_one (nodesList m n (cylinderTransform n)) (wallsList m n (cylinderTransform n))
    (nodesList_nodup m n _) (nodesList_ne_nil m n _) (wall_endpoints_mem m n _)
    (fun a ha b hb => Relation.EqvGen.trans _ _ _
      (cylinder_connRoot m n hm (by omega) a ha)
      (Relation.EqvGen.symm _ _ (cylinder_connRoot m n hm (by omega) b hb)))

theorem cylH_mem_tor (m n : Nat) {y j : Nat} (hy : y < m) (hj : j < n) :
    cylH n (y, j) ∈ wallsList m n (torusTransform m n) := by
  rw [mem_wallsList, mem_wallFlat]
  refine ⟨y, hy, j, hj, ?_⟩
  rw [torus_wallKeys_eq m n y j hy hj]
  exact List.mem_cons_self _ _

theorem torV_mem_tor (m n : Nat) {y j : Nat} (hy : y < m) (hj : j < n) :
    torV m (y, j) ∈ wallsList m n (torusTransform m n) := by
  rw [mem_wallsList, mem_wallFlat]
  refine ⟨y, hy, j, hj, ?_⟩
  rw [torus_wallKeys_eq m n y j hy hj]
  exact List.mem_cons_of_mem _ (List.mem_cons_of_mem _
    (List.mem_cons_of_mem _ (List.mem_cons_self _ _)))

theorem torus_connRoot (m n : Nat) (hm : 1 ≤ m) (hn : 1 ≤ n) :
    ∀ a ∈ nodesList m n (torusTransform m n),
      Relation.EqvGen (edgeRel (wallsList m n (torusTransform m n))) a (0, 0) := by
  set ws := wallsList m n (torusTransform m n) with hws
  have hcol : ∀ i : Nat, i < m →
      Relation.EqvGen (edgeRel ws) (((0 : Nat) : Int), (i : Int)) (0, 0) := by
    intro i
    induction i with
    | zero => intro _; exact Relation.EqvGen.refl _
    | succ k ihk =>
      intro hk
      have hwall : torV m (k, 0) ∈ ws := torV_mem_tor m n (by omega) (by omega)
      have heq : torV m (k, 0) =
          ((((0 : Nat) : Int), (k : Int)), (((0 : Nat) : Int), (k : Int) + 1)) :=
        torV_eval_lt m (by omega) 0
      have hrel : edgeRel ws (((0 : Nat) : Int), (k : Int)) (((0 : Nat) : Int), (k : Int) + 1) :=
        Or.inl (heq ▸ hwall)
      have hcast : ((k + 1 : Nat) : Int) = (k : Int) + 1 := by push_cast; ring
      rw [hcast]
      exact Relation.EqvGen.trans _ _ _
        (Relation.EqvGen.symm _ _ (Relation.EqvGen.rel _ _ hrel)) (ihk (by omega))
  have hrow : ∀ (i : Nat), i < m → ∀ j : Nat, j < n →
      Relation.EqvGen (edgeRel ws) ((j : Int), (i : Int)) (((0 : Nat) : Int), (i : Int)) := by
    intro i hi j
    induction j with
    | zero => intro _; exact Relation.EqvGen.refl _
    | succ k ihk =>
      intro hk
      have hwall : cylH n (i, k) ∈ ws := cylH_mem_tor m n hi (by omega)
      have hmod : ((k : Int) + 1) % (n : Int) = (k : Int) + 1 :=
        Int.emod_eq_of_lt (by omega) (by exact_mod_cast hk)
      have heq : cylH n (i, k) = wallKey ((k : Int), (i : Int)) ((k : Int) + 1, (i : Int)) := by
        simp only [cylH]
        rw [hmod]
      have hrel : edgeRel ws ((k : Int), (i : Int)) ((k : Int) + 1, (i : Int)) :=
        edgeRel_of_wallKey_mem (heq ▸ hwall)
      have hcast : ((k + 1 : Nat) : Int) = (k : Int) + 1 := by push_cast; ring
      rw [hcast]
      exact Relation.EqvGen.trans _ _ _
        (Relation.EqvGen.symm _ _ (Relation.EqvGen.rel _ _ hrel)) (ihk (by omega))
  intro a ha
  obtain ⟨i, hi, j, hj, rfl⟩ :=
    (mem_nodeFlat _ _ _ _).mp ((mem_nodesList _ _ _ _).mp ha)
  have hae : torusTransform m n (j : Int) (i : Int) =
      (((j % n : Nat) : Int), ((i % m : Nat) : Int)) := by
    simp only [torusTransform]
    rw [Int.natCast_mod, Int.natCast_mod]
  rw [hae]
  exact Relation.EqvGen.trans _ _ _
    (hrow (i % m) (Nat.mod_lt _ (by omega)) (j % n) (Nat.mod_lt _ (by omega)))
    (hcol (i % m) (Nat.mod_lt _ (by omega)))

theorem torus_gridK (m n : Nat) (hm : 3 ≤ m) (hn : 3 ≤ n) :
    gridK m n (torusTransform m n) = 1 := by
  rw [gridK]
  exact gufK_one (nodesList m n (torusTransform m n)) (wallsList m n (torusTransform m n))
    (nodesList_nodup m n _) (nodesList_ne_nil m n _) (wall_endpoints_mem m n _)
    (fun a ha b hb => Relation.EqvGen.trans _ _ _
      (torus_connRoot m n (by omega) (by omega) a ha)
      (Relation.EqvGen.symm _ _ (torus_connRoot m n (by omega) (by omega) b hb)))

theorem moebA_mem (m n : Nat) (hm : 1 ≤ m) {y j : Nat} (hy : y ≤ m) (hj : j + 1 < n) :
    moebA (y, j) ∈ wallsList m n (moebiusTransform m n) := by
  rw [mem_wallsList, mem_wallFlat]
  by_cases hym : y < m
  · refine ⟨y, hym, j, by omega, ?_⟩
    rw [moeb_wallKeys_lt m n y j hj]
    exact List.mem_cons_self _ _
  · refine ⟨y - 1, by omega, j, by omega, ?_⟩
    rw [moeb_wallKeys_lt m n (y-1) j hj]
    have hyr : y - 1 + 1 = y := by omega
    rw [hyr]
    exact List.mem_cons_of_mem _ (List.mem_cons_of_mem _ (List.mem_cons_self _ _))

theorem vWall_mem_moeb (m n : Nat) (hn : 2 ≤ n) {y j : Nat} (hy : y < m) (hj : j < n) :
    vWall (y, j) ∈ wallsList m n (moebiusTransform m n) := by
  rw [mem_wallsList, mem_wallFlat]
  by_cases hj1 : j + 1 < n
  · refine ⟨y, hy, j, hj, ?_⟩
    rw [moeb_wallKeys_lt m n y j hj1]
    exact List.mem_cons_of_mem _ (List.mem_cons_of_mem _
      (List.mem_cons_of_mem _ (List.mem_cons_self _ _)))
  · have hje : j = n - 1 := by omega
    refine ⟨y, hy, j, hj, ?_⟩
    rw [hje, moeb_wallKeys_seam m n hn y]
    exact List.mem_cons_of_mem _ (List.mem_cons_of_mem _
      (List.mem_cons_of_mem _ (List.mem_cons_self _ _)))

theorem moebPh_mem (m n : Nat) (hm : 1 ≤ m) (hn : 2 ≤ n) :
    moebPh ∈ wallsList m n (moebiusTransform m n) := by
  rw [mem_wallsList, mem_wallFlat]
  refine ⟨m - 1, by omega, n - 1, by omega, ?_⟩
  rw [moeb_wallKeys_seam m n hn (m-1)]
  have hph : moebPh = (((0 : Int), (m : Int) - ((m - 1 : Nat) : Int) - 2),
      ((0 : Int), (m : Int) - ((m - 1 : Nat) : Int) - 1)) := by
    rw [moebPh]
    have c1 : (m : Int) - ((m - 1 : Nat) : Int) - 2 = -1 := by omega
    have c2 : (m : Int) - ((m - 1 : Nat) : Int) - 1 = 0 := by omega
    rw [c1, c2]
  rw [hph]
  exact List.mem_cons_of_mem _ (List.mem_cons_self _ _)

theorem moebius_connRoot (m n : Nat) (hm : 1 ≤ m) (hn : 2 ≤ n) :
    ∀ a ∈ nodesList m n (moebiusTransform m n),
      Relation.EqvGen (edgeRel (wallsList m n (moebiusTransform m n))) a (0, 0) := by
  set ws := wallsList m n (moebiusTransform m n) with hws
  have hcol : ∀ i : Nat, i ≤ m →
      Relation.EqvGen (edgeRel ws) (((0 : Nat) : Int), (i : Int)) (0, 0) := by
    intro i
    induction i with
    | zero => intro _; exact Relation.EqvGen.refl _
    | succ k ihk =>
      intro hk
      have hwall : vWall (k, 0) ∈ ws := vWall_mem_moeb m n hn (by omega) (by omega)
      have hrel : edgeRel ws (((0 : Nat) : Int), (k : Int)) (((0 : Nat) : Int), (k : Int) + 1) :=
        Or.inl hwall
      have hcast : ((k + 1 : Nat) : Int) = (k : Int) + 1 := by push_cast; ring
      rw [hcast]
      exact Relation.EqvGen.trans _ _ _
        (Relation.EqvGen.symm _ _ (Relation.EqvGen.rel _ _ hrel)) (ihk (by omega))
  have hrow : ∀ (i : Nat), i ≤ m → ∀ j : Nat, j < n →
      Relation.EqvGen (edgeRel ws) ((j : Int), (i : Int)) (((0 : Nat) : Int), (i : Int)) := by
    intro i hi j
    induction j with
    | zero => intro _; exact Relation.EqvGen.refl _
    | succ k ihk =>
      intro hk
      have hwall : moebA (i, k) ∈ ws := moebA_mem m n hm hi (by omega)
      have hrel : edgeRel ws ((k : Int), (i : Int)) ((k : Int) + 1, (i : Int)) :=
        Or.inl hwall
      have hcast : ((k + 1 : Nat) : Int) = (k : Int) + 1 := by push_cast; ring
      rw [hcast]
      exact Relation.EqvGen.trans _ _ _
        (Relation.EqvGen.symm _ _ (Relation.EqvGen.rel _ _ hrel)) (ihk (by omega))
  have hph : Relation.EqvGen (edgeRel ws) ((0 : Int), (-1 : Int)) (0, 0) :=
    Relation.EqvGen.rel _ _ (Or.inl (moebPh_mem m n hm hn))
  intro a ha
  obtain ⟨i, hi, j, hj, rfl⟩ :=
    (mem_nodeFlat _ _ _ _).mp ((mem_nodesList _ _ _ _).mp ha)
  by_cases hjn : j < n
  · rw [moebiusTransform_lt m n hjn]
    exact Relation.EqvGen.trans _ _ _ (hrow i hi j hjn) (hcol i hi)
  · have hje : j = n := by omega
    rw [hje, moebiusTransform_seam m n (by omega)]
    by_cases him : i < m
    · have hc : (m : Int) - (i : Int) - 1 = ((m - i - 1 : Nat) : Int) := by omega
      rw [hc]
      exact hcol (m - i - 1) (by omega)
    · have hie : i = m := by omega
      have hc : (m : Int) - (i : Int) - 1 = -1 := by omega
      rw [hc]
      exact hph

theorem moebius_gridK (m n : Nat) (hm : 1 ≤ m) (hn : 3 ≤ n) :
    gridK m n (moebiusTransform m n) = 1 := by
  rw [gridK]
  exact gufK_one (nodesList m n (moebiusTransform m n)) (wallsList m n (moebiusTransform m n))
    (nodesList_nodup m n _) (nodesList_ne_nil m n _) (wall_endpoints_mem m n _)
    (fun a ha b hb => Relation.EqvGen.trans _ _ _
      (moebius_connRoot m n hm (by omega) a ha)
      (Relation.EqvGen.symm _ _ (moebius_connRoot m n hm (by omega) b hb)))

/-- C9 counterexample: the claimed formulas fail on degenerate column/row
counts.  A 1x2 cylinder has 4 walls, not 1*2+2*2 = 6 (opposite vertical
boundary walls of the 2-cell ring coincide); a 2x2 torus has 4 walls, not
2*(2*2) = 8; a 1x2 Moebius grid (even column count) has Euler characteristic
0, not -1.  The node, face and component counts of the claim do hold at these
sizes, isolating the failures to the wall counts. -/
theorem surface_characteristics_C9_counterexample :
    gridE 1 2 (cylinderTransform 2) = 4 ∧ 1 * 2 + (1 + 1) * 2 = 6 ∧
    gridV 1 2 (cylinderTransform 2) = 4 ∧ gridF 1 2 = 2 ∧
    gridK 1 2 (cylinderTransform 2) = 1 ∧
    gridE 2 2 (torusTransform 2 2) = 4 ∧ 2 * (2 * 2) = 8 ∧
    gridV 2 2 (torusTransform 2 2) = 4 ∧ gridF 2 2 = 4 ∧
    gridK 2 2 (torusTransform 2 2) = 1 ∧
    gridEulerChi 1 2 (moebiusTransform 1 2) = 0 := by
  decide

/-- C9 (amended): the claimed grid characteristics hold away from the
degenerate sizes.  For a cylinder with `m ≥ 1` rows and `n ≥ 3` columns,
`v = (m+1)n`, `e = mn + (m+1)n`, `f = mn` and `k = 1`; for a torus with
`m, n ≥ 3`, `v = mn`, `e = 2mn`, `f = mn` and `k = 1`; and for a Moebius
grid with `m ≥ 1` rows and an even number `n ≥ 4` of columns,
`Grid.Euler_chi = v - e + f - k = -1`. -/
theorem surface_characteristics_C9_amended (m n : Nat) :
    (1 ≤ m → 3 ≤ n →
      gridV m n (cylinderTransform n) = (m + 1) * n ∧
      gridE m n (cylinderTransform n) = m * n + (m + 1) * n ∧
      gridF m n = m * n ∧
      gridK m n (cylinderTransform n) = 1) ∧
    (3 ≤ m → 3 ≤ n →
      gridV m n (torusTransform m n) = m * n ∧
      gridE m n (torusTransform m n) = 2 * (m * n) ∧
      gridF m n = m * n ∧
      gridK m n (torusTransform m n) = 1) ∧
    (1 ≤ m → 4 ≤ n → n % 2 = 0 →
      gridEulerChi m n (moebiusTransform m n) = -1) := by
  refine ⟨?_, ?_, ?_⟩
  · intro hm hn
    exact ⟨cylinder_gridV m n (by omega), cylinder_gridE m n hm hn, gridF_eq m n,
      cylinder_gridK m n hm hn⟩
  · intro hm hn
    exact ⟨torus_gridV m n (by omega) (by omega), torus_gridE m n hm hn, gridF_eq m n,
      torus_gridK m n hm hn⟩
  · intro hm hn _
    rw [gridEulerChi, moebius_gridV m n (by omega), moebius_gridE m n hm (by omega),
      gridF_eq m n, moebius_gridK m n hm (by omega)]
    push_cast
    ring

/-- C8: hunt-and-kill terminates on every finite grid under every outcome of
the random choices (a fuel of one more than the number of cells always drains
the outer loop); the loop's exit condition is exactly "no unvisited cells or
the last hunt found nothing"; and whenever a run ends with a failed hunt while
cells remain unvisited, it has returned normally with a maze whose passage
graph has more than one component. -/
theorem hunt_kill_termination_C8 (choiceO : Nat → Nat) (v : HKVariant)
    (s0 : MazeState) (cells : List CellId) (start : CellId)
    (hf : Fresh s0) (hstart : start ∈ cells) :
    hkDone (huntKillOn choiceO v s0 cells start (cells.length + 1)) = true ∧
    (∀ st : HKSt, hkDone st = true ↔ (st.unvisited = ∅ ∨ st.curr = none)) ∧
    (∀ fuel : Nat, (huntKillOn choiceO v s0 cells start fuel).curr = none →
      (huntKillOn choiceO v s0 cells start fuel).unvisited ≠ ∅ →
      ¬ OneComponent (huntKillOn choiceO v s0 cells start fuel).s cells) := by
  refine ⟨?_, ?_, ?_⟩
  · rw [huntKillOn]
    apply loopIter_halts _ _ (fun st => st.unvisited.card)
      (fun st h => hkOuterStep_progress choiceO v st h)
    have h1 : (cells.toFinset.erase start).card ≤ cells.toFinset.card :=
      Finset.card_erase_le
    have h2 := cells.toFinset_card_le
    simp only
    omega
  · intro st
    rw [hkDone]
    simp
  · intro fuel hcurr hne
    have hInv : HKInv cells start (huntKillOn choiceO v s0 cells start fuel) := by
      rw [huntKillOn]
      refine loopIter_inv _ _ (HKInv cells start)
        (fun st h _ => hkOuterStep_inv choiceO v cells start st h) fuel _
        ⟨fun c hc => hc, fun c hc => hf c, ?_, ?_⟩
      · intro c hEq
        have hce : c = start := (Option.some.inj hEq).symm
        rw [hce]
        exact Finset.not_mem_erase _ _
      · intro pr hpr
        exact absurd hpr (List.not_mem_nil pr)
    obtain ⟨u, hu⟩ := Finset.nonempty_iff_ne_empty.mpr hne
    have huc := hInv.unvSub u hu
    have hucells : u ∈ cells := List.mem_toFinset.mp (Finset.mem_of_mem_erase huc)
    have hune : u ≠ start := Finset.ne_of_mem_erase huc
    intro hone
    have hconn : PassConn (huntKillOn choiceO v s0 cells start fuel).s u start :=
      hone.2 u hucells start hstart
    have hpassu : passages (huntKillOn choiceO v s0 cells start fuel).s u = [] := by
      rw [passages, hInv.unvEmpty u hu]
      rfl
    rcases Relation.ReflTransGen.cases_head hconn with heq | ⟨c, hstep, _⟩
    · exact hune heq
    · rw [plinked, hpassu] at hstep
      exact absurd hstep (List.not_mem_nil c)

theorem hunt_kill_termination_C8_witness :
    Fresh twoIslandMaze ∧ (0 : CellId) ∈ [0, 1] ∧
    (hkDone (huntKillOn (fun _ => 0) HKVariant.frontier twoIslandMaze [0, 1] 0
        (([0, 1] : List CellId).length + 1)) = true ∧
     (∀ st : HKSt, hkDone st = true ↔ (st.unvisited = ∅ ∨ st.curr = none)) ∧
     (∀ fuel : Nat,
       (huntKillOn (fun _ => 0) HKVariant.frontier twoIslandMaze [0, 1] 0 fuel).curr =
         none →
       (huntKillOn (fun _ => 0) HKVariant.frontier twoIslandMaze [0, 1] 0
         fuel).unvisited ≠ ∅ →
       ¬ OneComponent
         (huntKillOn (fun _ => 0) HKVariant.frontier twoIslandMaze [0, 1] 0 fuel).s
         [0, 1])) :=
  ⟨fun _ => rfl, by decide,
    hunt_kill_termination_C8 (fun _ => 0) HKVariant.frontier twoIslandMaze [0, 1] 0
      (fun _ => rfl) (by decide)⟩

/-- C1: in the spec's concrete 2x3 scenario the claimed values hold for
`Maze.v`, `Maze.k` and the per-cell degrees (cell `(1,1)`, id 4, is the only
cell of degree 3), and the intended edge count is 5; but `Maze.e` does not
return 5 — its body reads the unbound name `grid` and raises `NameError`, and
`Maze.Euler_chi`, which reads `self.e`, propagates the same error instead of
returning 0. -/
theorem scenario_2x3_C1 :
    mazeV (cellList 2 3) = 6 ∧
    mazeK c1Maze (cellList 2 3) = 1 ∧
    mazeEcount c1Maze (cellList 2 3) = 5 ∧
    mazeE c1Maze (cellList 2 3) = .error "NameError: name grid is not defined" ∧
    mazeEulerChi c1Maze (cellList 2 3) = .error "NameError: name grid is not defined" ∧
    (∀ c ∈ cellList 2 3, (passages c1Maze c).length ≤ 3) ∧
    (passages c1Maze 4).length = 3 ∧
    (∀ c ∈ cellList 2 3, (passages c1Maze c).length = 3 → c = 4) := by
  refine ⟨rfl, by decide, ?_, rfl, rfl, by decide, by decide, by decide⟩
  have h : (cellList 2 3).foldl
      (fun acc c =>
        let ps := (passages c1Maze c).dedup
        acc + ps.length + (if c ∈ ps then 1 else 0)) 0 = 10 := by decide
  simp only [mazeEcount, h]
  norm_num

/-- C3: a terminating run of the bounded-fan-out binary variant, from any
fresh grid, any root, any serve oracle (covering the DFS stack, the BFS queue,
the random Unqueue and the heap) and any shuffle oracle, leaves every cell
with at most 3 passages and the designated root with at most 2. -/
theorem binary_degree_bound_C3 {root : CellId} (pick : Nat → List Entry → Nat)
    (shuf : Nat → List CellId → List CellId) {s0 : MazeState} (hf : Fresh s0)
    (fuel : Nat) :
    (∀ c, (passages (binarySearchOn root pick shuf s0 fuel).s c).length ≤ 3) ∧
      (passages (binarySearchOn root pick shuf s0 fuel).s root).length ≤ 2 :=
  binRun_degrees pick shuf hf fuel

theorem binary_degree_bound_C3_witness :
    Fresh plusMaze ∧
    ((∀ c, (passages (binarySearchOn 0 stackPick idShuffle plusMaze 9).s c).length ≤ 3) ∧
      (passages (binarySearchOn 0 stackPick idShuffle plusMaze 9).s 0).length ≤ 2) :=
  ⟨fun _ => rfl, binary_degree_bound_C3 stackPick idShuffle (fun _ => rfl) 9⟩

/-- C4 counterexample: on the 3-cell path grid 0 - 1 - 2 with root 1, a
depth-first binary run terminates with the root holding two passages, so the
designated root is not limited to one passage: the guard
`parent == root and n > 1` only fires once the root already has two. -/
theorem binary_root_one_C4_counterexample :
    engDone (binarySearchOn 1 stackPick idShuffle lineMaze 6) = true ∧
    (passages (binarySearchOn 1 stackPick idShuffle lineMaze 6).s 1).length = 2 := by
  decide

/-- C4 amended: in any terminating run of the bounded-fan-out variant the
designated root ends with at most two passages (not one as claimed). -/
theorem binary_root_bound_C4_amended {root : CellId} (pick : Nat → List Entry → Nat)
    (shuf : Nat → List CellId → List CellId) {s0 : MazeState} (hf : Fresh s0)
    (fuel : Nat) :
    (passages (binarySearchOn root pick shuf s0 fuel).s root).length ≤ 2 :=
  (binRun_degrees pick shuf hf fuel).2

theorem binary_root_bound_C4_amended_witness :
    Fresh lineMaze ∧
    (passages (binarySearchOn 1 stackPick idShuffle lineMaze 6).s 1).length ≤ 2 :=
  ⟨fun _ => rfl, binary_root_bound_C4_amended stackPick idShuffle (fun _ => rfl) 6⟩

/-- C10: for every cell `c` and weight `w`, the directed `c.linkto(None)` is a
silent no-op returning the state unchanged, while the undirected
`c.link(None)` raises `AttributeError` (from `None.linkto(self)`) with the
state — in particular `c`'s own passage map — unchanged at the moment of the
raise. -/
theorem link_none_C10 (s : MazeState) (c : CellId) (w : Int) :
    linkto s c none w = s ∧
    link s c none w =
      .error ("AttributeError: NoneType object has no attribute linkto", s) :=
  ⟨rfl, rfl⟩

end Mazes
